import Mathlib

/-!
# SoftTSC: MPT1327 channel framing and MSK modem

A shallow embedding of `src/module/channel.c` and of the modulator and the demodulator
loop of `src/mskmodem/mskmodem.c`, with theorems about the frame check sequence, the
receive shift register, the codeword source, the tone queue, the Morse queue, the sound
bridge, the phase of the modulator, and the gate and the bit synchroniser of the
demodulator.

Conventions.  `guint64` values are natural numbers reduced modulo `2 ^ 64` where the C
code can overflow; C `int` values are integers without wrap-around (`%` is only applied to
a non-negative index and the positive ring size, where C and Lean agree); a `for` loop is a
left fold over `List.range n` or a recursion on the number of passes left; calls through
function pointers into the upstream code are recorded in trace fields of the channel
state.
-/

/-! ## Frame check sequence (`mpt1327_channel_fcs`, `mpt1327_channel_fcs_add`) -/

/-- One iteration of the first loop of `mpt1327_channel_fcs`; the state is `(ck, parity)`:
`b = cw >> (47-n) & 1; parity ^= b; if ((b ^ (ck >> 15)) & 1) ck ^= 0x6815; ck <<= 1;`
with `ck` a `guint64`. -/
def fcsStep (cw : Nat) (st : Nat × Nat) (n : Nat) : Nat × Nat :=
  let b := (cw >>> (47 - n)) &&& 1
  let parity := st.2 ^^^ b
  let ck := if (b ^^^ (st.1 >>> 15)) &&& 1 ≠ 0 then st.1 ^^^ 0x6815 else st.1
  ((ck <<< 1) % 2 ^ 64, parity)

/-- The first loop of `mpt1327_channel_fcs` run for `n` iterations from `ck = 0`,
`parity = 0`. -/
def fcsLoop (cw : Nat) (n : Nat) : Nat × Nat :=
  (List.range n).foldl (fcsStep cw) (0, 0)

/-- The second loop of `mpt1327_channel_fcs` run for `n` iterations:
`parity ^= ck >> (15-n) & 1`. -/
def fcsParityLoop (ck : Nat) (parity : Nat) (n : Nat) : Nat :=
  (List.range n).foldl (fun p i => p ^^^ ((ck >>> (15 - i)) &&& 1)) parity

/-- The function `mpt1327_channel_fcs`: the result is truncated to `guint16`. -/
def mpt1327_channel_fcs (cw : Nat) : Nat :=
  let st := fcsLoop cw 48
  let ck := (st.1 ^^^ 0x0002) &&& 0xFFFE
  let parity := fcsParityLoop ck st.2 16
  (ck ||| parity) % 2 ^ 16

/-- The function `mpt1327_channel_fcs_add`: `cw<<16 | m` on `guint64`. -/
def mpt1327_channel_fcs_add (cw : Nat) : Nat :=
  ((cw <<< 16) % 2 ^ 64) ||| mpt1327_channel_fcs cw

/-- Number of 1 bits among bits `0 .. n-1` of `w`. -/
def bitCount (w : Nat) : Nat → Nat
  | 0 => 0
  | n + 1 => bitCount w n + (w >>> n) % 2


/-! ## Data model (`channel.h`, `mskmodem.c`) -/

/-- Sample arithmetic that stays uninterpreted (single-precision floating point and the
libm functions): `zero` is the constant `0` stored by `buf[p] = 0`, `tone v duration freq` is
`tanhf(v + 0.6 * MSKMODEM_SOUND_FULLSCALE * sin(2.0*G_PI*duration*freq/48000.0))` and
`carrier fs phase padj` is `sin(2.0*G_PI*(fs * (phase/40.0) + padj))`. -/
structure SoundOps (S : Type) where
  zero : S
  tone : S → Int → Int → S
  carrier : Rat → Int → Rat → S

/-- The struct `MPT1327Tone`.  A completion function pointer is a number and `none` is
`NULL`. -/
structure MPT1327Tone where
  freq : Int
  duration : Int
  fcomp : Option Nat
  userdata : Nat
deriving DecidableEq

/-- The struct `MPT1327Channel`.  Arrays are functions of the C index.  `mutex` is true
while the `GMutex` is held.  The last three fields are not in the C struct: they record
the calls made through the function pointers `tx_callback` (how many so far),
`rx_callback` (the arguments, oldest first) and the tone completions `fcomp`
(function and userdata, oldest first). -/
structure MPT1327Channel (S : Type) where
  rx_cw : Nat
  enable_bridge : Int
  cbsnd : Int → S
  cbsnd_size : Int
  cbsnd_ready : Int
  cbsnd_wr : Int
  cbsnd_rd : Int
  cbtone : Int → MPT1327Tone
  cbtone_size : Int
  cbtone_ready : Int
  cbtone_wr : Int
  cbtone_rd : Int
  mutex : Bool
  tx_calls : Nat
  rx_log : List Nat
  fcomp_log : List (Nat × Nat)

/-- The modulator variables of `struct MSKModemContext_s`.  `padj` and `fs` are C floats
that only ever hold multiples of one half (`0`, `1.0`, `1.5` and sums of these reduced
modulo 1), on which float arithmetic is exact; they are rationals here. -/
structure MSKModemContext where
  current : Nat
  bitmask : Nat
  phase : Int
  padj : Rat
  fs : Rat

/-- The call `g_mutex_lock`: `none` when the mutex is already held (the caller blocks for
ever, nothing in these functions releases it for them). -/
def g_mutex_lock {S : Type} (ch : MPT1327Channel S) : Option (MPT1327Channel S) :=
  if ch.mutex then none else some { ch with mutex := true }

/-- The call `g_mutex_unlock`. -/
def g_mutex_unlock {S : Type} (ch : MPT1327Channel S) : MPT1327Channel S :=
  { ch with mutex := false }

/-- The call `memcpy(dst + d, src + s, n * sizeof(*dst))` on sample arrays. -/
def memcpy {S : Type} (dst : Int → S) (d : Int) (src : Int → S) (s : Int) (n : Int) : Int → S :=
  fun i => if d ≤ i ∧ i < d + n then src (s + (i - d)) else dst i

/-- The traffic channel sync word `SYNT`. -/
def SYNT : Nat := 0x3B28

namespace channel

/-- The static function `modem_tx` of `channel.c`.  `txcv k` is the value the upstream
`tx_callback` returns on its call number `k` (from 0); the first component of the result
is `*cw` on return. -/
def modem_tx {S : Type} (txcv : Nat → Nat) (cw : Nat) (ch : MPT1327Channel S) :
    Nat × MPT1327Channel S :=
  let cwtmp := txcv ch.tx_calls
  let ch := { ch with tx_calls := ch.tx_calls + 1 }
  if cwtmp = 1 then
    (0xAAAAAAAAAAAA0000 ||| SYNT, ch)
  else if cwtmp > 1 then
    (mpt1327_channel_fcs_add cwtmp, ch)
  else
    (cw, ch)

/-- The static function `modem_rx` of `channel.c`. -/
def modem_rx {S : Type} (bit : Nat) (ch : MPT1327Channel S) : MPT1327Channel S :=
  let rx_cw := (ch.rx_cw <<< 1) % 2 ^ 64
  let rx_cw := rx_cw ||| bit
  let ch := { ch with rx_cw := rx_cw }
  if mpt1327_channel_fcs (ch.rx_cw >>> 16) = ch.rx_cw &&& 0xFFFF then
    { ch with rx_log := ch.rx_log ++ [ch.rx_cw >>> 16] }
  else
    ch

/-- The tone mixing loop of `sound_tx`,
`for (i=0; i<samples && t->duration>0; i++)`, with `fuel = samples - i` iterations left.
The pointer `t` is `&ch->cbtone[ch->cbtone_rd]` at every test of the loop condition. -/
def tone_loop {S : Type} (ops : SoundOps S) :
    Nat → Int → MPT1327Channel S × (Int → S) → MPT1327Channel S × (Int → S)
  | 0, _, x => x
  | fuel + 1, i, (ch, buf) =>
    let t := ch.cbtone ch.cbtone_rd
    if t.duration > 0 then
      let v := ops.tone (buf i) t.duration t.freq
      let buf := Function.update buf i v
      let t := { t with duration := t.duration - 1 }
      let ch := { ch with cbtone := Function.update ch.cbtone ch.cbtone_rd t }
      let ch :=
        if t.duration = 0 then
          { ch with cbtone_rd := (ch.cbtone_rd + 1) % ch.cbtone_size,
                    cbtone_ready := ch.cbtone_ready - 1 }
        else ch
      tone_loop ops fuel (i + 1) (ch, buf)
    else
      (ch, buf)

/-- The bridge part of `sound_tx` (from the start to the end of the silence loop). -/
def sound_tx_bridge {S : Type} (ops : SoundOps S) (ch : MPT1327Channel S) (buf : Int → S)
    (samples : Int) : MPT1327Channel S × (Int → S) :=
  let r : MPT1327Channel S × (Int → S) × Int :=
    if ch.cbsnd_ready ≥ samples ∨ (ch.cbsnd_ready ≠ 0 ∧ ch.enable_bridge = 0) then
      let cbremain := ch.cbsnd_size - ch.cbsnd_rd
      let p := if ch.cbsnd_ready ≥ samples then samples else ch.cbsnd_ready
      let buf :=
        if cbremain ≥ p then
          memcpy buf 0 ch.cbsnd ch.cbsnd_rd p
        else
          memcpy (memcpy buf 0 ch.cbsnd ch.cbsnd_rd cbremain) cbremain ch.cbsnd 0 (p - cbremain)
      ({ ch with cbsnd_rd := (ch.cbsnd_rd + p) % ch.cbsnd_size,
                 cbsnd_ready := ch.cbsnd_ready - p }, buf, p)
    else
      (ch, buf, 0)
  (r.1, fun i => if r.2.2 ≤ i ∧ i < samples then ops.zero else r.2.1 i)

/-- The tone part of `sound_tx`, between `g_mutex_lock` and `g_mutex_unlock`. -/
def sound_tx_tones {S : Type} (ops : SoundOps S) (ch : MPT1327Channel S) (buf : Int → S)
    (samples : Int) : MPT1327Channel S × (Int → S) :=
  if ch.cbtone_ready ≠ 0 then
    let t := ch.cbtone ch.cbtone_rd
    let ch :=
      match t.fcomp with
      | some f =>
        { ch with fcomp_log := ch.fcomp_log ++ [(f, t.userdata)],
                  cbtone := Function.update ch.cbtone ch.cbtone_rd { t with fcomp := none } }
      | none => ch
    tone_loop ops samples.toNat 0 (ch, buf)
  else
    (ch, buf)

/-- The static function `sound_tx` of `channel.c`. -/
def sound_tx {S : Type} (ops : SoundOps S) (ch : MPT1327Channel S) (buf : Int → S)
    (samples : Int) : Option (MPT1327Channel S × (Int → S)) :=
  let r := sound_tx_bridge ops ch buf samples
  match g_mutex_lock r.1 with
  | none => none
  | some ch =>
    let r := sound_tx_tones ops ch r.2 samples
    some (g_mutex_unlock r.1, r.2)

end channel

/-- The function `mpt1327_channel_queue_tone`. -/
def mpt1327_channel_queue_tone {S : Type} (ch : MPT1327Channel S) (freq : Int)
    (duration : Int) (fcomp : Option Nat) (userdata : Nat) : Option (MPT1327Channel S) :=
  match g_mutex_lock ch with
  | none => none
  | some ch =>
    if ch.cbtone_ready ≥ ch.cbtone_size then
      some ch
    else
      let t : MPT1327Tone :=
        { freq := freq, duration := duration, fcomp := fcomp, userdata := userdata }
      let ch := { ch with cbtone := Function.update ch.cbtone ch.cbtone_wr t }
      let ch := { ch with cbtone_wr := (ch.cbtone_wr + 1) % ch.cbtone_size }
      let ch := { ch with cbtone_ready := ch.cbtone_ready + 1 }
      some (g_mutex_unlock ch)

/-- The channel as `mpt1327_channel_init` leaves it: `g_new0` zeroes the struct, the two rings
come from `g_new` and hold whatever `cbsnd0` and `cbtone0` say. -/
def mpt1327_channel_init {S : Type} (cbsnd0 : Int → S) (cbtone0 : Int → MPT1327Tone) :
    MPT1327Channel S :=
  { rx_cw := 0, enable_bridge := 0,
    cbsnd := cbsnd0, cbsnd_size := 10240, cbsnd_ready := 0, cbsnd_wr := 0, cbsnd_rd := 0,
    cbtone := cbtone0, cbtone_size := 512, cbtone_ready := 0, cbtone_wr := 0, cbtone_rd := 0,
    mutex := false, tx_calls := 0, rx_log := [], fcomp_log := [] }

/-- The modulator variables as `mskmodem_init` leaves them (`g_new0`). -/
def mskmodem_init : MSKModemContext :=
  { current := 0, bitmask := 0, phase := 0, padj := 0, fs := 0 }

namespace mskmodem

/-- The state update of one pass through the `for` loop of `modem_tx` in `mskmodem.c`
(the block `if (++u->phase > 40) ...`).  `tx_f cw ud` is the callback `u->tx_f(&cw, userdata)`
returning the new `*cw` and the new state of the userdata. -/
def tx_step {U : Type} (tx_f : Nat → U → Nat × U) (st : MSKModemContext × U) :
    MSKModemContext × U :=
  let u : MSKModemContext := { st.1 with phase := st.1.phase + 1 }
  if u.phase > 40 then
    let u : MSKModemContext := { u with phase := 1 }
    let st : MSKModemContext × U :=
      if u.bitmask = 0 then
        let u : MSKModemContext := { u with bitmask := 0x8000000000000000 }
        let u : MSKModemContext := { u with current := 0 }
        let r := tx_f u.current st.2
        ({ u with current := r.1 }, r.2)
      else
        (u, st.2)
    let u : MSKModemContext := st.1
    let u : MSKModemContext := { u with padj := u.padj + u.fs }
    let u : MSKModemContext := { u with padj := u.padj - (⌊u.padj⌋ : Int) }
    let u : MSKModemContext :=
      if u.current &&& u.bitmask ≠ 0 then
        { u with fs := 1.25 - 0.25 }
      else
        { u with fs := 1.25 + 0.25 }
    let u : MSKModemContext := { u with bitmask := u.bitmask >>> 1 }
    (u, st.2)
  else
    (u, st.2)

/-- The sample store at the end of one pass through the loop of `modem_tx`: the value of
`buf[i]` afterwards, `s` being its value before. -/
def tx_out {S : Type} (ops : SoundOps S) (u : MSKModemContext) (s : S) : S :=
  if u.current ≠ 0 then ops.carrier u.fs u.phase u.padj else s

/-- The `for` loop of `modem_tx` from index `i` on, with `fuel = samples - i` passes
left. -/
def tx_loop {U S : Type} (ops : SoundOps S) (tx_f : Nat → U → Nat × U) :
    Nat → Int → (MSKModemContext × U) × (Int → S) → (MSKModemContext × U) × (Int → S)
  | 0, _, x => x
  | fuel + 1, i, (st, buf) =>
    let st := tx_step tx_f st
    tx_loop ops tx_f fuel (i + 1) (st, Function.update buf i (tx_out ops st.1 (buf i)))

/-- The static function `modem_tx` of `mskmodem.c`; `tx_sound_f` is the callback
`u->tx_sound_f(buf, samples, userdata)`, which may block. -/
def modem_tx {U S : Type} (ops : SoundOps S) (tx_f : Nat → U → Nat × U)
    (tx_sound_f : U → (Int → S) → Int → Option (U × (Int → S)))
    (st : MSKModemContext × U) (buf : Int → S) (samples : Int) :
    Option ((MSKModemContext × U) × (Int → S)) :=
  match tx_sound_f st.2 buf samples with
  | none => none
  | some r => some (tx_loop ops tx_f samples.toNat 0 ((st.1, r.1), r.2))

/-- The modulator state after `n` samples, whatever the sample values. -/
def tx_run {U : Type} (tx_f : Nat → U → Nat × U) : Nat → MSKModemContext × U → MSKModemContext × U
  | 0, st => st
  | n + 1, st => tx_run tx_f n (tx_step tx_f st)

end mskmodem

/-! ## Bit streams between modulator and receiver -/

/-- Bit number `j` (0 is sent first) of a 64-bit codeword sent most significant bit
first. -/
def codeword_bit (w j : Nat) : Nat := (w >>> (63 - j)) &&& 1

/-- The 64 bits of a codeword in the order they are sent. -/
def codeword_bits (w : Nat) : List Nat := (List.range 64).map (codeword_bit w)

/-- The channel after the demodulator has handed the bits of the list, first to last, to
`modem_rx` of `channel.c`. -/
def rx_bits {S : Type} (bits : List Nat) (ch : MPT1327Channel S) : MPT1327Channel S :=
  bits.foldl (fun c b => channel.modem_rx b c) ch

/-- The codeword that `modem_tx` of `channel.c` hands to the modulator at the codeword
boundary number `k` (from 0) after the channel was in state `ch`. -/
def tx_codeword {S : Type} (txcv : Nat → Nat) (ch : MPT1327Channel S) (k : Nat) : Nat :=
  (channel.modem_tx txcv 0 { ch with tx_calls := ch.tx_calls + k }).1

/-- The modulator and channel after `n` samples from initialisation, with the channel
wired as `tx_f`. -/
def tx_state {S : Type} (txcv : Nat → Nat) (ch : MPT1327Channel S) (n : Nat) :
    MSKModemContext × MPT1327Channel S :=
  mskmodem.tx_run (channel.modem_tx txcv) n (mskmodem_init, ch)

/-- The bit an error-free demodulator recovers in bit period `m` (from 0; the first one
starts at sample 41): 1 for the mark frequency factor `1.0`, 0 for the space factor. -/
def tx_bit {S : Type} (txcv : Nat → Nat) (ch : MPT1327Channel S) (m : Nat) : Nat :=
  if (tx_state txcv ch (41 + 40 * m)).1.fs = 1 then 1 else 0

/-- Successive calls of `modem_tx` of `mskmodem.c` by the sound backend, one for each
buffer and sample count of the list, with the callbacks that `mpt1327_channel_init` passes to
`mskmodem_init`. -/
def tx_blocks {S : Type} (ops : SoundOps S) (txcv : Nat → Nat) :
    List ((Int → S) × Int) → MSKModemContext × MPT1327Channel S →
      Option (MSKModemContext × MPT1327Channel S)
  | [], st => some st
  | b :: rest, st =>
    match mskmodem.modem_tx ops (channel.modem_tx txcv) (channel.sound_tx ops) st b.1 b.2 with
    | none => none
    | some r => tx_blocks ops txcv rest r.1

/-! ## Bridge ring, Morse queue and demodulator (`channel.c`, `mskmodem.c`) -/

namespace channel

/-- The static function `sound_rx` of `channel.c`. -/
def sound_rx {S : Type} (ch : MPT1327Channel S) (buf : Int → S) (samples : Int) :
    MPT1327Channel S :=
  if ch.enable_bridge ≠ 0 then
    let cbremain := ch.cbsnd_size - ch.cbsnd_wr
    let cbsnd :=
      if cbremain ≥ samples then
        memcpy ch.cbsnd ch.cbsnd_wr buf 0 samples
      else
        memcpy (memcpy ch.cbsnd ch.cbsnd_wr buf 0 cbremain) 0 buf 0 (samples - cbremain)
    { ch with cbsnd := cbsnd,
              cbsnd_wr := (ch.cbsnd_wr + samples) % ch.cbsnd_size,
              cbsnd_ready := ch.cbsnd_ready + samples }
  else
    ch

end channel

/-- The function `mpt1327_channel_bridge`. -/
def mpt1327_channel_bridge {S : Type} (ch : MPT1327Channel S) (bridge : Int) :
    MPT1327Channel S :=
  { ch with enable_bridge := bridge }

/-- The table `morsetable` of `channel.c` (without the terminating `NULL`); each entry is
the character followed by its pattern. -/
def morsetable : List (List Char) :=
  ["A.-", "B-...", "C-.-.", "D-..", "E.", "F..-.", "G--.", "H....", "I..",
   "J.---", "K-.-", "L.-..", "M--", "N-.", "O---", "P.--.", "Q--.-", "R.-.",
   "S...", "T-", "U..-", "V...-", "W.--", "X-..-", "Y-.--", "Z--..",
   "0-----", "1.----", "2..---", "3...--", "4....-", "5.....", "6-....",
   "7--...", "8---..", "9----."].map String.toList

/-- The loop `while (*r)` of `mpt1327_channel_queue_morse` over the pattern of a table
entry, with `c = 3200`. -/
def queue_morse_pattern {S : Type} (ch : MPT1327Channel S) :
    List Char → Option (MPT1327Channel S)
  | [] => some ch
  | r :: rest =>
    (if r = '.' then
        mpt1327_channel_queue_tone ch 800 (1 * 3200) none 0
      else
        mpt1327_channel_queue_tone ch 800 (3 * 3200) none 0).bind
      (fun ch => (mpt1327_channel_queue_tone ch 0 (1 * 3200) none 0).bind
        (fun ch => queue_morse_pattern ch rest))

/-- The table search `while (*p)` of `mpt1327_channel_queue_morse` for the character `s`:
the first entry whose first character is `s` is played and ends the search. -/
def queue_morse_lookup {S : Type} (ch : MPT1327Channel S) (s : Char) :
    List (List Char) → Option (MPT1327Channel S)
  | [] => some ch
  | p :: rest =>
    if p.head? = some s then
      queue_morse_pattern ch p.tail
    else
      queue_morse_lookup ch s rest

/-- The loop `while (*s)` of `mpt1327_channel_queue_morse` over the characters of the
string. -/
def queue_morse_chars {S : Type} (ch : MPT1327Channel S) :
    List Char → Option (MPT1327Channel S)
  | [] => some ch
  | s :: rest =>
    (queue_morse_lookup ch s morsetable).bind
      (fun ch => (mpt1327_channel_queue_tone ch 0 (2 * 3200) none 0).bind
        (fun ch =>
          (if s = ' ' then mpt1327_channel_queue_tone ch 0 (4 * 3200) none 0 else some ch).bind
            (fun ch => queue_morse_chars ch rest)))

/-- The function `mpt1327_channel_queue_morse`.  The C string is the list of its `char`s
before the terminating NUL; a `NULL` userdata is 0. -/
def mpt1327_channel_queue_morse {S : Type} (ch : MPT1327Channel S) (str : List Char)
    (fcomp : Option Nat) (userdata : Nat) : Option (MPT1327Channel S) :=
  (queue_morse_chars ch str).bind
    (fun ch =>
      match fcomp with
      | some f => mpt1327_channel_queue_tone ch 0 (4 * 3200) (some f) userdata
      | none => some ch)

/-- Consecutive calls of `mpt1327_channel_queue_tone`, one for each tone of the list. -/
def queue_tones {S : Type} : List MPT1327Tone → MPT1327Channel S → Option (MPT1327Channel S)
  | [], ch => some ch
  | t :: rest, ch =>
    (mpt1327_channel_queue_tone ch t.freq t.duration t.fcomp t.userdata).bind
      (queue_tones rest)

/-- The Morse pattern of a character as the specification words it: the dots and dashes of
its table entry, nothing for a character that is not in the table. -/
def spec_morse_symbols (s : Char) : List Char :=
  match morsetable.find? (fun p => p.head? = some s) with
  | some p => p.tail
  | none => []

/-- The tones the specification lists for one character: for every symbol an 800 Hz tone of
3200 samples (dot) or 9600 samples (dash) followed by 3200 samples of silence, then 6400
samples of silence, then 12800 more for a space. -/
def spec_morse_char (s : Char) : List MPT1327Tone :=
  (spec_morse_symbols s).flatMap
      (fun r => [⟨800, if r = '.' then 3200 else 9600, none, 0⟩, ⟨0, 3200, none, 0⟩])
    ++ [⟨0, 6400, none, 0⟩]
    ++ (if s = ' ' then [⟨0, 12800, none, 0⟩] else [])

/-- The tones the specification lists for a string and a completion. -/
def spec_morse (str : List Char) (fcomp : Option Nat) (userdata : Nat) : List MPT1327Tone :=
  str.flatMap spec_morse_char
    ++ (match fcomp with
        | some f => [⟨0, 12800, some f, userdata⟩]
        | none => [])

/-- Float arithmetic of the demodulator, left uninterpreted: the constant `0`, `+`, `*`,
the conversion of an `int` to `float`, the comparisons `x < 0`, `x >= 0` and `x > 0.5f`, and
the coefficient tables. -/
structure DemodOps (S : Type) where
  zero : S
  add : S → S → S
  mul : S → S → S
  ofInt : Int → S
  lt0 : S → Bool
  ge0 : S → Bool
  gtHalf : S → Bool
  fir900to2100 : Int → S
  fir600 : Int → S

/-- The demodulator variables of `struct MSKModemContext_s` that `modem_rx` uses. -/
structure MSKDemodContext (S : Type) where
  pll : Int
  filterpos : Int
  initfilter : Int → S
  last : S
  discpos : Int
  discqueue : Int → Int
  discfilter : Int → S
  mst : Int
  slast : Int
  pll_count : Int

/-- The demodulator variables as `mskmodem_init` leaves them (`g_new0`, then
`ctx->pll = 40`). -/
def mskmodem_demod_init {S : Type} (ops : DemodOps S) : MSKDemodContext S :=
  { pll := 40, filterpos := 0, initfilter := fun _ => ops.zero, last := ops.zero,
    discpos := 0, discqueue := fun _ => 0, discfilter := fun _ => ops.zero,
    mst := 0, slast := 0, pll_count := 0 }

namespace mskmodem

/-- The static function `convolvesum`. -/
def convolvesum {S : Type} (ops : DemodOps S) (sig coeff : Int → S) (len : Int)
    (sigstart : Int) : S :=
  ((List.range len.toNat).foldl
    (fun (st : S × Int) n =>
      (ops.add st.1 (ops.mul (sig st.2) (coeff n)),
        if st.2 = 0 then len - 1 else st.2 - 1))
    (ops.zero, sigstart)).1

/-- First part of a pass through the `for` loop of `modem_rx` in `mskmodem.c` on the sample
`x`: initial filter and zero crossing detector. -/
def rx_zero_crossing {S : Type} (ops : DemodOps S) (x : S) (u : MSKDemodContext S) :
    MSKDemodContext S :=
  let u : MSKDemodContext S := { u with initfilter := Function.update u.initfilter u.filterpos x }
  let v := convolvesum ops u.initfilter ops.fir900to2100 50 u.filterpos
  let u : MSKDemodContext S :=
    if (ops.lt0 u.last && ops.ge0 v) || (ops.ge0 u.last && ops.lt0 v) then
      { u with mst := 40 / 3 }
    else u
  { u with last := v }

/-- Second part of a pass: monostable and discriminator; the second component is the
local `b` afterwards. -/
def rx_discriminator {S : Type} (u : MSKDemodContext S) : MSKDemodContext S × Int :=
  let b : Int := if u.mst > 0 then 1 else 0
  let u : MSKDemodContext S := if u.mst > 0 then { u with mst := u.mst - 1 } else u
  let u : MSKDemodContext S := { u with discqueue := Function.update u.discqueue u.discpos b }
  let t : Int := if u.discpos - 40 / 3 < 0 then u.discpos - 40 / 3 + 15 else u.discpos - 40 / 3
  let b : Int := Int.land b (u.discqueue t)
  let t : Int := if u.discpos - 40 / 6 < 0 then u.discpos - 40 / 6 + 15 else u.discpos - 40 / 6
  let b : Int := Int.land b (u.discqueue t)
  let b : Int := 1 - b
  let u : MSKDemodContext S :=
    if u.discpos + 1 ≥ 15 then { u with discpos := 0 } else { u with discpos := u.discpos + 1 }
  (u, b)

/-- Third part of a pass: low pass of the discriminator output `b`, bit detector and
transition detector; the result carries the locals `b` and `snrz`. -/
def rx_slicer {S : Type} (ops : DemodOps S) (u : MSKDemodContext S) (b : Int) :
    MSKDemodContext S × (Int × Int) :=
  let u : MSKDemodContext S :=
    { u with discfilter := Function.update u.discfilter u.filterpos (ops.ofInt b) }
  let v := convolvesum ops u.discfilter ops.fir600 50 u.filterpos
  let b : Int := if ops.gtHalf v then 1 else 0
  let snrz : Int := if b ≠ u.slast then 1 else 0
  let u : MSKDemodContext S := if b ≠ u.slast then { u with slast := b } else u
  (u, (b, snrz))

/-- Fourth part of a pass: the bit synchroniser (early/late gate, reference generator and
reference adjust) on the sliced bit `b` with transition flag `snrz`.  The state is the
context, the userdata of the callbacks and the locals `pll_early` and `pll_late`;
`rx_f b ud` is the callback `u->rx_f(b, userdata)`. -/
def rx_pll {U S : Type} (rx_f : Nat → U → U) (b snrz : Int)
    (st : (MSKDemodContext S × U) × (Int × Int)) : (MSKDemodContext S × U) × (Int × Int) :=
  let u : MSKDemodContext S := st.1.1
  let pll_early : Int := if u.pll_count < 40 / 2 - 1 ∧ snrz ≠ 0 then 1 else st.2.1
  let pll_late : Int :=
    if u.pll_count < 40 / 2 - 1 ∧ snrz ≠ 0 then st.2.2
    else if u.pll_count > 40 / 2 + 1 ∧ snrz ≠ 0 then 1 else st.2.2
  let pll_reset : Bool :=
    (u.pll_count = 40 - 1 - 2 ∧ pll_early ≠ 0 ∧ pll_late = 0) ∨
    (u.pll_count = 40 - 1 ∧ pll_early = 0 ∧ pll_late = 0) ∨
    (u.pll_count = 40 - 1 ∧ pll_early ≠ 0 ∧ pll_late ≠ 0) ∨
    (u.pll_count = 40 + 1 + 2)
  let ud : U :=
    if u.pll_count > 40 / 2 then st.1.2
    else if u.pll = 0 then rx_f b.toNat st.1.2 else st.1.2
  let u : MSKDemodContext S :=
    if u.pll_count > 40 / 2 then { u with pll := 0 } else { u with pll := 1 }
  let u : MSKDemodContext S :=
    if pll_reset then { u with pll_count := 0 } else { u with pll_count := u.pll_count + 1 }
  ((u, ud), (if pll_reset then 0 else pll_early, if pll_reset then 0 else pll_late))

/-- One pass through the `for` loop of `modem_rx` in `mskmodem.c` on the sample `x`: the
four parts in order, then `if (++u->filterpos >= 50) u->filterpos = 0`.  The locals
`pll_early` and `pll_late` are the only ones that keep their value from one pass to the
next. -/
def rx_step {U S : Type} (ops : DemodOps S) (rx_f : Nat → U → U) (x : S)
    (st : (MSKDemodContext S × U) × (Int × Int)) : (MSKDemodContext S × U) × (Int × Int) :=
  let d := rx_discriminator (rx_zero_crossing ops x st.1.1)
  let s := rx_slicer ops d.1 d.2
  let r := rx_pll rx_f s.2.1 s.2.2 ((s.1, st.1.2), st.2)
  let u : MSKDemodContext S := r.1.1
  let u : MSKDemodContext S :=
    if u.filterpos + 1 ≥ 50 then { u with filterpos := 0 }
    else { u with filterpos := u.filterpos + 1 }
  ((u, r.1.2), r.2)

/-- The `for` loop of `modem_rx` from index `i` on, with `fuel` passes left. -/
def rx_loop {U S : Type} (ops : DemodOps S) (rx_f : Nat → U → U) (s : Int → S) :
    Nat → Int → (MSKDemodContext S × U) × (Int × Int) →
      (MSKDemodContext S × U) × (Int × Int)
  | 0, _, st => st
  | fuel + 1, i, st => rx_loop ops rx_f s fuel (i + 1) (rx_step ops rx_f (s i) st)

/-- The static function `modem_rx` of `mskmodem.c`: the sound callback, then the loop
`for (i=0; i<samples-1; i++)` with `pll_early = 0` and `pll_late = 0` on entry. -/
def modem_rx {U S : Type} (ops : DemodOps S) (rx_f : Nat → U → U)
    (rx_sound_f : U → (Int → S) → Int → U) (st : MSKDemodContext S × U) (s : Int → S)
    (samples : Int) : MSKDemodContext S × U :=
  (rx_loop ops rx_f s (samples - 1).toNat 0 ((st.1, rx_sound_f st.2 s samples), (0, 0))).1

end mskmodem

/-- The buffer that holds the `n` samples of `s` followed by the samples of `t`. -/
def buf_append {S : Type} (s : Int → S) (n : Int) (t : Int → S) : Int → S :=
  fun i => if i < n then s i else t (i - n)

/-! ## Call sequences on the bridge ring -/

/-- A call on the bridge side of the channel, with its arguments:
`mpt1327_channel_bridge`, `sound_rx` or `sound_tx`. -/
inductive BridgeCall (S : Type) where
  | bridge (b : Int)
  | rx (buf : Int → S) (samples : Int)
  | tx (buf : Int → S) (samples : Int)

/-- The channel after one call on the bridge side. -/
def bridge_call {S : Type} (ops : SoundOps S) (ch : MPT1327Channel S) :
    BridgeCall S → Option (MPT1327Channel S)
  | .bridge b => some (mpt1327_channel_bridge ch b)
  | .rx buf samples => some (channel.sound_rx ch buf samples)
  | .tx buf samples => (channel.sound_tx ops ch buf samples).map (fun r => r.1)

/-- The channel after a sequence of calls on the bridge side. -/
def bridge_calls {S : Type} (ops : SoundOps S) :
    List (BridgeCall S) → MPT1327Channel S → Option (MPT1327Channel S)
  | [], ch => some ch
  | c :: rest, ch => (bridge_call ops ch c).bind (bridge_calls ops rest)

/-- No call of the sequence has a negative sample count, and no `sound_rx` call made with
the bridge enabled passes more samples than the ring has free. -/
def bridge_calls_fit {S : Type} (ops : SoundOps S) :
    List (BridgeCall S) → MPT1327Channel S → Prop
  | [], _ => True
  | c :: rest, ch =>
    (match c with
      | .bridge _ => True
      | .rx _ samples =>
        0 ≤ samples ∧ (ch.enable_bridge ≠ 0 → ch.cbsnd_ready + samples ≤ ch.cbsnd_size)
      | .tx _ samples => 0 ≤ samples) ∧
    (match bridge_call ops ch c with
      | some r => bridge_calls_fit ops rest r
      | none => True)

/-! ## Phase argument of the carrier -/

/-- The argument of the carrier sample in cycles, `u->fs * (u->phase/40.0) + u->padj`
(the sample is `sin(2.0*G_PI*...)` of it), in exact rational arithmetic. -/
def tx_theta (u : MSKModemContext) : Rat :=
  u.fs * (u.phase / 40) + u.padj

/-! ## Sequences of sound callbacks -/

/-- Successive calls of `sound_tx` by the modem, one for each buffer and sample count of
the list. -/
def sound_tx_calls {S : Type} (ops : SoundOps S) :
    List ((Int → S) × Int) → MPT1327Channel S → Option (MPT1327Channel S)
  | [], ch => some ch
  | b :: rest, ch =>
    (channel.sound_tx ops ch b.1 b.2).bind (fun r => sound_tx_calls ops rest r.1)

/-! ## Rotations of a 64-bit word -/

/-- The 64-bit word `w` rotated left by `r` bits (`r` at most 64). -/
def rotl64 (w r : Nat) : Nat :=
  ((w <<< r) ||| (w >>> (64 - r))) % 2 ^ 64

/-! ## Bit synchroniser of the demodulator (`mskmodem.c`) -/

namespace mskmodem

/-- The part of a pass through the loop of `modem_rx` before the bit synchroniser: both
filters, the discriminator and the bit detector.  The second component is the sliced bit
`b`. -/
def rx_bit_detector {S : Type} (ops : DemodOps S) (x : S) (u : MSKDemodContext S) :
    MSKDemodContext S × Int :=
  let d := rx_discriminator (rx_zero_crossing ops x u)
  let u : MSKDemodContext S :=
    { d.1 with discfilter := Function.update d.1.discfilter d.1.filterpos (ops.ofInt d.2) }
  let v := convolvesum ops u.discfilter ops.fir600 50 u.filterpos
  (u, if ops.gtHalf v then 1 else 0)

/-- The lines `snrz = 0; if (b != u->slast) { u->slast = b; snrz = 1; }` of the loop; the
second component is `snrz`. -/
def rx_transition {S : Type} (u : MSKDemodContext S) (b : Int) : MSKDemodContext S × Int :=
  (if b ≠ u.slast then { u with slast := b } else u, if b ≠ u.slast then 1 else 0)

/-- The bit synchroniser of the loop, from `// PLL sync` to the last
`// PLL reference adjust`, on the sliced bit `b`. -/
def rx_bit_sync {U S : Type} (rx_f : Nat → U → U) (b : Int)
    (st : (MSKDemodContext S × U) × (Int × Int)) : (MSKDemodContext S × U) × (Int × Int) :=
  let t := rx_transition st.1.1 b
  rx_pll rx_f b t.2 ((t.1, st.1.2), st.2)

/-- The line `if (++u->filterpos >= 50) u->filterpos = 0` at the end of a pass. -/
def rx_advance {S : Type} (u : MSKDemodContext S) : MSKDemodContext S :=
  if u.filterpos + 1 ≥ 50 then { u with filterpos := 0 }
  else { u with filterpos := u.filterpos + 1 }

end mskmodem

/-- The demodulator after the first `k` samples that the loop of `modem_rx` has processed,
`xs i` being sample number `i` and `fresh i` telling that it is the first one of a
`modem_rx` call, where the locals `pll_early` and `pll_late` are 0 again. -/
def rx_stream {U S : Type} (ops : DemodOps S) (rx_f : Nat → U → U) (xs : Nat → S)
    (fresh : Nat → Bool) (st0 : MSKDemodContext S × U) :
    Nat → (MSKDemodContext S × U) × (Int × Int)
  | 0 => (st0, (0, 0))
  | k + 1 =>
    mskmodem.rx_step ops rx_f (xs k)
      ((rx_stream ops rx_f xs fresh st0 k).1,
        if fresh k then (0, 0) else (rx_stream ops rx_f xs fresh st0 k).2)

/-- Successive calls of `modem_rx` of `mskmodem.c` by the sound backend, one for each
buffer and sample count of the list. -/
def rx_calls {U S : Type} (ops : DemodOps S) (rx_f : Nat → U → U)
    (rx_sound_f : U → (Int → S) → Int → U) :
    List ((Int → S) × Int) → MSKDemodContext S × U → MSKDemodContext S × U
  | [], st => st
  | b :: rest, st =>
    rx_calls ops rx_f rx_sound_f rest (mskmodem.modem_rx ops rx_f rx_sound_f st b.1 b.2)

/-- The bit synchroniser fed with sliced bits: the state after `k` bits of `bits`. -/
def pll_stream {U S : Type} (rx_f : Nat → U → U) (bits : Nat → Int)
    (st0 : (MSKDemodContext S × U) × (Int × Int)) :
    Nat → (MSKDemodContext S × U) × (Int × Int)
  | 0 => st0
  | k + 1 => mskmodem.rx_bit_sync rx_f (bits k) (pll_stream rx_f bits st0 k)

/-- A sliced bit stream that has the value `pol` before sample `a` and toggles at the
samples `a`, `a + 40`, `a + 80`, ... -/
def square_wave (a pol : Nat) (t : Nat) : Int :=
  if t < a then (pol : Int) else (((t - a) / 40 + pol + 1) % 2 : Nat)

/-- The bit synchroniser on the variables that decide the resets: the state is
`(pll_count, slast, pll_early, pll_late)`. -/
def pll_core (b : Int) (s : Int × Int × Int × Int) : Int × Int × Int × Int :=
  let c := s.1
  let snrz : Int := if b ≠ s.2.1 then 1 else 0
  let pll_early : Int := if c < 40 / 2 - 1 ∧ snrz ≠ 0 then 1 else s.2.2.1
  let pll_late : Int :=
    if c < 40 / 2 - 1 ∧ snrz ≠ 0 then s.2.2.2
    else if c > 40 / 2 + 1 ∧ snrz ≠ 0 then 1 else s.2.2.2
  let pll_reset : Bool :=
    (c = 40 - 1 - 2 ∧ pll_early ≠ 0 ∧ pll_late = 0) ∨
    (c = 40 - 1 ∧ pll_early = 0 ∧ pll_late = 0) ∨
    (c = 40 - 1 ∧ pll_early ≠ 0 ∧ pll_late ≠ 0) ∨
    (c = 40 + 1 + 2)
  if pll_reset then (0, b, 0, 0) else (c + 1, b, pll_early, pll_late)

/-- The states of `pll_core` along a bit stream. -/
def pll_core_stream (bits : Nat → Int) (s0 : Int × Int × Int × Int) :
    Nat → Int × Int × Int × Int
  | 0 => s0
  | k + 1 => pll_core (bits k) (pll_core_stream bits s0 k)

/-! ## Exact arithmetic for the filters -/

/-- The table `fir900to2100` of `mskmodem.c`, every coefficient multiplied by `10^7`. -/
def fir900to2100 : List Int :=
  [3829, 483, -3554, -9058,
   -16643, -26639, -38995, -53223, -68404, -83243, -96175,
   -105523, -109671, -107252, -97326, -79517, -54107, -22065,
   14986, 54883, 95081, 132861, 165563, 190822, 206773,
   212227, 206773, 190822, 165563, 132861, 95081, 54883,
   14986, -22065, -54107, -79517, -97326, -107252, -109671,
   -105523, -96175, -83243, -68404, -53223, -38995, -26639,
   -16643, -9058, -3554, 483, 3829]

/-- The table `fir600` of `mskmodem.c`, every coefficient multiplied by `10^7`. -/
def fir600 : List Int :=
  [15393, 17254, 20791, 26251,
   33837, 43697, 55914, 70505, 87412, 106507, 127585,
   150375, 174540, 199689, 225380, 251141, 276471, 300864,
   323815, 344841, 363486, 379345, 392064, 401360, 407023,
   408925, 407023, 401360, 392064, 379345, 363486, 344841,
   323815, 300864, 276471, 251141, 225380, 199689, 174540,
   150375, 127585, 106507, 87412, 70505, 55914, 43697,
   33837, 26251, 20791, 17254, 15393]

/-- The float operations of the demodulator in exact arithmetic: samples are integers, the
filter outputs are in units of `10^-7`, so `v > 0.5f` is `v > 5000000`. -/
def exact_ops : DemodOps Int :=
  { zero := 0, add := fun a b => a + b, mul := fun a b => a * b, ofInt := fun b => b,
    lt0 := fun v => decide (v < 0), ge0 := fun v => decide (v ≥ 0),
    gtHalf := fun v => decide (v > 5000000),
    fir900to2100 := fun n => fir900to2100.getD n.toNat 0,
    fir600 := fun n => fir600.getD n.toNat 0 }

/-- The demodulator variables after `k` samples of silence (all samples 0) in exact
arithmetic, but for the three variables of the bit synchroniser, which are given. -/
def silence_state (k : Nat) (pll pll_count slast : Int) : MSKDemodContext Int :=
  { pll := pll, filterpos := k, initfilter := fun _ => 0, last := 0, discpos := (k % 15 : Nat),
    discqueue := fun _ => 0, discfilter := fun i => if 0 ≤ i ∧ i < (k : Int) then 1 else 0,
    mst := 0, slast := slast, pll_count := pll_count }

/-- The sliced bits that silence gives from `mskmodem_init` on: the low pass output
passes one half at the 26th sample. -/
def silence_bits (t : Nat) : Int := if 25 ≤ t then 1 else 0

/-! ## Pull-in time of the bit synchroniser -/

/-- The number of samples that the bit synchroniser takes from a reset (`pll_count = 0`,
flags clear) with the next toggle of the sliced bits `d` samples ahead to the state with
`pll_count = 39` that resets: a toggle before count 19 shortens the cycle to 38 samples and
moves the toggle 2 samples later, one after count 21 lengthens it to 44 samples and moves
the toggle 4 samples earlier.  `none` when the fuel runs out. -/
def pull_in_time : Nat → Nat → Option Nat
  | 0, _ => none
  | fuel + 1, d =>
    if d < 19 then (pull_in_time fuel (d + 2)).map (fun k => 38 + k)
    else if d ≤ 21 ∨ 40 ≤ d then some 39
    else (pull_in_time fuel (d - 4)).map (fun k => 44 + k)

/-! ## Theorems: frame check sequence -/

theorem fcs_lt (cw : Nat) : mpt1327_channel_fcs cw < 2 ^ 16 := by
  unfold mpt1327_channel_fcs
  exact Nat.mod_lt _ (by norm_num)

theorem or_low_eq_add (a m : Nat) (hm : m < 2 ^ 16) : (a <<< 16) ||| m = 2 ^ 16 * a + m := by
  rw [Nat.shiftLeft_eq, Nat.mul_comm]
  exact (Nat.mul_add_lt_is_or hm a).symm

theorem fcs_add_eq (p : Nat) (hp : p < 2 ^ 48) :
    mpt1327_channel_fcs_add p = 2 ^ 16 * p + mpt1327_channel_fcs p := by
  unfold mpt1327_channel_fcs_add
  have h : (p <<< 16) % 2 ^ 64 = p <<< 16 := by
    apply Nat.mod_eq_of_lt
    rw [Nat.shiftLeft_eq]
    omega
  rw [h, or_low_eq_add _ _ (fcs_lt p)]

theorem fcs_add_decompose (p : Nat) (hp : p < 2 ^ 48) :
    mpt1327_channel_fcs_add p = (p <<< 16) ||| mpt1327_channel_fcs p ∧
    mpt1327_channel_fcs_add p >>> 16 = p ∧
    mpt1327_channel_fcs (mpt1327_channel_fcs_add p >>> 16)
      = mpt1327_channel_fcs_add p &&& 0xFFFF := by
  have hm := fcs_lt p
  have hadd := fcs_add_eq p hp
  have h1 : mpt1327_channel_fcs_add p >>> 16 = p := by
    rw [hadd, Nat.shiftRight_eq_div_pow]
    omega
  have h2 : mpt1327_channel_fcs_add p &&& 0xFFFF = mpt1327_channel_fcs p := by
    have : (0xFFFF : Nat) = 2 ^ 16 - 1 := by norm_num
    rw [this, Nat.and_pow_two_sub_one_eq_mod, hadd]
    omega
  refine ⟨?_, h1, ?_⟩
  · rw [hadd, or_low_eq_add _ _ hm]
  · rw [h1, h2]

/-- Claim C1: for every 48-bit payload `p`, `mpt1327_channel_fcs_add p` is
`(p << 16) | fcs(p)`, its upper 48 bits are `p`, and the FCS of its upper 48 bits equals its
lower 16 bits, so the receiver's check passes. -/
theorem fcs_add_passes_check (p : Nat) (hp : p < 2 ^ 48) :
    mpt1327_channel_fcs_add p = (p <<< 16) ||| mpt1327_channel_fcs p ∧
    mpt1327_channel_fcs_add p >>> 16 = p ∧
    mpt1327_channel_fcs (mpt1327_channel_fcs_add p >>> 16)
      = mpt1327_channel_fcs_add p &&& 0xFFFF := by
  have hm := fcs_lt p
  have hadd := fcs_add_eq p hp
  have h1 : mpt1327_channel_fcs_add p >>> 16 = p := by
    rw [hadd, Nat.shiftRight_eq_div_pow]
    omega
  have h2 : mpt1327_channel_fcs_add p &&& 0xFFFF = mpt1327_channel_fcs p := by
    have e : (0xFFFF : Nat) = 2 ^ 16 - 1 := by norm_num
    rw [e, Nat.and_pow_two_sub_one_eq_mod, hadd]
    omega
  exact ⟨by rw [hadd, or_low_eq_add _ _ hm], h1, by rw [h1, h2]⟩

/-- Witness for claim C1 at the payload `0x123456789ABC`. -/
theorem fcs_add_passes_check_witness :
    0x123456789ABC < 2 ^ 48 ∧
    mpt1327_channel_fcs (mpt1327_channel_fcs_add 0x123456789ABC >>> 16)
      = mpt1327_channel_fcs_add 0x123456789ABC &&& 0xFFFF :=
  ⟨by decide, (fcs_add_passes_check 0x123456789ABC (by decide)).2.2⟩

theorem xor_bit (a b : Nat) (ha : a < 2) (hb : b < 2) : a ^^^ b = (a + b) % 2 := by
  interval_cases a <;> interval_cases b <;> rfl

theorem bitCount_split (w a b : Nat) :
    bitCount w (a + b) = bitCount w a + bitCount (w >>> a) b := by
  induction b with
  | zero => simp [bitCount]
  | succ k ih =>
    rw [← Nat.add_assoc, bitCount, ih, bitCount, ← Nat.shiftRight_add]
    omega

theorem bitCount_peel (w n : Nat) :
    bitCount w (n + 1) = w % 2 + bitCount (w >>> 1) n := by
  rw [Nat.add_comm n 1, bitCount_split]
  simp [bitCount]

theorem shiftRight_mod_two_pow (w n k : Nat) (h : k < n) :
    ((w % 2 ^ n) >>> k) % 2 = (w >>> k) % 2 := by
  have h1 := Nat.testBit_mod_two_pow w n k
  rw [Nat.testBit_to_div_mod, Nat.testBit_to_div_mod] at h1
  simp only [Nat.shiftRight_eq_div_pow]
  have h2 := Nat.mod_two_eq_zero_or_one (w % 2 ^ n / 2 ^ k)
  have h3 := Nat.mod_two_eq_zero_or_one (w / 2 ^ k)
  simp [h] at h1
  omega

theorem bitCount_mod_le (w n k : Nat) (h : k ≤ n) :
    bitCount (w % 2 ^ n) k = bitCount w k := by
  induction k with
  | zero => rfl
  | succ j ih =>
    rw [bitCount, bitCount, ih (by omega), shiftRight_mod_two_pow w n j (by omega)]

theorem bitCount_low_add (a m : Nat) (hm : m < 2 ^ 16) (n : Nat) :
    bitCount (2 ^ 16 * a + m) (16 + n) = bitCount m 16 + bitCount a n := by
  rw [bitCount_split]
  have h1 : (2 ^ 16 * a + m) >>> 16 = a := by
    rw [Nat.shiftRight_eq_div_pow]; omega
  have h2 : (2 ^ 16 * a + m) % 2 ^ 16 = m := by omega
  rw [h1, ← bitCount_mod_le _ 16 16 (le_refl _), h2]

theorem fcsLoop_succ (cw n : Nat) : fcsLoop cw (n + 1) = fcsStep cw (fcsLoop cw n) n := by
  simp [fcsLoop, List.range_succ, List.foldl_append]

theorem fcsParityLoop_succ (ck par n : Nat) :
    fcsParityLoop ck par (n + 1)
      = fcsParityLoop ck par n ^^^ ((ck >>> (15 - n)) &&& 1) := by
  simp [fcsParityLoop, List.range_succ, List.foldl_append]

theorem fcsLoop_parity (cw n : Nat) (hn : n ≤ 48) :
    (fcsLoop cw n).2 = bitCount (cw >>> (48 - n)) n % 2 := by
  induction n with
  | zero => rfl
  | succ k ih =>
    have ih := ih (by omega)
    rw [fcsLoop_succ]
    show (fcsLoop cw k).2 ^^^ ((cw >>> (47 - k)) &&& 1) = _
    have e : 48 - (k + 1) = 47 - k := by omega
    rw [e, bitCount_peel, ← Nat.shiftRight_add, Nat.and_one_is_mod]
    have e2 : 47 - k + 1 = 48 - k := by omega
    rw [e2, xor_bit _ _ (by rw [ih]; omega) (by omega), ih]
    omega

theorem fcsParityLoop_eq (ck par n : Nat) (hp : par < 2) (hn : n ≤ 16) :
    fcsParityLoop ck par n = (par + bitCount (ck >>> (16 - n)) n) % 2 := by
  induction n with
  | zero => simp [fcsParityLoop, bitCount]; omega
  | succ k ih =>
    have ih := ih (by omega)
    rw [fcsParityLoop_succ]
    have e : 16 - (k + 1) = 15 - k := by omega
    rw [e, bitCount_peel, ← Nat.shiftRight_add, Nat.and_one_is_mod]
    have e2 : 15 - k + 1 = 16 - k := by omega
    rw [e2, xor_bit _ _ (by rw [ih]; omega) (by omega), ih]
    omega

theorem or_bit_even (c p : Nat) (hc : c % 2 = 0) (hp : p < 2) : c ||| p = c + p := by
  have h : 2 ^ 1 * (c / 2) + p = 2 ^ 1 * (c / 2) ||| p :=
    Nat.mul_add_lt_is_or (by simpa using hp) (c / 2)
  have e : 2 ^ 1 * (c / 2) = c := by omega
  rw [e] at h
  exact h.symm

theorem and_fffe_even (x : Nat) : (x &&& 0xFFFE) % 2 = 0 := by
  rw [← Nat.and_one_is_mod, Nat.and_assoc]
  exact Nat.and_zero x

theorem and_fffe_lt (x : Nat) : x &&& 0xFFFE < 2 ^ 16 :=
  Nat.and_lt_two_pow x (by norm_num)

/-- Claim C2: for every 48-bit payload `p` the 64-bit word `mpt1327_channel_fcs_add p` has an
even number of 1 bits, and the least significant bit of `mpt1327_channel_fcs p` is the XOR
(the sum modulo 2) of the 48 payload bits and the 15 check bits, bits 15..1 of the FCS. -/
theorem fcs_add_even_parity (p : Nat) (hp : p < 2 ^ 48) :
    bitCount (mpt1327_channel_fcs_add p) 64 % 2 = 0 ∧
    mpt1327_channel_fcs p % 2
      = (bitCount p 48 + bitCount (mpt1327_channel_fcs p >>> 1) 15) % 2 := by
  have key : mpt1327_channel_fcs p % 2
      = (bitCount p 48 + bitCount (mpt1327_channel_fcs p >>> 1) 15) % 2 := by
    unfold mpt1327_channel_fcs
    simp only []
    generalize hck : ((fcsLoop p 48).1 ^^^ 0x0002) &&& 0xFFFE = ck
    have hev : ck % 2 = 0 := hck ▸ and_fffe_even _
    have hlt : ck < 2 ^ 16 := hck ▸ and_fffe_lt _
    have h1 : (fcsLoop p 48).2 = bitCount p 48 % 2 := by
      simpa using fcsLoop_parity p 48 (le_refl _)
    have h1lt : (fcsLoop p 48).2 < 2 := by rw [h1]; omega
    have h2 := fcsParityLoop_eq ck _ 16 h1lt (le_refl _)
    simp only [Nat.sub_self, Nat.shiftRight_zero] at h2
    have h2lt : fcsParityLoop ck (fcsLoop p 48).2 16 < 2 := by rw [h2]; omega
    rw [or_bit_even _ _ hev h2lt]
    have hmod : (ck + fcsParityLoop ck (fcsLoop p 48).2 16) % 2 ^ 16
        = ck + fcsParityLoop ck (fcsLoop p 48).2 16 := by
      apply Nat.mod_eq_of_lt; omega
    rw [hmod]
    have hsh : (ck + fcsParityLoop ck (fcsLoop p 48).2 16) >>> 1 = ck >>> 1 := by
      simp only [Nat.shiftRight_eq_div_pow]; omega
    rw [hsh]
    have h3 : bitCount ck 16 = ck % 2 + bitCount (ck >>> 1) 15 := bitCount_peel ck 15
    rw [h2, h1]
    omega
  refine ⟨?_, key⟩
  rw [fcs_add_eq p hp]
  have h := bitCount_low_add p (mpt1327_channel_fcs p) (fcs_lt p) 48
  have e : 16 + 48 = 64 := rfl
  rw [e] at h
  rw [h]
  have h3 : bitCount (mpt1327_channel_fcs p) 16 = mpt1327_channel_fcs p % 2 + bitCount (mpt1327_channel_fcs p >>> 1) 15 := bitCount_peel _ 15
  omega

/-- Witness for claim C2 at the payload `0x123456789ABC`. -/
theorem fcs_add_even_parity_witness :
    0x123456789ABC < 2 ^ 48 ∧ bitCount (mpt1327_channel_fcs_add 0x123456789ABC) 64 % 2 = 0 :=
  ⟨by decide, (fcs_add_even_parity 0x123456789ABC (by decide)).1⟩

section BCH
open Polynomial

theorem bitsPoly_degree_lt (f : Nat → Bool) (n : Nat) :
    (∑ i in Finset.range n, if f i then (X : (ZMod 2)[X]) ^ i else 0).degree < n := by
  rw [Polynomial.degree_lt_iff_coeff_zero]
  intro m hm
  rw [Polynomial.finset_sum_coeff]
  apply Finset.sum_eq_zero
  intro i hi
  have hi := Finset.mem_range.mp hi
  split
  · rw [Polynomial.coeff_X_pow, if_neg (by omega)]
  · simp

theorem bitsPoly_xor (f g : Nat → Bool) (n : Nat) :
    (∑ i in Finset.range n, if (f i ^^ g i) then (X : (ZMod 2)[X]) ^ i else 0)
      = (∑ i in Finset.range n, if f i then (X : (ZMod 2)[X]) ^ i else 0)
        + ∑ i in Finset.range n, if g i then (X : (ZMod 2)[X]) ^ i else 0 := by
  rw [← Finset.sum_add_distrib]
  apply Finset.sum_congr rfl
  intro i _
  cases f i <;> cases g i <;> simp [CharTwo.add_self_eq_zero]

theorem gen_low_poly :
    (∑ i in Finset.range 15, if (0x6815 : Nat).testBit i then (X : (ZMod 2)[X]) ^ i else 0)
      = X ^ 14 + X ^ 13 + X ^ 11 + X ^ 4 + X ^ 2 + 1 := by
  simp [Finset.sum_range_succ, Nat.testBit_to_div_mod]
  ring

theorem gen_monic :
    (X ^ 15 + X ^ 14 + X ^ 13 + X ^ 11 + X ^ 4 + X ^ 2 + 1 : (ZMod 2)[X]).Monic := by
  have h : (X ^ 15 + X ^ 14 + X ^ 13 + X ^ 11 + X ^ 4 + X ^ 2 + 1 : (ZMod 2)[X])
      = X ^ 15 + (X ^ 14 + X ^ 13 + X ^ 11 + X ^ 4 + X ^ 2 + 1) := by ring
  rw [h, ← gen_low_poly]
  exact Polynomial.monic_X_pow_add (bitsPoly_degree_lt _ 15)

theorem gen_degree :
    (X ^ 15 + X ^ 14 + X ^ 13 + X ^ 11 + X ^ 4 + X ^ 2 + 1 : (ZMod 2)[X]).degree = 15 := by
  have h : (X ^ 15 + X ^ 14 + X ^ 13 + X ^ 11 + X ^ 4 + X ^ 2 + 1 : (ZMod 2)[X])
      = X ^ 15 + (X ^ 14 + X ^ 13 + X ^ 11 + X ^ 4 + X ^ 2 + 1) := by ring
  rw [h, ← gen_low_poly]
  rw [Polynomial.degree_add_eq_left_of_degree_lt, Polynomial.degree_X_pow]
  · rfl
  · rw [Polynomial.degree_X_pow]
    exact bitsPoly_degree_lt _ 15


theorem testBit_shl1_mod (x j : Nat) :
    ((x <<< 1) % 2 ^ 64).testBit j = (decide (j < 64) && (decide (j ≥ 1) && x.testBit (j - 1))) := by
  rw [Nat.testBit_mod_two_pow, Nat.testBit_shiftLeft]

theorem fcsStep_fst (cw : Nat) (st : Nat × Nat) (n : Nat) :
    (fcsStep cw st n).1
      = ((if (cw.testBit (47 - n) ^^ st.1.testBit 15) then st.1 ^^^ 0x6815 else st.1) <<< 1)
          % 2 ^ 64 := by
  have hc : (((cw >>> (47 - n)) &&& 1) ^^^ (st.1 >>> 15)) &&& 1 ≠ 0
      ↔ (cw.testBit (47 - n) ^^ st.1.testBit 15) = true := by
    have h := Nat.testBit_xor ((cw >>> (47 - n)) &&& 1) (st.1 >>> 15) 0
    rw [Nat.testBit_and, Nat.testBit_shiftRight, Nat.testBit_shiftRight, Nat.testBit_one_zero,
      Bool.and_true, Nat.add_zero, Nat.add_zero, Nat.testBit_zero] at h
    rw [Nat.and_one_is_mod, ← h]
    have := Nat.mod_two_eq_zero_or_one (((cw >>> (47 - n)) &&& 1) ^^^ (st.1 >>> 15))
    simp
  unfold fcsStep
  simp only [hc]

theorem fcsStep_testBit_zero (cw : Nat) (st : Nat × Nat) (n : Nat) :
    (fcsStep cw st n).1.testBit 0 = false := by
  rw [fcsStep_fst, testBit_shl1_mod]
  simp

theorem fcsStep_testBit_succ (cw : Nat) (st : Nat × Nat) (n i : Nat) (hi : i < 63) :
    (fcsStep cw st n).1.testBit (i + 1)
      = (st.1.testBit i ^^ ((cw.testBit (47 - n) ^^ st.1.testBit 15) && (0x6815 : Nat).testBit i)) := by
  rw [fcsStep_fst, testBit_shl1_mod]
  have : i + 1 < 64 := by omega
  split <;> rename_i h <;> simp [this, h]


theorem fcs_bch_invariant (cw n : Nat) (hn : n ≤ 48) :
    (fcsLoop cw n).1.testBit 0 = false ∧
    ∃ q : (ZMod 2)[X],
      (∑ i in Finset.range n, if (cw >>> (48 - n)).testBit i then (X : (ZMod 2)[X]) ^ i else 0)
          * X ^ 15
        = q * (X ^ 15 + X ^ 14 + X ^ 13 + X ^ 11 + X ^ 4 + X ^ 2 + 1 : (ZMod 2)[X])
          + ∑ i in Finset.range 15,
              if ((fcsLoop cw n).1 >>> 1).testBit i then (X : (ZMod 2)[X]) ^ i else 0 := by
  induction n with
  | zero =>
    refine ⟨by simp [fcsLoop], 0, ?_⟩
    simp [fcsLoop]
  | succ k ih =>
    obtain ⟨h0, q, hq⟩ := ih (by omega)
    rw [fcsLoop_succ]
    refine ⟨fcsStep_testBit_zero _ _ _, ?_⟩
    generalize hc : (fcsLoop cw k).1 = c at h0 hq
    -- the new remainder register
    have hR : (∑ i in Finset.range 15,
          if ((fcsStep cw (fcsLoop cw k) k).1 >>> 1).testBit i then (X : (ZMod 2)[X]) ^ i else 0)
        = (∑ i in Finset.range 15, if c.testBit i then (X : (ZMod 2)[X]) ^ i else 0)
          + (if (cw.testBit (47 - k) ^^ c.testBit 15)
              then X ^ 14 + X ^ 13 + X ^ 11 + X ^ 4 + X ^ 2 + 1 else 0) := by
      have e : ∀ i ∈ Finset.range 15,
          (if ((fcsStep cw (fcsLoop cw k) k).1 >>> 1).testBit i then (X : (ZMod 2)[X]) ^ i else 0)
          = if (c.testBit i ^^ ((cw.testBit (47 - k) ^^ c.testBit 15) && (0x6815 : Nat).testBit i))
              then (X : (ZMod 2)[X]) ^ i else 0 := by
        intro i hi
        have hi := Finset.mem_range.mp hi
        rw [Nat.testBit_shiftRight, Nat.add_comm 1 i, fcsStep_testBit_succ _ _ _ _ (by omega), hc]
      rw [Finset.sum_congr rfl e, bitsPoly_xor]
      congr 1
      cases (cw.testBit (47 - k) ^^ c.testBit 15)
      · simp
      · simpa using gen_low_poly
    have hC : (∑ i in Finset.range 15, if c.testBit i then (X : (ZMod 2)[X]) ^ i else 0)
        = X * ∑ i in Finset.range 14,
            if (c >>> 1).testBit i then (X : (ZMod 2)[X]) ^ i else 0 := by
      rw [Finset.sum_range_succ', h0, Finset.mul_sum]
      simp only [Bool.false_eq_true, if_false, add_zero]
      apply Finset.sum_congr rfl
      intro i _
      rw [Nat.testBit_shiftRight, Nat.add_comm 1 i]
      split
      · rw [pow_succ, mul_comm]
      · simp
    have hO : (∑ i in Finset.range 15,
          if (c >>> 1).testBit i then (X : (ZMod 2)[X]) ^ i else 0)
        = (∑ i in Finset.range 14, if (c >>> 1).testBit i then (X : (ZMod 2)[X]) ^ i else 0)
          + if c.testBit 15 then X ^ 14 else 0 := by
      rw [Finset.sum_range_succ, Nat.testBit_shiftRight]
    have hM : (∑ i in Finset.range (k + 1),
          if (cw >>> (48 - (k + 1))).testBit i then (X : (ZMod 2)[X]) ^ i else 0)
        = X * (∑ i in Finset.range k,
            if (cw >>> (48 - k)).testBit i then (X : (ZMod 2)[X]) ^ i else 0)
          + if cw.testBit (47 - k) then 1 else 0 := by
      rw [Finset.sum_range_succ', Finset.mul_sum]
      congr 1
      · apply Finset.sum_congr rfl
        intro i _
        rw [Nat.testBit_shiftRight, Nat.testBit_shiftRight]
        have e : 48 - (k + 1) + (i + 1) = 48 - k + i := by omega
        rw [e]
        split
        · rw [pow_succ, mul_comm]
        · simp
      · rw [Nat.testBit_shiftRight]
        have e : 48 - (k + 1) + 0 = 47 - k := by omega
        rw [e]
        simp
    rw [hO] at hq
    rw [hR, hC, hM]
    generalize (∑ i in Finset.range 14,
      if (c >>> 1).testBit i then (X : (ZMod 2)[X]) ^ i else 0) = A at hq ⊢
    generalize (∑ i in Finset.range k,
      if (cw >>> (48 - k)).testBit i then (X : (ZMod 2)[X]) ^ i else 0) = M at hq ⊢
    have h2 : (2 : (ZMod 2)[X]) = 0 := CharTwo.two_eq_zero
    refine ⟨X * q + (if (cw.testBit (47 - k) ^^ c.testBit 15) then 1 else 0), ?_⟩
    generalize cw.testBit (47 - k) = β at hq ⊢
    generalize c.testBit 15 = γ at hq ⊢
    cases β <;> cases γ <;>
      simp only [Bool.xor_false, Bool.xor_true, Bool.not_false, Bool.not_true, if_true, if_false,
        Bool.false_eq_true, add_zero] at hq ⊢
    · linear_combination X * hq
    · linear_combination X * hq - (X ^ 14 + X ^ 13 + X ^ 11 + X ^ 4 + X ^ 2 + 1) * h2
    · linear_combination X * hq - (X ^ 14 + X ^ 13 + X ^ 11 + X ^ 4 + X ^ 2 + 1) * h2
    · linear_combination X * hq + X ^ 15 * h2

theorem fcs_parity_lt (cw ck : Nat) : fcsParityLoop ck (fcsLoop cw 48).2 16 < 2 := by
  have h1 : (fcsLoop cw 48).2 < 2 := by
    rw [fcsLoop_parity cw 48 (le_refl _)]; omega
  rw [fcsParityLoop_eq ck _ 16 h1 (le_refl _)]
  omega

theorem fcs_check_testBit (cw i : Nat) (hi : i < 15) :
    ((mpt1327_channel_fcs cw >>> 1) ^^^ 1).testBit i
      = ((fcsLoop cw 48).1 >>> 1).testBit i := by
  unfold mpt1327_channel_fcs
  simp only []
  have hp := fcs_parity_lt cw (((fcsLoop cw 48).1 ^^^ 0x0002) &&& 0xFFFE)
  generalize fcsParityLoop (((fcsLoop cw 48).1 ^^^ 0x0002) &&& 0xFFFE) (fcsLoop cw 48).2 16
    = par at hp
  have hpar : par.testBit (1 + i) = false := by
    apply Nat.testBit_lt_two_pow
    calc par < 2 ^ 1 := hp
      _ ≤ 2 ^ (1 + i) := Nat.pow_le_pow_right (by norm_num) (by omega)
  have hmask : ∀ j < 15, (0xFFFE : Nat).testBit (1 + j) = true := by decide
  have htwo : ∀ j < 15, (0x0002 : Nat).testBit (1 + j) = (1 : Nat).testBit j := by decide
  have hlt : decide (1 + i < 16) = true := by simp; omega
  rw [Nat.testBit_xor, Nat.testBit_shiftRight, Nat.testBit_mod_two_pow, Nat.testBit_or,
    Nat.testBit_and, Nat.testBit_xor, hpar, hmask i hi, htwo i hi, Nat.testBit_shiftRight, hlt]
  cases (fcsLoop cw 48).1.testBit (1 + i) <;> cases (1 : Nat).testBit i <;> rfl

/-- Claim C3: the 15 check bits `mpt1327_channel_fcs cw >> 1`, with the lowest one inverted
(XOR 1), are the coefficients of the remainder of `M(x) * x^15` divided by
`g(x) = x^15+x^14+x^13+x^11+x^4+x^2+1` over GF(2), where the coefficient of `x^i` in `M` is
bit `i` of `cw` for `i < 48`.  The embedding keeps the unmasked 64-bit accumulator of the
code. -/
theorem fcs_check_bits_are_bch_remainder (cw : Nat) :
    mpt1327_channel_fcs cw >>> 1 < 2 ^ 15 ∧
    (∑ i in Finset.range 15,
        if ((mpt1327_channel_fcs cw >>> 1) ^^^ 1).testBit i then (X : (ZMod 2)[X]) ^ i else 0)
      = ((∑ i in Finset.range 48, if cw.testBit i then (X : (ZMod 2)[X]) ^ i else 0) * X ^ 15)
          %ₘ (X ^ 15 + X ^ 14 + X ^ 13 + X ^ 11 + X ^ 4 + X ^ 2 + 1) := by
  constructor
  · have := fcs_lt cw
    rw [Nat.shiftRight_eq_div_pow]
    omega
  · obtain ⟨_, q, hq⟩ := fcs_bch_invariant cw 48 (le_refl _)
    simp only [Nat.sub_self, Nat.shiftRight_zero] at hq
    rw [Finset.sum_congr rfl (fun i hi => by
      rw [fcs_check_testBit cw i (Finset.mem_range.mp hi)])]
    refine ((Polynomial.div_modByMonic_unique q _ gen_monic ⟨?_, ?_⟩).2).symm
    · rw [hq]; ring
    · rw [gen_degree]
      exact bitsPoly_degree_lt _ 15
end BCH

/-! ## Theorems: receive shift register -/

theorem mod_or_small (x b : Nat) (hb : b < 2 ^ 64) :
    (x % 2 ^ 64) ||| b = (x ||| b) % 2 ^ 64 := by
  apply Nat.eq_of_testBit_eq
  intro i
  rw [Nat.testBit_or, Nat.testBit_mod_two_pow, Nat.testBit_mod_two_pow, Nat.testBit_or]
  by_cases h : i < 64
  · simp [h]
  · have : b.testBit i = false := by
      apply Nat.testBit_lt_two_pow
      calc b < 2 ^ 64 := hb
        _ ≤ 2 ^ i := Nat.pow_le_pow_right (by norm_num) (by omega)
    simp [h, this]

theorem modem_rx_rx_cw {S : Type} (b : Nat) (ch : MPT1327Channel S) :
    (channel.modem_rx b ch).rx_cw = ((ch.rx_cw <<< 1) % 2 ^ 64) ||| b := by
  unfold channel.modem_rx
  simp only []
  split <;> rfl

theorem modem_rx_rx_log {S : Type} (b : Nat) (ch : MPT1327Channel S) :
    (channel.modem_rx b ch).rx_log
      = ch.rx_log ++
        (if mpt1327_channel_fcs ((((ch.rx_cw <<< 1) % 2 ^ 64) ||| b) >>> 16)
            = (((ch.rx_cw <<< 1) % 2 ^ 64) ||| b) &&& 0xFFFF
          then [(((ch.rx_cw <<< 1) % 2 ^ 64) ||| b) >>> 16] else []) := by
  unfold channel.modem_rx
  simp only []
  split <;> simp

/-- Claim C4: for every register value and every received bit `b` in {0,1}, `modem_rx` sets
`rx_cw` to `((r << 1) | b) mod 2^64` and calls `recv` exactly once, with `rx_cw >> 16`, when
`fcs(rx_cw >> 16) = rx_cw & 0xFFFF`, and not at all otherwise. -/
theorem modem_rx_delivers_iff_fcs {S : Type} (ch : MPT1327Channel S) (b : Nat) (hb : b < 2) :
    (channel.modem_rx b ch).rx_cw = ((ch.rx_cw <<< 1) ||| b) % 2 ^ 64 ∧
    (channel.modem_rx b ch).rx_log
      = ch.rx_log ++
        (if mpt1327_channel_fcs ((channel.modem_rx b ch).rx_cw >>> 16)
            = (channel.modem_rx b ch).rx_cw &&& 0xFFFF
          then [(channel.modem_rx b ch).rx_cw >>> 16] else []) := by
  have hb64 : b < 2 ^ 64 := by omega
  refine ⟨?_, ?_⟩
  · rw [modem_rx_rx_cw, mod_or_small _ _ hb64]
  · rw [modem_rx_rx_log, modem_rx_rx_cw]

/-- Witness for claim C4: the bit 1 shifted into the register of a fresh channel. -/
theorem modem_rx_delivers_iff_fcs_witness :
    (1 : Nat) < 2 ∧
    (channel.modem_rx 1
        (mpt1327_channel_init (fun _ => ()) (fun _ => ⟨0, 0, none, 0⟩))).rx_cw
      = (((mpt1327_channel_init (fun _ => ()) (fun _ => ⟨0, 0, none, 0⟩)).rx_cw <<< 1) ||| 1)
          % 2 ^ 64 :=
  ⟨by decide,
    (modem_rx_delivers_iff_fcs
      (mpt1327_channel_init (fun _ => ()) (fun _ => ⟨0, 0, none, 0⟩)) 1 (by decide)).1⟩

theorem rx_bits_snoc {S : Type} (bits : List Nat) (b : Nat) (ch : MPT1327Channel S) :
    rx_bits (bits ++ [b]) ch = channel.modem_rx b (rx_bits bits ch) := by
  simp [rx_bits, List.foldl_append]

theorem rx_bits_append {S : Type} (xs ys : List Nat) (ch : MPT1327Channel S) :
    rx_bits (xs ++ ys) ch = rx_bits ys (rx_bits xs ch) := by
  simp [rx_bits, List.foldl_append]

theorem codeword_bits_succ (w k : Nat) :
    (List.range (k + 1)).map (codeword_bit w)
      = (List.range k).map (codeword_bit w) ++ [codeword_bit w k] := by
  simp [List.range_succ]

theorem modem_rx_rx_cw_arith {S : Type} (b : Nat) (ch : MPT1327Channel S) (hb : b < 2) :
    (channel.modem_rx b ch).rx_cw = (2 * ch.rx_cw + b) % 2 ^ 64 := by
  rw [modem_rx_rx_cw, mod_or_small _ _ (by omega), Nat.shiftLeft_eq]
  have h := or_bit_even (ch.rx_cw * 2 ^ 1) b (by omega) hb
  rw [h]
  congr 1
  omega

theorem codeword_bit_lt (w j : Nat) : codeword_bit w j < 2 := by
  unfold codeword_bit
  rw [Nat.and_one_is_mod]
  omega

/-- After the first `k` bits of the codeword `w` the register holds the old contents
shifted left by `k` with the top `k` bits of `w` below them. -/
theorem rx_cw_after_bits {S : Type} (w : Nat) (ch : MPT1327Channel S) (k : Nat)
    (hk : k ≤ 64) :
    (rx_bits ((List.range k).map (codeword_bit w)) ch).rx_cw % 2 ^ 64
      = (ch.rx_cw * 2 ^ k + w / 2 ^ (64 - k) % 2 ^ k) % 2 ^ 64 := by
  induction k with
  | zero => simp [rx_bits, Nat.mod_one]
  | succ j ih =>
    have ih := ih (by omega)
    rw [codeword_bits_succ, rx_bits_snoc,
      modem_rx_rx_cw_arith _ _ (codeword_bit_lt w j)]
    have hb : codeword_bit w j = w / 2 ^ (63 - j) % 2 := by
      unfold codeword_bit
      rw [Nat.and_one_is_mod, Nat.shiftRight_eq_div_pow]
    have e1 : 64 - (j + 1) = 63 - j := by omega
    have hdiv : w / 2 ^ (64 - j) = w / 2 ^ (63 - j) / 2 := by
      rw [Nat.div_div_eq_div_mul, ← pow_succ]
      congr 2
      omega
    have ht : w / 2 ^ (63 - j) % 2 ^ (j + 1)
        = w / 2 ^ (63 - j) % 2 + 2 * (w / 2 ^ (63 - j) / 2 % 2 ^ j) := by
      rw [pow_succ, Nat.mul_comm (2 ^ j) 2, Nat.mod_mul]
    have hp : ch.rx_cw * 2 ^ (j + 1) = 2 * (ch.rx_cw * 2 ^ j) := by
      rw [pow_succ]; ring
    rw [hdiv] at ih
    rw [hb, e1, ht, hp]
    omega

/-- Feeding the 64 bits of a framed payload: register and delivery after the last bit. -/
theorem rx_codeword_round_trip {S : Type} (p : Nat) (hp : p < 2 ^ 48)
    (ch : MPT1327Channel S) :
    rx_bits (codeword_bits (mpt1327_channel_fcs_add p)) ch
      = channel.modem_rx (codeword_bit (mpt1327_channel_fcs_add p) 63)
          (rx_bits ((List.range 63).map (codeword_bit (mpt1327_channel_fcs_add p))) ch) ∧
    (rx_bits (codeword_bits (mpt1327_channel_fcs_add p)) ch).rx_cw
      = mpt1327_channel_fcs_add p ∧
    (rx_bits (codeword_bits (mpt1327_channel_fcs_add p)) ch).rx_log
      = (rx_bits ((List.range 63).map (codeword_bit (mpt1327_channel_fcs_add p))) ch).rx_log
        ++ [p] := by
  have hw : mpt1327_channel_fcs_add p < 2 ^ 64 := by
    have := fcs_lt p
    rw [fcs_add_eq p hp]
    omega
  obtain ⟨_, hpay, hchk⟩ := fcs_add_decompose p hp
  generalize mpt1327_channel_fcs_add p = w at hw hpay hchk
  have hsplit : rx_bits (codeword_bits w) ch
      = channel.modem_rx (codeword_bit w 63)
          (rx_bits ((List.range 63).map (codeword_bit w)) ch) := by
    rw [codeword_bits, codeword_bits_succ, rx_bits_snoc]
  have hcw : (rx_bits (codeword_bits w) ch).rx_cw = w := by
    have h64 := rx_cw_after_bits w ch 64 (le_refl _)
    have hlt : (rx_bits (codeword_bits w) ch).rx_cw < 2 ^ 64 := by
      rw [hsplit, modem_rx_rx_cw_arith _ _ (codeword_bit_lt w 63)]
      exact Nat.mod_lt _ (by norm_num)
    have e : (rx_bits (List.map (codeword_bit w) (List.range 64)) ch).rx_cw
        = (rx_bits (codeword_bits w) ch).rx_cw := rfl
    rw [e] at h64
    simp only [Nat.sub_self, pow_zero, Nat.div_one] at h64
    omega
  refine ⟨hsplit, hcw, ?_⟩
  have hreg := modem_rx_rx_cw (codeword_bit w 63)
    (rx_bits ((List.range 63).map (codeword_bit w)) ch)
  rw [← hsplit, hcw] at hreg
  rw [hsplit, modem_rx_rx_log, ← hreg, if_pos hchk, hpay]

/-- Claim C5: for every 48-bit payload `p` and every initial channel state (any register
contents), feeding the 64 bits of `mpt1327_channel_fcs_add p`, most significant first, to
`modem_rx` leaves `rx_cw` equal to that codeword and the call for the 64th bit appends
exactly `p` to the calls of `recv`. -/
theorem fcs_add_framing_round_trip {S : Type} (p : Nat) (hp : p < 2 ^ 48)
    (ch : MPT1327Channel S) :
    rx_bits (codeword_bits (mpt1327_channel_fcs_add p)) ch
      = channel.modem_rx (codeword_bit (mpt1327_channel_fcs_add p) 63)
          (rx_bits ((List.range 63).map (codeword_bit (mpt1327_channel_fcs_add p))) ch) ∧
    (rx_bits (codeword_bits (mpt1327_channel_fcs_add p)) ch).rx_cw
      = mpt1327_channel_fcs_add p ∧
    (rx_bits (codeword_bits (mpt1327_channel_fcs_add p)) ch).rx_log
      = (rx_bits ((List.range 63).map (codeword_bit (mpt1327_channel_fcs_add p))) ch).rx_log
        ++ [p] := by
  obtain ⟨_, hpay, hchk⟩ := fcs_add_decompose p hp
  have hw : mpt1327_channel_fcs_add p < 2 ^ 64 := by
    have := fcs_lt p
    rw [fcs_add_eq p hp]
    omega
  generalize mpt1327_channel_fcs_add p = w at hw hpay hchk
  have hsplit : rx_bits (codeword_bits w) ch
      = channel.modem_rx (codeword_bit w 63)
          (rx_bits ((List.range 63).map (codeword_bit w)) ch) := by
    rw [codeword_bits, codeword_bits_succ, rx_bits_snoc]
  have hlt : (rx_bits (codeword_bits w) ch).rx_cw < 2 ^ 64 := by
    rw [hsplit, modem_rx_rx_cw_arith _ _ (codeword_bit_lt w 63)]
    exact Nat.mod_lt _ (by norm_num)
  have h64 : (rx_bits (codeword_bits w) ch).rx_cw % 2 ^ 64
      = (ch.rx_cw * 2 ^ 64 + w / 2 ^ (64 - 64) % 2 ^ 64) % 2 ^ 64 :=
    rx_cw_after_bits w ch 64 (le_refl _)
  simp only [Nat.sub_self, pow_zero, Nat.div_one] at h64
  have hcw : (rx_bits (codeword_bits w) ch).rx_cw = w := by omega
  have hreg := modem_rx_rx_cw (codeword_bit w 63)
    (rx_bits ((List.range 63).map (codeword_bit w)) ch)
  rw [← hsplit, hcw] at hreg
  refine ⟨hsplit, hcw, ?_⟩
  rw [hsplit, modem_rx_rx_log, ← hreg, if_pos hchk, hpay]

/-- Witness for claim C5 at the payload 5 on a fresh channel. -/
theorem fcs_add_framing_round_trip_witness :
    5 < 2 ^ 48 ∧
    (rx_bits (codeword_bits (mpt1327_channel_fcs_add 5))
        (mpt1327_channel_init (fun _ => ()) (fun _ => ⟨0, 0, none, 0⟩))).rx_cw
      = mpt1327_channel_fcs_add 5 :=
  ⟨by decide,
    (fcs_add_framing_round_trip 5 (by decide)
      (mpt1327_channel_init (fun _ => ()) (fun _ => ⟨0, 0, none, 0⟩))).2.1⟩

/-! ## Theorems: modulator -/

theorem tx_run_succ {U : Type} (tx_f : Nat → U → Nat × U) (n : Nat) (st : MSKModemContext × U) :
    mskmodem.tx_run tx_f (n + 1) st = mskmodem.tx_step tx_f (mskmodem.tx_run tx_f n st) := by
  induction n generalizing st with
  | zero => rfl
  | succ k ih =>
    show mskmodem.tx_run tx_f (k + 1) (mskmodem.tx_step tx_f st) = _
    rw [ih]
    rfl

theorem tx_step_hold {U : Type} (tx_f : Nat → U → Nat × U) (st : MSKModemContext × U)
    (h : st.1.phase + 1 ≤ 40) :
    mskmodem.tx_step tx_f st = ({ st.1 with phase := st.1.phase + 1 }, st.2) := by
  unfold mskmodem.tx_step
  simp only []
  rw [if_neg (by omega)]

theorem fs_mark : (1.25 - 0.25 : Rat) = 1 := by norm_num
theorem fs_space : (1.25 + 0.25 : Rat) = 3 / 2 := by norm_num

theorem tx_step_next_bit {U : Type} (tx_f : Nat → U → Nat × U) (st : MSKModemContext × U)
    (h : st.1.phase + 1 > 40) (hb : st.1.bitmask ≠ 0) :
    (mskmodem.tx_step tx_f st).1.phase = 1 ∧
    (mskmodem.tx_step tx_f st).1.bitmask = st.1.bitmask >>> 1 ∧
    (mskmodem.tx_step tx_f st).1.current = st.1.current ∧
    (mskmodem.tx_step tx_f st).1.fs
      = (if st.1.current &&& st.1.bitmask ≠ 0 then 1 else 3 / 2) ∧
    (mskmodem.tx_step tx_f st).2 = st.2 := by
  unfold mskmodem.tx_step
  simp only []
  rw [if_pos h, if_neg hb]
  by_cases hc : st.1.current &&& st.1.bitmask ≠ 0
  · rw [if_pos hc, if_pos hc]
    exact ⟨rfl, rfl, rfl, fs_mark, rfl⟩
  · rw [if_neg hc, if_neg hc]
    exact ⟨rfl, rfl, rfl, fs_space, rfl⟩

theorem tx_step_fetch {U : Type} (tx_f : Nat → U → Nat × U) (st : MSKModemContext × U)
    (h : st.1.phase + 1 > 40) (hb : st.1.bitmask = 0) :
    (mskmodem.tx_step tx_f st).1.phase = 1 ∧
    (mskmodem.tx_step tx_f st).1.bitmask = 0x8000000000000000 >>> 1 ∧
    (mskmodem.tx_step tx_f st).1.current = (tx_f 0 st.2).1 ∧
    (mskmodem.tx_step tx_f st).1.fs
      = (if (tx_f 0 st.2).1 &&& 0x8000000000000000 ≠ 0 then 1 else 3 / 2) ∧
    (mskmodem.tx_step tx_f st).2 = (tx_f 0 st.2).2 := by
  unfold mskmodem.tx_step
  simp only []
  rw [if_pos h, if_pos hb]
  by_cases hc : (tx_f 0 st.2).1 &&& 0x8000000000000000 ≠ 0
  · rw [if_pos hc, if_pos hc]
    exact ⟨rfl, rfl, rfl, fs_mark, rfl⟩
  · rw [if_neg hc, if_neg hc]
    exact ⟨rfl, rfl, rfl, fs_space, rfl⟩

theorem tx_state_succ {S : Type} (txcv : Nat → Nat) (ch : MPT1327Channel S) (n : Nat) :
    tx_state txcv ch (n + 1) = mskmodem.tx_step (channel.modem_tx txcv) (tx_state txcv ch n) :=
  tx_run_succ _ _ _

theorem modem_tx_snd {S : Type} (txcv : Nat → Nat) (cw : Nat) (ch : MPT1327Channel S) :
    (channel.modem_tx txcv cw ch).2 = { ch with tx_calls := ch.tx_calls + 1 } := by
  unfold channel.modem_tx
  simp only []
  split
  · rfl
  · split <;> rfl

theorem tx_state_early {S : Type} (txcv : Nat → Nat) (ch : MPT1327Channel S) (n : Nat)
    (hn : n ≤ 40) :
    tx_state txcv ch n = ({ mskmodem_init with phase := (n : Int) }, ch) := by
  induction n with
  | zero => rfl
  | succ k ih =>
    rw [tx_state_succ, ih (by omega), tx_step_hold]
    · simp
    · simp; omega

theorem bitmask_test (w j : Nat) (hj : j ≤ 63) :
    (w &&& (2 ^ 63 >>> j) ≠ 0) ↔ w.testBit (63 - j) = true := by
  have e : 2 ^ 63 >>> j = 2 ^ (63 - j) := by
    rw [Nat.shiftRight_eq_div_pow, Nat.pow_div hj (by norm_num)]
  rw [e, Nat.and_two_pow]
  have hpos : 0 < 2 ^ (63 - j) := Nat.two_pow_pos _
  cases w.testBit (63 - j)
  · simp
  · simp

theorem bitmask_ne_zero (j : Nat) (hj : j ≤ 63) : 2 ^ 63 >>> j ≠ 0 := by
  rw [Nat.shiftRight_eq_div_pow, Nat.pow_div hj (by norm_num)]
  exact Nat.pos_iff_ne_zero.mp (Nat.two_pow_pos _)

theorem bitmask_exhausted : 2 ^ 63 >>> 64 = 0 := by decide

theorem tx_state_closed {S : Type} (txcv : Nat → Nat) (ch : MPT1327Channel S) (d : Nat) :
    (tx_state txcv ch (41 + d)).1.phase = ((d % 40 : Nat) : Int) + 1 ∧
    (tx_state txcv ch (41 + d)).1.bitmask = 2 ^ 63 >>> (d % 2560 / 40 + 1) ∧
    (tx_state txcv ch (41 + d)).1.current = tx_codeword txcv ch (d / 2560) ∧
    (tx_state txcv ch (41 + d)).1.fs
      = (if (tx_codeword txcv ch (d / 2560)).testBit (63 - d % 2560 / 40) then 1 else 3 / 2) ∧
    (tx_state txcv ch (41 + d)).2 = { ch with tx_calls := ch.tx_calls + (d / 2560 + 1) } := by
  induction d with
  | zero =>
    have h40 := tx_state_early txcv ch 40 (le_refl _)
    have hs : tx_state txcv ch (41 + 0)
        = mskmodem.tx_step (channel.modem_tx txcv) (tx_state txcv ch 40) := tx_state_succ _ _ _
    obtain ⟨h1, h2, h3, h4, h5⟩ := tx_step_fetch (channel.modem_tx txcv) (tx_state txcv ch 40)
      (by rw [h40]; show ((40 : Nat) : Int) + 1 > 40; omega) (by rw [h40]; rfl)
    rw [hs, h1, h2, h3, h4, h5, h40, modem_tx_snd]
    refine ⟨rfl, rfl, rfl, ?_, rfl⟩
    have e := bitmask_test (channel.modem_tx txcv 0 ch).1 0 (by omega)
    simp only [Nat.shiftRight_zero] at e
    have e2 : (0x8000000000000000 : Nat) = 2 ^ 63 := by norm_num
    rw [e2]
    simp only [e]
    rfl
  | succ d ih =>
    obtain ⟨i1, i2, i3, i4, i5⟩ := ih
    have hs : tx_state txcv ch (41 + (d + 1))
        = mskmodem.tx_step (channel.modem_tx txcv) (tx_state txcv ch (41 + d)) :=
      tx_state_succ _ _ _
    rw [hs]
    by_cases hA : d % 40 < 39
    · -- inside a bit period
      have e1 : (d + 1) % 40 = d % 40 + 1 := by omega
      have e2 : (d + 1) % 2560 / 40 = d % 2560 / 40 := by omega
      have e3 : (d + 1) / 2560 = d / 2560 := by omega
      rw [tx_step_hold _ _ (by rw [i1]; omega), e1, e2, e3]
      refine ⟨?_, i2, i3, i4, i5⟩
      show (tx_state txcv ch (41 + d)).1.phase + 1 = _
      rw [i1]
      push_cast
      rfl
    · have hph : (tx_state txcv ch (41 + d)).1.phase + 1 > 40 := by rw [i1]; omega
      have e1 : (d + 1) % 40 = 0 := by omega
      by_cases hB : d % 2560 / 40 < 63
      · -- next bit of the same codeword
        have e2 : (d + 1) % 2560 / 40 = d % 2560 / 40 + 1 := by omega
        have e3 : (d + 1) / 2560 = d / 2560 := by omega
        obtain ⟨h1, h2, h3, h4, h5⟩ := tx_step_next_bit (channel.modem_tx txcv)
          (tx_state txcv ch (41 + d)) hph (by rw [i2]; exact bitmask_ne_zero _ (by omega))
        rw [h1, h2, h3, h4, h5, e1, e2, e3, i2, i3, i5]
        refine ⟨rfl, ?_, rfl, ?_, rfl⟩
        · rw [← Nat.shiftRight_add]
        · have e := bitmask_test (tx_codeword txcv ch (d / 2560)) (d % 2560 / 40 + 1) (by omega)
          have e4 : 63 - (d % 2560 / 40 + 1) = 63 - (d % 2560 / 40 + 1) := rfl
          simp only [e]
      · -- first bit of the next codeword
        have e2 : (d + 1) % 2560 / 40 = 0 := by omega
        have e3 : (d + 1) / 2560 = d / 2560 + 1 := by omega
        have e5 : d % 2560 / 40 + 1 = 64 := by omega
        obtain ⟨h1, h2, h3, h4, h5⟩ := tx_step_fetch (channel.modem_tx txcv)
          (tx_state txcv ch (41 + d)) hph (by rw [i2, e5]; exact bitmask_exhausted)
        rw [h1, h2, h3, h4, h5, e1, e2, e3, i5, modem_tx_snd]
        refine ⟨rfl, rfl, rfl, ?_, rfl⟩
        have e := bitmask_test
          (channel.modem_tx txcv 0 { ch with tx_calls := ch.tx_calls + (d / 2560 + 1) }).1 0
          (by omega)
        simp only [Nat.shiftRight_zero] at e
        have e6 : (0x8000000000000000 : Nat) = 2 ^ 63 := by norm_num
        rw [e6]
        simp only [e]
        rfl

theorem modem_tx_fst {S : Type} (txcv : Nat → Nat) (cw : Nat) (ch : MPT1327Channel S) :
    (channel.modem_tx txcv cw ch).1
      = (if txcv ch.tx_calls = 0 then cw
         else if txcv ch.tx_calls = 1 then 0xAAAAAAAAAAAA3B28
         else mpt1327_channel_fcs_add (txcv ch.tx_calls)) := by
  unfold channel.modem_tx
  simp only []
  by_cases h1 : txcv ch.tx_calls = 1
  · rw [if_pos h1, if_neg (by omega), if_pos h1]
    rfl
  · by_cases h0 : txcv ch.tx_calls = 0
    · rw [if_neg h1, if_neg (by omega), if_pos h0]
    · rw [if_neg h1, if_pos (by omega), if_neg h0, if_neg h1]

theorem tx_codeword_eq {S : Type} (txcv : Nat → Nat) (ch : MPT1327Channel S) (k : Nat) :
    tx_codeword txcv ch k
      = (if txcv (ch.tx_calls + k) = 0 then 0
         else if txcv (ch.tx_calls + k) = 1 then 0xAAAAAAAAAAAA3B28
         else mpt1327_channel_fcs_add (txcv (ch.tx_calls + k))) := by
  unfold tx_codeword
  rw [modem_tx_fst]

theorem tx_calls_closed {S : Type} (txcv : Nat → Nat) (ch : MPT1327Channel S) (n : Nat) :
    (tx_state txcv ch n).2.tx_calls = ch.tx_calls + (n + 2519) / 2560 := by
  by_cases h : n ≤ 40
  · rw [tx_state_early txcv ch n h]
    show ch.tx_calls = _
    omega
  · obtain ⟨d, rfl⟩ : ∃ d, n = 41 + d := ⟨n - 41, by omega⟩
    rw [(tx_state_closed txcv ch d).2.2.2.2]
    show ch.tx_calls + (d / 2560 + 1) = _
    omega

theorem tx_phase_bounds {S : Type} (txcv : Nat → Nat) (ch : MPT1327Channel S) (n : Nat) :
    1 ≤ (tx_state txcv ch (n + 1)).1.phase ∧ (tx_state txcv ch (n + 1)).1.phase ≤ 40 := by
  by_cases h : n + 1 ≤ 40
  · rw [tx_state_early txcv ch (n + 1) h]
    show 1 ≤ ((n + 1 : Nat) : Int) ∧ ((n + 1 : Nat) : Int) ≤ 40
    omega
  · obtain ⟨d, hd⟩ : ∃ d, n + 1 = 41 + d := ⟨n + 1 - 41, by omega⟩
    rw [hd, (tx_state_closed txcv ch d).1]
    omega

/-- Claim C6: at a codeword boundary (the phase counter about to pass 40 with no bit left
in `bitmask`) the codeword the modulator takes is fixed by the value `v` that `txcv` returns:
0 for `v = 0`, `0xAAAAAAAAAAAA3B28` for `v = 1`, `mpt1327_channel_fcs_add v` for `v > 1`;
`txcv` is called exactly once. -/
theorem modulator_codeword_from_txcv {S : Type} (txcv : Nat → Nat)
    (st : MSKModemContext × MPT1327Channel S)
    (hphase : st.1.phase + 1 > 40) (hmask : st.1.bitmask = 0) :
    (mskmodem.tx_step (channel.modem_tx txcv) st).1.current
      = (if txcv st.2.tx_calls = 0 then 0
         else if txcv st.2.tx_calls = 1 then 0xAAAAAAAAAAAA3B28
         else mpt1327_channel_fcs_add (txcv st.2.tx_calls)) ∧
    (mskmodem.tx_step (channel.modem_tx txcv) st).2.tx_calls = st.2.tx_calls + 1 := by
  obtain ⟨_, _, h3, _, h5⟩ := tx_step_fetch (channel.modem_tx txcv) st hphase hmask
  rw [h3, h5, modem_tx_fst, modem_tx_snd]
  exact ⟨rfl, rfl⟩

/-- Witness for claim C6: the boundary reached from a modulator at phase 40 with an empty
bit mask, `txcv` returning 5. -/
theorem modulator_codeword_from_txcv_witness :
    (({ mskmodem_init with phase := 40 } : MSKModemContext).phase + 1 > 40) ∧
    (({ mskmodem_init with phase := 40 } : MSKModemContext).bitmask = 0) ∧
    (mskmodem.tx_step (channel.modem_tx (fun _ => 5))
        (({ mskmodem_init with phase := 40 } : MSKModemContext),
          mpt1327_channel_init (fun _ => ()) (fun _ => ⟨0, 0, none, 0⟩))).2.tx_calls
      = 0 + 1 :=
  ⟨by decide, by decide,
    (modulator_codeword_from_txcv (fun _ => 5)
      (({ mskmodem_init with phase := 40 } : MSKModemContext),
        mpt1327_channel_init (fun _ => ()) (fun _ => ⟨0, 0, none, 0⟩))
      (by decide) (by decide)).2⟩

/-- The timing of the modulator in terms of the number of samples produced. -/
theorem tx_state_timing {S : Type} (txcv : Nat → Nat) (ch : MPT1327Channel S)
    (n k : Nat) (j : Fin 64) (s : Fin 40) :
    (1 ≤ (tx_state txcv ch (n + 1)).1.phase ∧ (tx_state txcv ch (n + 1)).1.phase ≤ 40) ∧
    (tx_state txcv ch (n + 1)).2.tx_calls
      = (tx_state txcv ch n).2.tx_calls + (if (n + 1) % 2560 = 41 then 1 else 0) ∧
    (tx_state txcv ch (41 + 2560 * k + 40 * j + s)).1.current = tx_codeword txcv ch k ∧
    (tx_state txcv ch (41 + 2560 * k + 40 * j + s)).1.fs
      = (if (tx_codeword txcv ch k).testBit (63 - j) then 1 else 3 / 2) ∧
    (txcv (ch.tx_calls + k) = 1 →
      (tx_state txcv ch (41 + 2560 * k + 40 * j + s)).1.fs
        = (if (0xAAAAAAAAAAAA3B28 : Nat).testBit (63 - j) then 1 else 3 / 2)) := by
  have hj := j.isLt
  have hs := s.isLt
  have hd : 41 + 2560 * k + 40 * (j : Nat) + (s : Nat) = 41 + (2560 * k + 40 * j + s) := by
    omega
  have e1 : (2560 * k + 40 * (j : Nat) + (s : Nat)) / 2560 = k := by omega
  have e2 : (2560 * k + 40 * (j : Nat) + (s : Nat)) % 2560 / 40 = j := by omega
  obtain ⟨_, _, c3, c4, _⟩ := tx_state_closed txcv ch (2560 * k + 40 * j + s)
  rw [e1] at c3
  rw [e1, e2] at c4
  refine ⟨tx_phase_bounds txcv ch n, ?_, ?_, ?_, ?_⟩
  · rw [tx_calls_closed, tx_calls_closed]
    split <;> omega
  · rw [hd, c3]
  · rw [hd, c4]
  · intro h1
    rw [hd, c4, tx_codeword_eq, h1]
    rfl

/-! ## Theorems: loop-back -/

theorem codeword_bit_eq_testBit (w j : Nat) :
    codeword_bit w j = if w.testBit (63 - j) then 1 else 0 := by
  unfold codeword_bit
  rw [Nat.and_one_is_mod, Nat.testBit_to_div_mod, Nat.shiftRight_eq_div_pow]
  have := Nat.mod_two_eq_zero_or_one (w / 2 ^ (63 - j))
  rcases this with h | h <;> simp [h]

theorem tx_bit_eq {S : Type} (txcv : Nat → Nat) (ch : MPT1327Channel S) (m : Nat) :
    tx_bit txcv ch m = codeword_bit (tx_codeword txcv ch (m / 64)) (m % 64) := by
  unfold tx_bit
  have e1 : 40 * m / 2560 = m / 64 := by omega
  have e2 : 40 * m % 2560 / 40 = m % 64 := by omega
  rw [(tx_state_closed txcv ch (40 * m)).2.2.2.1, e1, e2, codeword_bit_eq_testBit]
  cases (tx_codeword txcv ch (m / 64)).testBit (63 - m % 64)
  · simp; norm_num
  · simp

theorem tx_bits_codeword {S : Type} (txcv : Nat → Nat) (ch : MPT1327Channel S) (k n : Nat)
    (hn : n ≤ 64) :
    (List.range n).map (fun j => tx_bit txcv ch (64 * k + j))
      = (List.range n).map (codeword_bit (tx_codeword txcv ch k)) := by
  apply List.map_congr_left
  intro j hj
  have hj := List.mem_range.mp hj
  have e1 : (64 * k + j) / 64 = k := by omega
  have e2 : (64 * k + j) % 64 = j := by omega
  rw [tx_bit_eq, e1, e2]

theorem range_map_add (f : Nat → Nat) (a b : Nat) :
    (List.range (a + b)).map f
      = (List.range a).map f ++ (List.range b).map (fun j => f (a + j)) := by
  rw [List.range_add, List.map_append, List.map_map]
  rfl

theorem rx_log_grows {S : Type} (bits : List Nat) (ch : MPT1327Channel S) :
    ∃ l, (rx_bits bits ch).rx_log = ch.rx_log ++ l := by
  induction bits generalizing ch with
  | nil => exact ⟨[], by simp [rx_bits]⟩
  | cons b bs ih =>
    obtain ⟨l, hl⟩ := ih (channel.modem_rx b ch)
    have e : rx_bits (b :: bs) ch = rx_bits bs (channel.modem_rx b ch) := rfl
    rw [e, hl, modem_rx_rx_log]
    exact ⟨_, List.append_assoc _ _ _⟩

/-- Delivery on the last bit of codeword number `i` of a stream of framed payloads. -/
theorem loopback_codeword_delivery {S : Type} (txcv : Nat → Nat) (cht chr : MPT1327Channel S)
    (i c : Nat) (hv : txcv (cht.tx_calls + i) = c) (h1 : 1 < c) (h48 : c < 2 ^ 48) :
    (rx_bits ((List.range (64 * i + 64)).map (tx_bit txcv cht)) chr).rx_log
      = (rx_bits ((List.range (64 * i + 63)).map (tx_bit txcv cht)) chr).rx_log ++ [c] := by
  have hW : tx_codeword txcv cht i = mpt1327_channel_fcs_add c := by
    rw [tx_codeword_eq, hv, if_neg (by omega), if_neg (by omega)]
  rw [range_map_add _ (64 * i) 64, range_map_add _ (64 * i) 63,
    tx_bits_codeword txcv cht i 64 (le_refl _), tx_bits_codeword txcv cht i 63 (by omega),
    rx_bits_append, rx_bits_append, hW]
  exact (rx_codeword_round_trip c h48 _).2.2

theorem getD_of_take_succ (cs : List Nat) (i : Nat) (hi : i < cs.length) :
    cs.take (i + 1) = cs.take i ++ [cs.getD i 0] := by
  rw [List.take_succ, List.getD_eq_getElem?_getD, List.getElem?_eq_getElem hi]
  rfl

theorem loopback_sublist {S : Type} (cs : List Nat) (hcs : ∀ c ∈ cs, 1 < c ∧ c < 2 ^ 48)
    (cht chr : MPT1327Channel S) (ht : cht.tx_calls = 0) (i : Nat) (hi : i ≤ cs.length) :
    (cs.take i).Sublist
      ((rx_bits ((List.range (64 * i)).map (tx_bit (fun n => cs.getD n 0) cht)) chr).rx_log) := by
  induction i with
  | zero => simp
  | succ k ih =>
    have hk : k < cs.length := by omega
    have ih := ih (by omega)
    have hmem : cs.getD k 0 ∈ cs := by
      rw [List.getD_eq_getElem?_getD, List.getElem?_eq_getElem hk]
      exact List.getElem_mem _
    have hdel := loopback_codeword_delivery (fun n => cs.getD n 0) cht chr k (cs.getD k 0)
      (by rw [ht, Nat.zero_add]) (hcs _ hmem).1 (hcs _ hmem).2
    have e : 64 * (k + 1) = 64 * k + 64 := by omega
    rw [e, hdel, getD_of_take_succ cs k hk]
    apply List.Sublist.append _ (List.Sublist.refl _)
    rw [range_map_add _ (64 * k) 63, rx_bits_append]
    obtain ⟨l, hl⟩ := rx_log_grows
      ((List.range 63).map (fun j => tx_bit (fun n => cs.getD n 0) cht (64 * k + j)))
      (rx_bits ((List.range (64 * k)).map (tx_bit (fun n => cs.getD n 0) cht)) chr)
    rw [hl]
    exact List.sublist_append_of_sublist_left ih

/-- Claim C8, amended: for payloads `c1..ck`, each with `1 < ci < 2^48`, whose modulator
bits are fed in order to `modem_rx` of a fresh channel, `recv` is called with `ci` on the
64th bit of codeword `i` (first part), so that `c1..ck` all arrive, in that order (second
part: they are a subsequence of the calls).  Further calls can happen on other bits. -/
theorem loopback_delivers_every_codeword {S : Type} (cbsnd0 : Int → S)
    (cbtone0 : Int → MPT1327Tone) (cs : List Nat) (hcs : ∀ c ∈ cs, 1 < c ∧ c < 2 ^ 48)
    (i : Nat) (hi : i < cs.length) :
    (rx_bits ((List.range (64 * i + 64)).map
        (tx_bit (fun n => cs.getD n 0) (mpt1327_channel_init cbsnd0 cbtone0)))
        (mpt1327_channel_init cbsnd0 cbtone0)).rx_log
      = (rx_bits ((List.range (64 * i + 63)).map
          (tx_bit (fun n => cs.getD n 0) (mpt1327_channel_init cbsnd0 cbtone0)))
          (mpt1327_channel_init cbsnd0 cbtone0)).rx_log ++ [cs.getD i 0] ∧
    cs.Sublist
      (rx_bits ((List.range (64 * cs.length)).map
        (tx_bit (fun n => cs.getD n 0) (mpt1327_channel_init cbsnd0 cbtone0)))
        (mpt1327_channel_init cbsnd0 cbtone0)).rx_log := by
  have hmem : cs.getD i 0 ∈ cs := by
    rw [List.getD_eq_getElem?_getD, List.getElem?_eq_getElem hi]
    exact List.getElem_mem _
  refine ⟨?_, ?_⟩
  · exact loopback_codeword_delivery _ _ _ i _ (by simp [mpt1327_channel_init])
      (hcs _ hmem).1 (hcs _ hmem).2
  · have h := loopback_sublist cs hcs (mpt1327_channel_init cbsnd0 cbtone0)
      (mpt1327_channel_init cbsnd0 cbtone0) rfl cs.length (le_refl _)
    rwa [List.take_length] at h

/-- Witness for claim C8 (amended): the payloads 5 and 6, second codeword. -/
theorem loopback_delivers_every_codeword_witness :
    (∀ c ∈ [5, 6], 1 < c ∧ c < 2 ^ 48) ∧ 1 < [5, 6].length ∧
    [5, 6].Sublist
      (rx_bits ((List.range (64 * [5, 6].length)).map
        (tx_bit (fun n => [5, 6].getD n 0)
          (mpt1327_channel_init (fun _ => ()) (fun _ => ⟨0, 0, none, 0⟩))))
        (mpt1327_channel_init (fun _ => ()) (fun _ => ⟨0, 0, none, 0⟩))).rx_log :=
  ⟨by decide, by decide,
    (loopback_delivers_every_codeword (fun _ => ()) (fun _ => ⟨0, 0, none, 0⟩) [5, 6]
      (by decide) 1 (by decide)).2⟩

set_option maxRecDepth 100000 in
theorem fcs_add_payload_c000 :
    mpt1327_channel_fcs_add 0xC00000000000 = 13835058055282203677 := by
  decide

set_option maxRecDepth 1000000 in
theorem rx_bits_payload_c000 :
    (rx_bits (codeword_bits 13835058055282203677)
        (mpt1327_channel_init (fun _ => ()) (fun _ => ⟨0, 0, none, 0⟩))).rx_log
      = [0, 0xC00000000000] := by
  decide

/-- Counterexample to claim C8 as stated: for the single payload `0xC00000000000` the
receiver, starting from `rx_cw = 0`, calls `recv` twice, first with 0 (after two bits the
register holds 3, which is the FCS of the payload 0) and then with the payload. -/
theorem loopback_extra_delivery :
    (rx_bits ((List.range 64).map
        (tx_bit (fun n => [0xC00000000000].getD n 0)
          (mpt1327_channel_init (fun _ => ()) (fun _ => ⟨0, 0, none, 0⟩))))
        (mpt1327_channel_init (fun _ => ()) (fun _ => ⟨0, 0, none, 0⟩))).rx_log
      = [0, 0xC00000000000] := by
  have h := tx_bits_codeword (fun n => [0xC00000000000].getD n 0)
    (mpt1327_channel_init (fun _ => ()) (fun _ => ⟨0, 0, none, 0⟩)) 0 64 (le_refl _)
  simp only [Nat.mul_zero, Nat.zero_add] at h
  have hW : tx_codeword (fun n => [0xC00000000000].getD n 0)
      (mpt1327_channel_init (fun _ => ()) (fun _ => ⟨0, 0, none, 0⟩)) 0
      = 13835058055282203677 := by
    have hv : [0xC00000000000].getD
        ((mpt1327_channel_init (fun _ => ()) (fun _ => ⟨0, 0, none, 0⟩)).tx_calls + 0) 0
        = 0xC00000000000 := rfl
    rw [tx_codeword_eq, hv, if_neg (by decide), if_neg (by decide)]
    exact fcs_add_payload_c000
  rw [hW] at h
  have e : (List.range 64).map
        (tx_bit (fun n => [0xC00000000000].getD n 0)
          (mpt1327_channel_init (fun _ => ()) (fun _ => ⟨0, 0, none, 0⟩)))
      = (List.range 64).map (fun j => tx_bit (fun n => [0xC00000000000].getD n 0)
          (mpt1327_channel_init (fun _ => ()) (fun _ => ⟨0, 0, none, 0⟩)) j) := rfl
  rw [e, h]
  exact rx_bits_payload_c000

theorem modem_rx_frame {S : Type} (b : Nat) (ch : MPT1327Channel S) :
    ∃ r l, channel.modem_rx b ch = { ch with rx_cw := r, rx_log := l } := by
  unfold channel.modem_rx
  simp only []
  split
  · exact ⟨_, _, rfl⟩
  · exact ⟨_, _, rfl⟩

theorem rx_bits_frame {S : Type} (bits : List Nat) (ch : MPT1327Channel S) :
    ∃ r l, rx_bits bits ch = { ch with rx_cw := r, rx_log := l } := by
  induction bits generalizing ch with
  | nil => exact ⟨ch.rx_cw, ch.rx_log, rfl⟩
  | cons b bs ih =>
    obtain ⟨r1, l1, h1⟩ := modem_rx_frame b ch
    obtain ⟨r, l, h⟩ := ih (channel.modem_rx b ch)
    refine ⟨r, l, ?_⟩
    have e : rx_bits (b :: bs) ch = rx_bits bs (channel.modem_rx b ch) := rfl
    rw [e, h, h1]

theorem rx_bits_eq_of_fields {S : Type} (bits : List Nat) (ch : MPT1327Channel S)
    (r : Nat) (l : List Nat) (hr : (rx_bits bits ch).rx_cw = r)
    (hl : (rx_bits bits ch).rx_log = l) :
    rx_bits bits ch = { ch with rx_cw := r, rx_log := l } := by
  obtain ⟨r1, l1, h⟩ := rx_bits_frame bits ch
  rw [h] at hr hl
  rw [h]
  simp only at hr hl
  rw [hr, hl]

theorem rx_bits_tx_codewords {S : Type} (txcv : Nat → Nat) (cht chr : MPT1327Channel S)
    (k : Nat) :
    rx_bits ((List.range (64 * (k + 1))).map (tx_bit txcv cht)) chr
      = rx_bits (codeword_bits (tx_codeword txcv cht k))
          (rx_bits ((List.range (64 * k)).map (tx_bit txcv cht)) chr) := by
  have e : 64 * (k + 1) = 64 * k + 64 := by omega
  rw [e, range_map_add, rx_bits_append, tx_bits_codeword txcv cht k 64 (le_refl _)]
  rfl

set_option maxRecDepth 1000000 in
theorem idle_word_first :
    rx_bits (codeword_bits 0xAAAAAAAAAAAA3B28)
        (mpt1327_channel_init (fun _ => ()) (fun _ => ⟨0, 0, none, 0⟩))
      = { mpt1327_channel_init (fun _ => ()) (fun _ => ⟨0, 0, none, 0⟩) with
          rx_cw := 0xAAAAAAAAAAAA3B28, rx_log := [] } :=
  rx_bits_eq_of_fields _ _ _ _ (by decide) (by decide)

set_option maxRecDepth 1000000 in
theorem idle_word_again :
    rx_bits (codeword_bits 0xAAAAAAAAAAAA3B28)
        { mpt1327_channel_init (fun _ => ()) (fun _ => ⟨0, 0, none, 0⟩) with
          rx_cw := 0xAAAAAAAAAAAA3B28, rx_log := [] }
      = { mpt1327_channel_init (fun _ => ()) (fun _ => ⟨0, 0, none, 0⟩) with
          rx_cw := 0xAAAAAAAAAAAA3B28, rx_log := [] } :=
  rx_bits_eq_of_fields _ _ _ _ (by decide) (by decide)

theorem idle_stream_state (k : Nat) :
    rx_bits ((List.range (64 * (k + 1))).map
        (tx_bit (fun _ => 0x000000000001)
          (mpt1327_channel_init (fun _ => ()) (fun _ => ⟨0, 0, none, 0⟩))))
        (mpt1327_channel_init (fun _ => ()) (fun _ => ⟨0, 0, none, 0⟩))
      = { mpt1327_channel_init (fun _ => ()) (fun _ => ⟨0, 0, none, 0⟩) with
          rx_cw := 0xAAAAAAAAAAAA3B28, rx_log := [] } := by
  have hW : ∀ j, tx_codeword (fun _ => 0x000000000001)
      (mpt1327_channel_init (fun _ => ()) (fun _ => ⟨0, 0, none, 0⟩)) j
      = 0xAAAAAAAAAAAA3B28 := by
    intro j
    rw [tx_codeword_eq]
    rfl
  induction k with
  | zero =>
    rw [rx_bits_tx_codewords, hW]
    exact idle_word_first
  | succ n ih =>
    rw [rx_bits_tx_codewords, hW, ih]
    exact idle_word_again

/-- Counterexample to claim C9 as stated: with `txcv` returning `0x000000000001` at every
codeword boundary the channel sends the idle sync word, and in 5 codeword times (320 bits)
the receiver of a fresh channel never calls `recv`, in particular not with 1. -/
theorem loopback_sentinel_one_not_delivered :
    (rx_bits ((List.range 320).map
        (tx_bit (fun _ => 0x000000000001)
          (mpt1327_channel_init (fun _ => ()) (fun _ => ⟨0, 0, none, 0⟩))))
        (mpt1327_channel_init (fun _ => ()) (fun _ => ⟨0, 0, none, 0⟩))).rx_log = [] := by
  have h := idle_stream_state 4
  have e : 64 * (4 + 1) = 320 := rfl
  rw [e] at h
  rw [h]

/-- Claim C9, amended: for a payload `c` with `1 < c < 2^48` (the value 1 is the idle
sentinel), if `txcv` returns `c` at every codeword boundary and the transmitted bits are fed
error-free to `modem_rx` of a fresh channel, `recv` is called with `c` within 5 codeword
times (320 bits). -/
theorem loopback_payload_within_five_codewords {S : Type} (cbsnd0 : Int → S)
    (cbtone0 : Int → MPT1327Tone) (c : Nat) (h1 : 1 < c) (h48 : c < 2 ^ 48) :
    c ∈ (rx_bits ((List.range 320).map
          (tx_bit (fun _ => c) (mpt1327_channel_init cbsnd0 cbtone0)))
          (mpt1327_channel_init cbsnd0 cbtone0)).rx_log := by
  have hdel := loopback_codeword_delivery (fun _ => c) (mpt1327_channel_init cbsnd0 cbtone0)
    (mpt1327_channel_init cbsnd0 cbtone0) 0 c rfl h1 h48
  simp only [Nat.mul_zero, Nat.zero_add] at hdel
  have e : 320 = 64 + 256 := rfl
  rw [e, range_map_add, rx_bits_append]
  obtain ⟨l, hl⟩ := rx_log_grows
    ((List.range 256).map (fun j => tx_bit (fun _ => c) (mpt1327_channel_init cbsnd0 cbtone0)
      (64 + j)))
    (rx_bits ((List.range 64).map (tx_bit (fun _ => c) (mpt1327_channel_init cbsnd0 cbtone0)))
      (mpt1327_channel_init cbsnd0 cbtone0))
  rw [hl, hdel]
  simp

/-- Witness for claim C9 (amended) at the payload 2. -/
theorem loopback_payload_within_five_codewords_witness :
    1 < 2 ∧ 2 < 2 ^ 48 ∧
    2 ∈ (rx_bits ((List.range 320).map
          (tx_bit (fun _ => 2) (mpt1327_channel_init (fun _ => ()) (fun _ => ⟨0, 0, none, 0⟩))))
          (mpt1327_channel_init (fun _ => ()) (fun _ => ⟨0, 0, none, 0⟩))).rx_log :=
  ⟨by decide, by decide,
    loopback_payload_within_five_codewords (fun _ => ()) (fun _ => ⟨0, 0, none, 0⟩) 2
      (by decide) (by decide)⟩

/-! ## Theorems: modulator across calls -/

theorem tx_loop_fst {U S : Type} (ops : SoundOps S) (tx_f : Nat → U → Nat × U) (n : Nat)
    (i : Int) (st : MSKModemContext × U) (buf : Int → S) :
    (mskmodem.tx_loop ops tx_f n i (st, buf)).1 = mskmodem.tx_run tx_f n st := by
  induction n generalizing i st buf with
  | zero => rfl
  | succ k ih =>
    show (mskmodem.tx_loop ops tx_f k (i + 1) _).1 = mskmodem.tx_run tx_f k _
    rw [ih]

theorem tx_run_add {U : Type} (tx_f : Nat → U → Nat × U) (a b : Nat)
    (st : MSKModemContext × U) :
    mskmodem.tx_run tx_f (a + b) st = mskmodem.tx_run tx_f b (mskmodem.tx_run tx_f a st) := by
  induction a generalizing st with
  | zero => simp [mskmodem.tx_run]
  | succ k ih =>
    have e : k + 1 + b = (k + b) + 1 := by omega
    rw [e]
    show mskmodem.tx_run tx_f (k + b) _ = mskmodem.tx_run tx_f b (mskmodem.tx_run tx_f k _)
    rw [ih]

theorem tone_loop_tx_calls {S : Type} (ops : SoundOps S) (fuel : Nat) (i : Int)
    (x : MPT1327Channel S × (Int → S)) :
    (channel.tone_loop ops fuel i x).1.tx_calls = x.1.tx_calls := by
  induction fuel generalizing i x with
  | zero => rfl
  | succ k ih =>
    obtain ⟨ch, buf⟩ := x
    unfold channel.tone_loop
    simp only []
    split
    · rw [ih]
      split <;> rfl
    · rfl

theorem sound_tx_bridge_tx_calls {S : Type} (ops : SoundOps S) (ch : MPT1327Channel S)
    (buf : Int → S) (samples : Int) :
    (channel.sound_tx_bridge ops ch buf samples).1.tx_calls = ch.tx_calls := by
  unfold channel.sound_tx_bridge
  simp only []
  split <;> rfl

theorem sound_tx_tones_tx_calls {S : Type} (ops : SoundOps S) (ch : MPT1327Channel S)
    (buf : Int → S) (samples : Int) :
    (channel.sound_tx_tones ops ch buf samples).1.tx_calls = ch.tx_calls := by
  unfold channel.sound_tx_tones
  simp only []
  split
  · rw [tone_loop_tx_calls]
    split <;> rfl
  · rfl

theorem sound_tx_tx_calls {S : Type} (ops : SoundOps S) (ch : MPT1327Channel S)
    (buf : Int → S) (samples : Int) (r : MPT1327Channel S × (Int → S))
    (h : channel.sound_tx ops ch buf samples = some r) : r.1.tx_calls = ch.tx_calls := by
  unfold channel.sound_tx at h
  simp only [] at h
  unfold g_mutex_lock at h
  split at h
  · exact absurd h (by simp)
  · rename_i c hc
    split at hc
    · exact absurd hc (by simp)
    · simp only [Option.some.injEq] at hc h
      rw [← h, ← hc]
      show (channel.sound_tx_tones ops _ _ samples).1.tx_calls = _
      rw [sound_tx_tones_tx_calls]
      exact sound_tx_bridge_tx_calls ops ch buf samples

theorem tx_step_congr {S : Type} (txcv : Nat → Nat) (st st2 : MSKModemContext × MPT1327Channel S)
    (h1 : st.1 = st2.1) (h2 : st.2.tx_calls = st2.2.tx_calls) :
    (mskmodem.tx_step (channel.modem_tx txcv) st).1
      = (mskmodem.tx_step (channel.modem_tx txcv) st2).1 ∧
    (mskmodem.tx_step (channel.modem_tx txcv) st).2.tx_calls
      = (mskmodem.tx_step (channel.modem_tx txcv) st2).2.tx_calls := by
  have hf : (channel.modem_tx txcv 0 st.2).1 = (channel.modem_tx txcv 0 st2.2).1 := by
    rw [modem_tx_fst, modem_tx_fst, h2]
  have hs : (channel.modem_tx txcv 0 st.2).2.tx_calls
      = (channel.modem_tx txcv 0 st2.2).2.tx_calls := by
    rw [modem_tx_snd, modem_tx_snd]
    exact congrArg (· + 1) h2
  unfold mskmodem.tx_step
  simp only [h1]
  split
  · split
    · simp only [hf]
      exact ⟨trivial, hs⟩
    · exact ⟨rfl, h2⟩
  · exact ⟨rfl, h2⟩

theorem tx_run_congr {S : Type} (txcv : Nat → Nat) (n : Nat)
    (st st2 : MSKModemContext × MPT1327Channel S)
    (h1 : st.1 = st2.1) (h2 : st.2.tx_calls = st2.2.tx_calls) :
    (mskmodem.tx_run (channel.modem_tx txcv) n st).1
      = (mskmodem.tx_run (channel.modem_tx txcv) n st2).1 ∧
    (mskmodem.tx_run (channel.modem_tx txcv) n st).2.tx_calls
      = (mskmodem.tx_run (channel.modem_tx txcv) n st2).2.tx_calls := by
  induction n generalizing st st2 with
  | zero => exact ⟨h1, h2⟩
  | succ k ih =>
    obtain ⟨a, b⟩ := tx_step_congr txcv st st2 h1 h2
    exact ih _ _ a b

theorem tx_blocks_state {S : Type} (ops : SoundOps S) (txcv : Nat → Nat)
    (blocks : List ((Int → S) × Int)) (st r : MSKModemContext × MPT1327Channel S)
    (h : tx_blocks ops txcv blocks st = some r) :
    r.1 = (mskmodem.tx_run (channel.modem_tx txcv) (blocks.map (fun b => b.2.toNat)).sum st).1 ∧
    r.2.tx_calls
      = (mskmodem.tx_run (channel.modem_tx txcv) (blocks.map (fun b => b.2.toNat)).sum st).2.tx_calls
    := by
  induction blocks generalizing st with
  | nil =>
    simp only [tx_blocks, Option.some.injEq] at h
    rw [← h]
    exact ⟨rfl, rfl⟩
  | cons b rest ih =>
    unfold tx_blocks at h
    split at h
    · exact absurd h (by simp)
    · rename_i r1 h1
      unfold mskmodem.modem_tx at h1
      split at h1
      · exact absurd h1 (by simp)
      · rename_i q hq
        simp only [Option.some.injEq] at h1
        obtain ⟨a1, a2⟩ := ih _ h
        have hc := sound_tx_tx_calls ops st.2 b.1 b.2 q hq
        have e : r1.1 = mskmodem.tx_run (channel.modem_tx txcv) b.2.toNat (st.1, q.1) := by
          rw [← h1, tx_loop_fst]
        obtain ⟨c1, c2⟩ := tx_run_congr txcv b.2.toNat (st.1, q.1) st rfl hc
        rw [e] at a1 a2
        obtain ⟨d1, d2⟩ := tx_run_congr txcv (rest.map (fun b => b.2.toNat)).sum _ _ c1 c2
        simp only [List.map_cons, List.sum_cons]
        rw [tx_run_add]
        exact ⟨a1.trans d1, a2.trans d2⟩

theorem tone_loop_mutex {S : Type} (ops : SoundOps S) (fuel : Nat) (i : Int)
    (x : MPT1327Channel S × (Int → S)) :
    (channel.tone_loop ops fuel i x).1.mutex = x.1.mutex := by
  induction fuel generalizing i x with
  | zero => rfl
  | succ k ih =>
    obtain ⟨ch, buf⟩ := x
    unfold channel.tone_loop
    simp only []
    split
    · rw [ih]
      split <;> rfl
    · rfl

theorem sound_tx_returns {S : Type} (ops : SoundOps S) (ch : MPT1327Channel S)
    (buf : Int → S) (samples : Int) (hm : ch.mutex = false) :
    ∃ r, channel.sound_tx ops ch buf samples = some r ∧ r.1.mutex = false := by
  have hb : (channel.sound_tx_bridge ops ch buf samples).1.mutex = false := by
    unfold channel.sound_tx_bridge
    simp only []
    split <;> exact hm
  unfold channel.sound_tx
  simp only []
  unfold g_mutex_lock
  rw [hb]
  exact ⟨_, rfl, rfl⟩

theorem tx_step_mutex {S : Type} (txcv : Nat → Nat) (st : MSKModemContext × MPT1327Channel S) :
    (mskmodem.tx_step (channel.modem_tx txcv) st).2.mutex = st.2.mutex := by
  unfold mskmodem.tx_step
  simp only []
  split
  · split
    · show (channel.modem_tx txcv 0 st.2).2.mutex = _
      rw [modem_tx_snd]
    · rfl
  · rfl

theorem tx_run_mutex {S : Type} (txcv : Nat → Nat) (n : Nat)
    (st : MSKModemContext × MPT1327Channel S) :
    (mskmodem.tx_run (channel.modem_tx txcv) n st).2.mutex = st.2.mutex := by
  induction n generalizing st with
  | zero => rfl
  | succ k ih =>
    show (mskmodem.tx_run (channel.modem_tx txcv) k _).2.mutex = _
    rw [ih, tx_step_mutex]

theorem tx_blocks_returns {S : Type} (ops : SoundOps S) (txcv : Nat → Nat)
    (blocks : List ((Int → S) × Int)) (st : MSKModemContext × MPT1327Channel S)
    (hm : st.2.mutex = false) :
    ∃ r, tx_blocks ops txcv blocks st = some r := by
  induction blocks generalizing st with
  | nil => exact ⟨st, rfl⟩
  | cons b rest ih =>
    obtain ⟨q, hq, hqm⟩ := sound_tx_returns ops st.2 b.1 b.2 hm
    unfold tx_blocks mskmodem.modem_tx
    simp only [hq]
    apply ih
    rw [tx_loop_fst, tx_run_mutex]
    exact hqm

/-- Claim C7: from the freshly initialised modulator, whatever the sizes of the blocks the
sound backend asks for (first part: the calls of `modem_tx` return, and the modulator
variables and the number of `txcv` calls after them are those after as many passes of the
sample loop as the blocks have samples), after every sample `1 <= phase <= 40`; sample
`n + 1` requests a codeword exactly when `n + 1 = 41 + 2560 * k` for some `k`; in bit period
`j` of codeword `k` (samples `41 + 2560*k + 40*j + s`, `s < 40`) the current codeword is the
one fetched at boundary `k` and the frequency factor is 1 when its bit `63 - j` is 1 and 3/2
when it is 0; when `txcv` returned 1, these are the bits of `0xAAAAAAAAAAAA3B28`. -/
theorem modulator_bit_timing {S : Type} (ops : SoundOps S) (txcv : Nat → Nat)
    (ch : MPT1327Channel S) (hm : ch.mutex = false) (blocks : List ((Int → S) × Int))
    (n k : Nat) (j : Fin 64) (s : Fin 40) :
    (∃ r, tx_blocks ops txcv blocks (mskmodem_init, ch) = some r ∧
      r.1 = (tx_state txcv ch (blocks.map (fun b => b.2.toNat)).sum).1 ∧
      r.2.tx_calls = (tx_state txcv ch (blocks.map (fun b => b.2.toNat)).sum).2.tx_calls) ∧
    (1 ≤ (tx_state txcv ch (n + 1)).1.phase ∧ (tx_state txcv ch (n + 1)).1.phase ≤ 40) ∧
    (tx_state txcv ch (n + 1)).2.tx_calls
      = (tx_state txcv ch n).2.tx_calls + (if (n + 1) % 2560 = 41 then 1 else 0) ∧
    (tx_state txcv ch (41 + 2560 * k + 40 * j + s)).1.current = tx_codeword txcv ch k ∧
    (tx_state txcv ch (41 + 2560 * k + 40 * j + s)).1.fs
      = (if (tx_codeword txcv ch k).testBit (63 - j) then 1 else 3 / 2) ∧
    (txcv (ch.tx_calls + k) = 1 →
      (tx_state txcv ch (41 + 2560 * k + 40 * j + s)).1.fs
        = (if (0xAAAAAAAAAAAA3B28 : Nat).testBit (63 - j) then 1 else 3 / 2)) := by
  refine ⟨?_, tx_state_timing txcv ch n k j s⟩
  obtain ⟨r, hr⟩ := tx_blocks_returns ops txcv blocks (mskmodem_init, ch) hm
  exact ⟨r, hr, tx_blocks_state ops txcv blocks _ r hr⟩

/-- Witness for claim C7: a fresh channel whose `txcv` always returns 1, first sample of the
first bit period. -/
theorem modulator_bit_timing_witness :
    (mpt1327_channel_init (fun _ => ()) (fun _ => ⟨0, 0, none, 0⟩)).mutex = false ∧
    (fun _ => 1 : Nat → Nat)
      ((mpt1327_channel_init (fun _ => ()) (fun _ => ⟨0, 0, none, 0⟩)).tx_calls + 0) = 1 ∧
    (tx_state (fun _ => 1) (mpt1327_channel_init (fun _ => ()) (fun _ => ⟨0, 0, none, 0⟩))
        (41 + 2560 * 0 + 40 * ((0 : Fin 64) : Nat) + ((0 : Fin 40) : Nat))).1.fs
      = (if (0xAAAAAAAAAAAA3B28 : Nat).testBit (63 - ((0 : Fin 64) : Nat)) then 1 else 3 / 2) :=
  ⟨rfl, rfl,
    (modulator_bit_timing ⟨(), fun _ _ _ => (), fun _ _ _ => ()⟩ (fun _ => 1)
      (mpt1327_channel_init (fun _ => ()) (fun _ => ⟨0, 0, none, 0⟩)) rfl
      [(fun _ => (), 32), (fun _ => (), 64)] 0 0 0 0).2.2.2.2.2 rfl⟩

/-! ## Theorems: tone queue -/

set_option maxRecDepth 100000 in
set_option maxHeartbeats 1000000 in
/-- Two tones of 10 samples with completions 1 and 2, then `sound_tx` calls of 20 samples. -/
theorem two_short_tones_run {S : Type} (ops : SoundOps S) (cbsnd0 : Int → S)
    (cbtone0 : Int → MPT1327Tone) (buf buf2 : Int → S) :
    ((mpt1327_channel_queue_tone
        (mpt1327_channel_init cbsnd0 cbtone0) 800 10 (some 1) 11).bind
      (fun ch => (mpt1327_channel_queue_tone ch 800 10 (some 2) 22).bind
        (fun ch => (channel.sound_tx ops ch buf 20).map
          (fun r => (r.1.fcomp_log, r.1.cbtone_ready, r.1.cbtone_rd, r.1.mutex,
            (r.1.cbtone 1).fcomp)))))
      = some ([(1, 11)], 0, 2, false, some 2) ∧
    ((mpt1327_channel_queue_tone
        (mpt1327_channel_init cbsnd0 cbtone0) 800 10 (some 1) 11).bind
      (fun ch => (mpt1327_channel_queue_tone ch 800 10 (some 2) 22).bind
        (fun ch => (channel.sound_tx ops ch buf 20).bind
          (fun r => (channel.sound_tx ops r.1 buf2 20).map
            (fun r => (r.1.fcomp_log, r.1.cbtone_ready, r.1.cbtone_rd))))))
      = some ([(1, 11)], 0, 2) := by
  constructor <;>
  simp [mpt1327_channel_queue_tone, mpt1327_channel_init, g_mutex_lock, g_mutex_unlock,
    channel.sound_tx, channel.sound_tx_bridge, channel.sound_tx_tones, channel.tone_loop,
    Function.update]

/-- Claim C10 fails on the code: two tones of 10 samples are queued on a fresh channel with
the completions 1 and 2, and one `sound_tx` call of 20 samples plays both to their end (the
queue is empty afterwards, `cbtone_rd = 2`, the mutex is free).  Only completion 1 has been
called; completion 2 is still stored in slot 1, which is no longer in the queue, and a
further `sound_tx` call does not call it either. -/
theorem short_tone_completion_skipped {S : Type} (ops : SoundOps S) (cbsnd0 : Int → S)
    (cbtone0 : Int → MPT1327Tone) (buf buf2 : Int → S) :
    ((mpt1327_channel_queue_tone
        (mpt1327_channel_init cbsnd0 cbtone0) 800 10 (some 1) 11).bind
      (fun ch => (mpt1327_channel_queue_tone ch 800 10 (some 2) 22).bind
        (fun ch => (channel.sound_tx ops ch buf 20).map
          (fun r => (r.1.fcomp_log, r.1.cbtone_ready, r.1.cbtone_rd, r.1.mutex,
            (r.1.cbtone 1).fcomp)))))
      = some ([(1, 11)], 0, 2, false, some 2) ∧
    ((mpt1327_channel_queue_tone
        (mpt1327_channel_init cbsnd0 cbtone0) 800 10 (some 1) 11).bind
      (fun ch => (mpt1327_channel_queue_tone ch 800 10 (some 2) 22).bind
        (fun ch => (channel.sound_tx ops ch buf 20).bind
          (fun r => (channel.sound_tx ops r.1 buf2 20).map
            (fun r => (r.1.fcomp_log, r.1.cbtone_ready, r.1.cbtone_rd))))))
      = some ([(1, 11)], 0, 2) :=
  two_short_tones_run ops cbsnd0 cbtone0 buf buf2

/-! ## Theorems: tone ring -/

theorem queue_tone_stores {S : Type} (ch : MPT1327Channel S) (freq duration : Int)
    (fcomp : Option Nat) (userdata : Nat) (hm : ch.mutex = false)
    (hfree : ch.cbtone_ready < ch.cbtone_size) :
    mpt1327_channel_queue_tone ch freq duration fcomp userdata
      = some { ch with
          cbtone := Function.update ch.cbtone ch.cbtone_wr ⟨freq, duration, fcomp, userdata⟩,
          cbtone_wr := (ch.cbtone_wr + 1) % ch.cbtone_size,
          cbtone_ready := ch.cbtone_ready + 1 } := by
  unfold mpt1327_channel_queue_tone g_mutex_lock
  rw [hm]
  simp only [Bool.false_eq_true, if_false]
  rw [if_neg (by simpa using hfree)]
  simp only [g_mutex_unlock, hm]

theorem queue_tone_full {S : Type} (ch : MPT1327Channel S) (freq duration : Int)
    (fcomp : Option Nat) (userdata : Nat) (hm : ch.mutex = false)
    (hfull : ch.cbtone_ready ≥ ch.cbtone_size) :
    mpt1327_channel_queue_tone ch freq duration fcomp userdata
      = some { ch with mutex := true } := by
  unfold mpt1327_channel_queue_tone g_mutex_lock
  rw [hm]
  simp only [Bool.false_eq_true, if_false]
  rw [if_pos hfull]

theorem ring_slot_ne (wr size k : Int) (hwr : 0 ≤ wr ∧ wr < size) (hk : 0 < k ∧ k < size) :
    (wr + k) % size ≠ wr := by
  intro h
  have h1 : (wr + k) % size = wr % size := by rw [h, Int.emod_eq_of_lt hwr.1 hwr.2]
  rw [Int.emod_eq_emod_iff_emod_sub_eq_zero] at h1
  have h2 : wr + k - wr = k := by ring
  rw [h2, Int.emod_eq_of_lt (by omega) hk.2] at h1
  omega

/-- Where the tones of a list end up when they are queued one after the other into a ring
with enough free slots. -/
theorem queue_tones_stores {S : Type} (tones : List MPT1327Tone) (ch : MPT1327Channel S)
    (hm : ch.mutex = false) (hwr : 0 ≤ ch.cbtone_wr ∧ ch.cbtone_wr < ch.cbtone_size)
    (hready : 0 ≤ ch.cbtone_ready)
    (hfree : ch.cbtone_ready + tones.length ≤ ch.cbtone_size) :
    ∃ r, queue_tones tones ch = some r ∧
      r.mutex = false ∧
      r.cbtone_size = ch.cbtone_size ∧
      r.cbtone_rd = ch.cbtone_rd ∧
      r.cbtone_ready = ch.cbtone_ready + tones.length ∧
      r.cbtone_wr = (ch.cbtone_wr + tones.length) % ch.cbtone_size ∧
      (∀ i (hi : i < tones.length),
        r.cbtone ((ch.cbtone_wr + i) % ch.cbtone_size) = tones.get ⟨i, hi⟩) ∧
      (∀ s, (∀ i : Nat, i < tones.length → s ≠ (ch.cbtone_wr + i) % ch.cbtone_size) →
        r.cbtone s = ch.cbtone s) := by
  induction tones generalizing ch with
  | nil =>
    refine ⟨ch, rfl, hm, rfl, rfl, by simp, ?_, ?_, ?_⟩
    · simp [Int.emod_eq_of_lt hwr.1 hwr.2]
    · intro i hi; exact absurd hi (by simp)
    · intro s _; rfl
  | cons t ts ih =>
    have hlen : ((t :: ts).length : Int) = ts.length + 1 := by simp
    have hpos : 0 < ch.cbtone_size := by omega
    have hq := queue_tone_stores ch t.freq t.duration t.fcomp t.userdata hm (by omega)
    have hnext : 0 ≤ (ch.cbtone_wr + 1) % ch.cbtone_size ∧
        (ch.cbtone_wr + 1) % ch.cbtone_size < ch.cbtone_size :=
      ⟨Int.emod_nonneg _ (by omega), Int.emod_lt_of_pos _ hpos⟩
    obtain ⟨r, hr, r1, r2, r3, r4, r5, r6, r7⟩ := ih
      { ch with
          cbtone := Function.update ch.cbtone ch.cbtone_wr ⟨t.freq, t.duration, t.fcomp, t.userdata⟩,
          cbtone_wr := (ch.cbtone_wr + 1) % ch.cbtone_size,
          cbtone_ready := ch.cbtone_ready + 1 }
      hm hnext (by simp only; omega) (by simp only; omega)
    simp only at r2 r3 r4 r5 r6 r7
    refine ⟨r, ?_, r1, r2, r3, ?_, ?_, ?_, ?_⟩
    · show (mpt1327_channel_queue_tone ch t.freq t.duration t.fcomp t.userdata).bind
        (queue_tones ts) = some r
      rw [hq]
      exact hr
    · rw [r4, hlen]; ring
    · rw [r5, hlen, Int.emod_add_emod]
      congr 1; ring
    · intro i hi
      cases i with
      | zero =>
        have e : (ch.cbtone_wr + ((0 : Nat) : Int)) % ch.cbtone_size = ch.cbtone_wr := by
          simp [Int.emod_eq_of_lt hwr.1 hwr.2]
        rw [e, r7 ch.cbtone_wr]
        · simp
        · intro j hj hc
          rw [Int.emod_add_emod] at hc
          have e2 : ch.cbtone_wr + 1 + (j : Int) = ch.cbtone_wr + (1 + j) := by ring
          rw [e2] at hc
          exact ring_slot_ne _ _ _ hwr (by omega) hc.symm
      | succ j =>
        have hj : j < ts.length := by simpa using hi
        have e : (ch.cbtone_wr + ((j + 1 : Nat) : Int)) % ch.cbtone_size
            = ((ch.cbtone_wr + 1) % ch.cbtone_size + j) % ch.cbtone_size := by
          rw [Int.emod_add_emod]
          congr 1
          push_cast
          ring
        rw [e, r6 j hj]
        rfl
    · intro s hs
      rw [r7 s]
      · have h0 := hs 0 (by simp)
        simp [Int.emod_eq_of_lt hwr.1 hwr.2] at h0
        simp [Function.update, h0]
      · intro j hj
        have h1 := hs (j + 1) (by simpa using hj)
        rw [Int.emod_add_emod]
        have e2 : ch.cbtone_wr + 1 + (j : Int) = ch.cbtone_wr + ((j + 1 : Nat) : Int) := by
          push_cast; ring
        rw [e2]
        exact h1

/-! ## Theorems: Morse queue -/

theorem queue_tones_append {S : Type} (a b : List MPT1327Tone) (ch : MPT1327Channel S) :
    queue_tones (a ++ b) ch = (queue_tones a ch).bind (queue_tones b) := by
  induction a generalizing ch with
  | nil => rfl
  | cons t ts ih =>
    show (mpt1327_channel_queue_tone ch t.freq t.duration t.fcomp t.userdata).bind
        (queue_tones (ts ++ b)) = _
    cases h : mpt1327_channel_queue_tone ch t.freq t.duration t.fcomp t.userdata with
    | none => simp [queue_tones, h]
    | some c => simp [queue_tones, h, ih]

theorem queue_morse_pattern_eq {S : Type} (pat : List Char) (ch : MPT1327Channel S) :
    queue_morse_pattern ch pat
      = queue_tones (pat.flatMap
          (fun r => [⟨800, if r = '.' then 3200 else 9600, none, 0⟩, ⟨0, 3200, none, 0⟩])) ch := by
  induction pat generalizing ch with
  | nil => rfl
  | cons r rest ih =>
    simp only [List.flatMap_cons, queue_morse_pattern]
    rw [queue_tones_append]
    by_cases hr : r = '.'
    · simp only [hr, if_true, queue_tones]
      cases h : mpt1327_channel_queue_tone ch 800 (1 * 3200) none 0 with
      | none => simp [show (1 * 3200 : Int) = 3200 by norm_num] at h ⊢; simp [h]
      | some c =>
        simp [show (1 * 3200 : Int) = 3200 by norm_num] at h ⊢
        simp [h, ih]
    · simp only [hr, if_false, queue_tones]
      cases h : mpt1327_channel_queue_tone ch 800 (3 * 3200) none 0 with
      | none => simp [show (3 * 3200 : Int) = 9600 by norm_num] at h ⊢; simp [h]
      | some c =>
        simp [show (3 * 3200 : Int) = 9600 by norm_num] at h ⊢
        simp [h, ih]

theorem queue_morse_lookup_eq {S : Type} (s : Char) (table : List (List Char))
    (ch : MPT1327Channel S) :
    queue_morse_lookup ch s table
      = queue_morse_pattern ch
          (match table.find? (fun p => p.head? = some s) with
            | some p => p.tail
            | none => []) := by
  induction table with
  | nil => rfl
  | cons p rest ih =>
    unfold queue_morse_lookup
    by_cases h : p.head? = some s
    · simp [h, List.find?]
    · rw [if_neg h, ih]
      simp [List.find?, h]

theorem queue_gaps_eq {S : Type} (s : Char) (q : Option (MPT1327Channel S)) :
    q.bind
        (fun ch => (mpt1327_channel_queue_tone ch 0 6400 none 0).bind
          (fun ch =>
            (if s = ' ' then mpt1327_channel_queue_tone ch 0 12800 none 0 else some ch)))
      = (q.bind (queue_tones [⟨0, 6400, none, 0⟩])).bind
          (queue_tones (if s = ' ' then [⟨0, 12800, none, 0⟩] else [])) := by
  cases q with
  | none => rfl
  | some c =>
    simp only [Option.bind, queue_tones]
    cases mpt1327_channel_queue_tone c 0 6400 none 0 with
    | none => rfl
    | some c2 =>
      by_cases hs : s = ' '
      · simp only [hs, if_true, queue_tones, Option.bind]
        cases mpt1327_channel_queue_tone c2 0 12800 none 0 <;> rfl
      · simp only [hs, if_false, queue_tones, Option.bind]

theorem queue_morse_char_eq {S : Type} (s : Char) (ch : MPT1327Channel S) :
    (queue_morse_lookup ch s morsetable).bind
        (fun ch => (mpt1327_channel_queue_tone ch 0 (2 * 3200) none 0).bind
          (fun ch =>
            (if s = ' ' then mpt1327_channel_queue_tone ch 0 (4 * 3200) none 0 else some ch)))
      = queue_tones (spec_morse_char s) ch := by
  unfold spec_morse_char spec_morse_symbols
  rw [queue_tones_append, queue_tones_append, queue_morse_lookup_eq, queue_morse_pattern_eq]
  have e2 : (2 * 3200 : Int) = 6400 := by norm_num
  have e4 : (4 * 3200 : Int) = 12800 := by norm_num
  rw [e2, e4]
  exact queue_gaps_eq s _

theorem queue_morse_chars_eq {S : Type} (str : List Char) (ch : MPT1327Channel S) :
    queue_morse_chars ch str = queue_tones (str.flatMap spec_morse_char) ch := by
  induction str generalizing ch with
  | nil => rfl
  | cons s rest ih =>
    simp only [List.flatMap_cons]
    rw [queue_tones_append, ← queue_morse_char_eq]
    unfold queue_morse_chars
    cases queue_morse_lookup ch s morsetable with
    | none => rfl
    | some c =>
      simp only [Option.bind]
      cases mpt1327_channel_queue_tone c 0 (2 * 3200) none 0 with
      | none => rfl
      | some c2 =>
        simp only [Option.bind]
        cases (if s = ' ' then mpt1327_channel_queue_tone c2 0 (4 * 3200) none 0
          else some c2) with
        | none => rfl
        | some c3 => exact ih c3

/-- The function `mpt1327_channel_queue_morse` queues, one after the other, the tones that
the specification lists. -/
theorem queue_morse_eq {S : Type} (str : List Char) (fcomp : Option Nat) (userdata : Nat)
    (ch : MPT1327Channel S) :
    mpt1327_channel_queue_morse ch str fcomp userdata
      = queue_tones (spec_morse str fcomp userdata) ch := by
  unfold mpt1327_channel_queue_morse spec_morse
  rw [queue_tones_append, queue_morse_chars_eq]
  cases queue_tones (str.flatMap spec_morse_char) ch with
  | none => rfl
  | some c =>
    cases fcomp with
    | none => rfl
    | some f =>
      have e4 : (4 * 3200 : Int) = 12800 := by norm_num
      simp only [Option.bind, queue_tones, e4]
      cases mpt1327_channel_queue_tone c 0 12800 (some f) userdata <;> rfl

set_option maxRecDepth 100000 in
theorem spec_morse_sos :
    spec_morse ['S', 'O', 'S'] none 0
      = [⟨800, 3200, none, 0⟩, ⟨0, 3200, none, 0⟩, ⟨800, 3200, none, 0⟩, ⟨0, 3200, none, 0⟩,
         ⟨800, 3200, none, 0⟩, ⟨0, 3200, none, 0⟩, ⟨0, 6400, none, 0⟩,
         ⟨800, 9600, none, 0⟩, ⟨0, 3200, none, 0⟩, ⟨800, 9600, none, 0⟩, ⟨0, 3200, none, 0⟩,
         ⟨800, 9600, none, 0⟩, ⟨0, 3200, none, 0⟩, ⟨0, 6400, none, 0⟩,
         ⟨800, 3200, none, 0⟩, ⟨0, 3200, none, 0⟩, ⟨800, 3200, none, 0⟩, ⟨0, 3200, none, 0⟩,
         ⟨800, 3200, none, 0⟩, ⟨0, 3200, none, 0⟩, ⟨0, 6400, none, 0⟩] := by
  decide

theorem queue_morse_stores {S : Type} (ch : MPT1327Channel S) (str : List Char)
    (fcomp : Option Nat) (userdata : Nat)
    (hm : ch.mutex = false) (hwr : 0 ≤ ch.cbtone_wr ∧ ch.cbtone_wr < ch.cbtone_size)
    (hready : 0 ≤ ch.cbtone_ready)
    (hfree : ch.cbtone_ready + (spec_morse str fcomp userdata).length ≤ ch.cbtone_size) :
    ∃ r, mpt1327_channel_queue_morse ch str fcomp userdata = some r ∧
      r.cbtone_rd = ch.cbtone_rd ∧
      r.cbtone_ready = ch.cbtone_ready + (spec_morse str fcomp userdata).length ∧
      r.cbtone_wr
        = (ch.cbtone_wr + (spec_morse str fcomp userdata).length) % ch.cbtone_size ∧
      (∀ i (hi : i < (spec_morse str fcomp userdata).length),
        r.cbtone ((ch.cbtone_wr + i) % ch.cbtone_size)
          = (spec_morse str fcomp userdata).get ⟨i, hi⟩) ∧
      (∀ s, (∀ i : Nat, i < (spec_morse str fcomp userdata).length →
          s ≠ (ch.cbtone_wr + i) % ch.cbtone_size) → r.cbtone s = ch.cbtone s) := by
  obtain ⟨r, hr, _, _, r3, r4, r5, r6, r7⟩ :=
    queue_tones_stores (spec_morse str fcomp userdata) ch hm hwr hready hfree
  exact ⟨r, by rw [queue_morse_eq, hr], r3, r4, r5, r6, r7⟩

/-! ## Theorems: bridge ring -/

theorem ring_index (rd size i : Int) (hrd : 0 ≤ rd ∧ rd < size) (hi : 0 ≤ i ∧ i ≤ size) :
    (rd + i) % size = if rd + i < size then rd + i else rd + i - size := by
  split
  · rename_i h
    exact Int.emod_eq_of_lt (by omega) h
  · rename_i h
    have e : rd + i = (rd + i - size) + size := by ring
    rw [e, Int.add_emod_self, Int.emod_eq_of_lt (by omega) (by omega)]
    ring

theorem sound_tx_bridge_taken {S : Type} (ops : SoundOps S) (ch : MPT1327Channel S)
    (buf : Int → S) (n p : Int)
    (hc : ch.cbsnd_ready ≥ n ∨ (ch.cbsnd_ready ≠ 0 ∧ ch.enable_bridge = 0))
    (hp : p = if ch.cbsnd_ready ≥ n then n else ch.cbsnd_ready)
    (hps : 0 ≤ p ∧ p ≤ ch.cbsnd_size)
    (hrd : 0 ≤ ch.cbsnd_rd ∧ ch.cbsnd_rd < ch.cbsnd_size) :
    (∀ i, 0 ≤ i → i < p →
        (channel.sound_tx_bridge ops ch buf n).2 i
          = ch.cbsnd ((ch.cbsnd_rd + i) % ch.cbsnd_size)) ∧
    (∀ i, p ≤ i → i < n → (channel.sound_tx_bridge ops ch buf n).2 i = ops.zero) ∧
    (channel.sound_tx_bridge ops ch buf n).1
      = { ch with cbsnd_rd := (ch.cbsnd_rd + p) % ch.cbsnd_size,
                  cbsnd_ready := ch.cbsnd_ready - p } := by
  unfold channel.sound_tx_bridge
  simp only [if_pos hc, ← hp]
  refine ⟨?_, ?_, trivial⟩
  · intro i h0 hi
    rw [if_neg (by omega), ring_index _ _ _ hrd ⟨h0, by omega⟩]
    unfold memcpy
    by_cases h1 : ch.cbsnd_size - ch.cbsnd_rd ≥ p
    · rw [if_pos h1, if_pos (by omega), if_pos (by omega)]
      congr 1
      omega
    · rw [if_neg h1]
      by_cases h2 : ch.cbsnd_rd + i < ch.cbsnd_size
      · rw [if_neg (by omega), if_pos (by omega), if_pos h2]
        congr 1
        omega
      · rw [if_pos (by omega), if_neg h2]
        congr 1
        omega
  · intro i h0 hi
    rw [if_pos ⟨h0, hi⟩]

theorem sound_tx_bridge_idle {S : Type} (ops : SoundOps S) (ch : MPT1327Channel S)
    (buf : Int → S) (n : Int)
    (hc : ¬ (ch.cbsnd_ready ≥ n ∨ (ch.cbsnd_ready ≠ 0 ∧ ch.enable_bridge = 0))) :
    (∀ i, 0 ≤ i → i < n → (channel.sound_tx_bridge ops ch buf n).2 i = ops.zero) ∧
    (channel.sound_tx_bridge ops ch buf n).1 = ch := by
  unfold channel.sound_tx_bridge
  simp only [if_neg hc]
  refine ⟨?_, trivial⟩
  intro i h0 hi
  rw [if_pos ⟨h0, hi⟩]

/-- The bridge part of `sound_tx` on a ring in range: drain count, output and new ring
state. -/
theorem sound_tx_bridge_drain {S : Type} (ops : SoundOps S) (ch : MPT1327Channel S)
    (buf : Int → S) (n : Int)
    (hready : 0 ≤ ch.cbsnd_ready ∧ ch.cbsnd_ready ≤ ch.cbsnd_size)
    (hrd : 0 ≤ ch.cbsnd_rd ∧ ch.cbsnd_rd < ch.cbsnd_size) (hn : 0 ≤ n) :
    (∀ i, 0 ≤ i →
        i < (if ch.cbsnd_ready ≥ n then n else if ch.enable_bridge = 0 then ch.cbsnd_ready else 0) →
        (channel.sound_tx_bridge ops ch buf n).2 i
          = ch.cbsnd ((ch.cbsnd_rd + i) % ch.cbsnd_size)) ∧
    (∀ i,
        (if ch.cbsnd_ready ≥ n then n else if ch.enable_bridge = 0 then ch.cbsnd_ready else 0) ≤ i →
        i < n → (channel.sound_tx_bridge ops ch buf n).2 i = ops.zero) ∧
    (channel.sound_tx_bridge ops ch buf n).1
      = { ch with
          cbsnd_rd := (ch.cbsnd_rd +
            (if ch.cbsnd_ready ≥ n then n else if ch.enable_bridge = 0 then ch.cbsnd_ready else 0))
              % ch.cbsnd_size,
          cbsnd_ready := ch.cbsnd_ready -
            (if ch.cbsnd_ready ≥ n then n else if ch.enable_bridge = 0 then ch.cbsnd_ready else 0) }
    := by
  by_cases hA : ch.cbsnd_ready ≥ n
  · obtain ⟨a, b, c⟩ := sound_tx_bridge_taken ops ch buf n n (Or.inl hA)
      (by rw [if_pos hA]) ⟨hn, by omega⟩ hrd
    simp only [if_pos hA]
    exact ⟨a, b, c⟩
  · by_cases hB : ch.cbsnd_ready ≠ 0 ∧ ch.enable_bridge = 0
    · obtain ⟨a, b, c⟩ := sound_tx_bridge_taken ops ch buf n ch.cbsnd_ready (Or.inr hB)
        (by rw [if_neg hA]) ⟨hready.1, hready.2⟩ hrd
      simp only [if_neg hA, if_pos hB.2]
      exact ⟨a, b, c⟩
    · obtain ⟨a, c⟩ := sound_tx_bridge_idle ops ch buf n (by
        intro h
        rcases h with h | h
        · exact hA h
        · exact hB h)
      have hp0 : (if ch.cbsnd_ready ≥ n then n
          else if ch.enable_bridge = 0 then ch.cbsnd_ready else 0) = 0 := by
        rw [if_neg hA]
        by_cases he : ch.enable_bridge = 0
        · rw [if_pos he]
          by_contra h0
          exact hB ⟨h0, he⟩
        · rw [if_neg he]
      rw [hp0]
      refine ⟨fun i h0 hi => absurd hi (by omega), fun i h0 hi => a i h0 hi, ?_⟩
      rw [c]
      have e1 : (ch.cbsnd_rd + 0) % ch.cbsnd_size = ch.cbsnd_rd := by
        rw [Int.add_zero, Int.emod_eq_of_lt hrd.1 hrd.2]
      rw [e1, Int.sub_zero]

theorem sound_tx_bridge_frame {S : Type} (ops : SoundOps S) (ch : MPT1327Channel S)
    (buf : Int → S) (n : Int) :
    ∃ r q, (channel.sound_tx_bridge ops ch buf n).1
      = { ch with cbsnd_rd := r, cbsnd_ready := q } := by
  unfold channel.sound_tx_bridge
  simp only []
  split
  · exact ⟨_, _, rfl⟩
  · exact ⟨ch.cbsnd_rd, ch.cbsnd_ready, rfl⟩

/-- With an empty tone queue and the mutex free, `sound_tx` is its bridge part. -/
theorem sound_tx_empty_tones {S : Type} (ops : SoundOps S) (ch : MPT1327Channel S)
    (buf : Int → S) (n : Int) (hm : ch.mutex = false) (ht : ch.cbtone_ready = 0) :
    channel.sound_tx ops ch buf n = some (channel.sound_tx_bridge ops ch buf n) := by
  obtain ⟨r, q, h⟩ := sound_tx_bridge_frame ops ch buf n
  unfold channel.sound_tx
  simp only []
  generalize channel.sound_tx_bridge ops ch buf n = x at h
  obtain ⟨c, b⟩ := x
  simp only at h
  subst h
  cases ch
  simp only at hm ht
  subst hm ht
  simp [g_mutex_lock, g_mutex_unlock, channel.sound_tx_tones]

/-! ## Theorems: bridge ring, write side -/

theorem sound_rx_frame {S : Type} (ch : MPT1327Channel S) (buf : Int → S) (n : Int) :
    ∃ c w q, channel.sound_rx ch buf n
      = { ch with cbsnd := c, cbsnd_wr := w, cbsnd_ready := q } := by
  unfold channel.sound_rx
  split
  · exact ⟨_, _, _, rfl⟩
  · exact ⟨ch.cbsnd, ch.cbsnd_wr, ch.cbsnd_ready, rfl⟩

theorem sound_rx_mutex {S : Type} (ch : MPT1327Channel S) (buf : Int → S) (n : Int) :
    (channel.sound_rx ch buf n).mutex = ch.mutex ∧
    (channel.sound_rx ch buf n).cbtone_ready = ch.cbtone_ready := by
  obtain ⟨c, w, q, h⟩ := sound_rx_frame ch buf n
  rw [h]
  exact ⟨rfl, rfl⟩

theorem sound_tx_bridge_mutex {S : Type} (ops : SoundOps S) (ch : MPT1327Channel S)
    (buf : Int → S) (n : Int) :
    (channel.sound_tx_bridge ops ch buf n).1.mutex = ch.mutex ∧
    (channel.sound_tx_bridge ops ch buf n).1.cbtone_ready = ch.cbtone_ready := by
  obtain ⟨r, q, h⟩ := sound_tx_bridge_frame ops ch buf n
  rw [h]
  exact ⟨rfl, rfl⟩

/-- A `sound_rx` block that wraps round the end of the ring, drained by `sound_tx`. -/
theorem bridge_wrap_run {S : Type} (ops : SoundOps S) (cbsnd0 : Int → S)
    (cbtone0 : Int → MPT1327Tone) (b1 b2 o1 o2 : Int → S) :
    ((channel.sound_tx ops
        (channel.sound_rx (mpt1327_channel_bridge (mpt1327_channel_init cbsnd0 cbtone0) 1)
          b1 10000) o1 10000).bind
      (fun r => (channel.sound_tx ops (channel.sound_rx r.1 b2 1000) o2 1000).map
        (fun q => (r.2 0, r.2 9999, r.1.cbsnd_ready, q.2 0, q.2 239, q.2 240, q.2 999,
          q.1.cbsnd_ready))))
      = some (b1 0, b1 9999, 0, b2 0, b2 239, b2 0, b2 759, 0) := by
  have hm1 := sound_rx_mutex (mpt1327_channel_bridge (mpt1327_channel_init cbsnd0 cbtone0) 1)
    b1 10000
  rw [sound_tx_empty_tones ops _ o1 10000 (hm1.1.trans rfl) (hm1.2.trans rfl)]
  simp only [Option.bind]
  have hm2 := sound_tx_bridge_mutex ops
    (channel.sound_rx (mpt1327_channel_bridge (mpt1327_channel_init cbsnd0 cbtone0) 1)
      b1 10000) o1 10000
  have hm3 := sound_rx_mutex (channel.sound_tx_bridge ops
    (channel.sound_rx (mpt1327_channel_bridge (mpt1327_channel_init cbsnd0 cbtone0) 1)
      b1 10000) o1 10000).1 b2 1000
  rw [sound_tx_empty_tones ops _ o2 1000 (hm3.1.trans (hm2.1.trans (hm1.1.trans rfl)))
    (hm3.2.trans (hm2.2.trans (hm1.2.trans rfl)))]
  simp only [Option.map]
  simp [channel.sound_tx_bridge, channel.sound_rx, mpt1327_channel_bridge,
    mpt1327_channel_init, memcpy]

/-! ## Theorems: bridge ring invariant -/

theorem sound_rx_fits {S : Type} (ch : MPT1327Channel S) (buf : Int → S) (n : Int)
    (hsize : 0 < ch.cbsnd_size) (hn : 0 ≤ n)
    (hready : 0 ≤ ch.cbsnd_ready ∧ ch.cbsnd_ready ≤ ch.cbsnd_size)
    (hwr : 0 ≤ ch.cbsnd_wr ∧ ch.cbsnd_wr < ch.cbsnd_size)
    (hfit : ch.enable_bridge ≠ 0 → ch.cbsnd_ready + n ≤ ch.cbsnd_size) :
    (channel.sound_rx ch buf n).cbsnd_size = ch.cbsnd_size ∧
    (channel.sound_rx ch buf n).cbsnd_rd = ch.cbsnd_rd ∧
    (0 ≤ (channel.sound_rx ch buf n).cbsnd_ready ∧
      (channel.sound_rx ch buf n).cbsnd_ready ≤ ch.cbsnd_size) ∧
    (0 ≤ (channel.sound_rx ch buf n).cbsnd_wr ∧
      (channel.sound_rx ch buf n).cbsnd_wr < ch.cbsnd_size) := by
  unfold channel.sound_rx
  by_cases he : ch.enable_bridge ≠ 0
  · rw [if_pos he]
    have := hfit he
    refine ⟨rfl, rfl, ⟨?_, ?_⟩, ⟨Int.emod_nonneg _ (by omega), Int.emod_lt_of_pos _ hsize⟩⟩
    · show 0 ≤ ch.cbsnd_ready + n
      omega
    · show ch.cbsnd_ready + n ≤ ch.cbsnd_size
      omega
  · rw [if_neg he]
    exact ⟨rfl, rfl, hready, hwr⟩

theorem sound_tx_fits {S : Type} (ops : SoundOps S) (ch : MPT1327Channel S) (buf : Int → S)
    (n : Int) (hm : ch.mutex = false) (ht : ch.cbtone_ready = 0)
    (hsize : 0 < ch.cbsnd_size) (hn : 0 ≤ n)
    (hready : 0 ≤ ch.cbsnd_ready ∧ ch.cbsnd_ready ≤ ch.cbsnd_size)
    (hrd : 0 ≤ ch.cbsnd_rd ∧ ch.cbsnd_rd < ch.cbsnd_size) :
    ∃ r, channel.sound_tx ops ch buf n = some r ∧
      r.1.mutex = false ∧ r.1.cbtone_ready = 0 ∧ r.1.enable_bridge = ch.enable_bridge ∧
      r.1.cbsnd_size = ch.cbsnd_size ∧ r.1.cbsnd_wr = ch.cbsnd_wr ∧
      (0 ≤ r.1.cbsnd_ready ∧ r.1.cbsnd_ready ≤ ch.cbsnd_ready) ∧
      (0 ≤ r.1.cbsnd_rd ∧ r.1.cbsnd_rd < ch.cbsnd_size) := by
  refine ⟨_, sound_tx_empty_tones ops ch buf n hm ht, ?_⟩
  obtain ⟨_, _, h⟩ := sound_tx_bridge_drain ops ch buf n hready hrd hn
  rw [h]
  refine ⟨hm, ht, rfl, rfl, rfl, ⟨?_, ?_⟩,
    ⟨Int.emod_nonneg _ (by omega), Int.emod_lt_of_pos _ hsize⟩⟩
  · show 0 ≤ ch.cbsnd_ready - _
    split
    · omega
    · split <;> omega
  · show ch.cbsnd_ready - _ ≤ ch.cbsnd_ready
    split
    · omega
    · split <;> omega

/-- The ring invariant is kept by every sequence of bridge-side calls that fits. -/
theorem bridge_calls_invariant {S : Type} (ops : SoundOps S) (calls : List (BridgeCall S))
    (ch : MPT1327Channel S) (hm : ch.mutex = false) (ht : ch.cbtone_ready = 0)
    (hsize : 0 < ch.cbsnd_size)
    (hready : 0 ≤ ch.cbsnd_ready ∧ ch.cbsnd_ready ≤ ch.cbsnd_size)
    (hrd : 0 ≤ ch.cbsnd_rd ∧ ch.cbsnd_rd < ch.cbsnd_size)
    (hwr : 0 ≤ ch.cbsnd_wr ∧ ch.cbsnd_wr < ch.cbsnd_size)
    (hfit : bridge_calls_fit ops calls ch) :
    ∃ r, bridge_calls ops calls ch = some r ∧
      r.cbsnd_size = ch.cbsnd_size ∧
      (0 ≤ r.cbsnd_ready ∧ r.cbsnd_ready ≤ r.cbsnd_size) ∧
      (0 ≤ r.cbsnd_rd ∧ r.cbsnd_rd < r.cbsnd_size) ∧
      (0 ≤ r.cbsnd_wr ∧ r.cbsnd_wr < r.cbsnd_size) := by
  induction calls generalizing ch with
  | nil => exact ⟨ch, rfl, rfl, hready, hrd, hwr⟩
  | cons c rest ih =>
    obtain ⟨hc, hrest⟩ := hfit
    cases c with
    | bridge b =>
      have e : bridge_call ops ch (BridgeCall.bridge b) = some (mpt1327_channel_bridge ch b) :=
        rfl
      rw [e] at hrest
      obtain ⟨r, h1, h2, h3⟩ := ih (mpt1327_channel_bridge ch b) hm ht hsize hready hrd hwr hrest
      exact ⟨r, by simp only [bridge_calls, e, Option.bind]; exact h1, h2, h3⟩
    | rx buf n =>
      have e : bridge_call ops ch (BridgeCall.rx buf n) = some (channel.sound_rx ch buf n) :=
        rfl
      rw [e] at hrest
      obtain ⟨s1, s2, s3, s4⟩ := sound_rx_fits ch buf n hsize hc.1 hready hwr hc.2
      obtain ⟨m1, m2⟩ := sound_rx_mutex ch buf n
      obtain ⟨r, h1, h2, h3⟩ := ih (channel.sound_rx ch buf n) (m1.trans hm) (m2.trans ht)
        (by rw [s1]; exact hsize) (by rw [s1]; exact s3) (by rw [s1, s2]; exact hrd)
        (by rw [s1]; exact s4) hrest
      exact ⟨r, by simp only [bridge_calls, e, Option.bind]; exact h1, h2.trans s1, h3⟩
    | tx buf n =>
      obtain ⟨q, hq, q1, q2, _, q4, q5, q6, q7⟩ :=
        sound_tx_fits ops ch buf n hm ht hsize hc hready hrd
      have e : bridge_call ops ch (BridgeCall.tx buf n) = some q.1 := by
        simp only [bridge_call, hq, Option.map]
      rw [e] at hrest
      obtain ⟨r, h1, h2, h3⟩ := ih q.1 q1 q2 (by rw [q4]; exact hsize)
        (by rw [q4]; exact ⟨q6.1, by omega⟩) (by rw [q4]; exact q7)
        (by rw [q4, q5]; exact hwr) hrest
      exact ⟨r, by simp only [bridge_calls, e, Option.bind]; exact h1, h2.trans q4, h3⟩

/-- Two `sound_rx` calls with no `sound_tx` in between: the ready count passes the ring
size. -/
theorem bridge_overrun_run {S : Type} (ops : SoundOps S) (cbsnd0 : Int → S)
    (cbtone0 : Int → MPT1327Tone) (b1 b2 : Int → S) :
    (bridge_calls ops [BridgeCall.bridge 1, BridgeCall.rx b1 10240, BridgeCall.rx b2 1]
        (mpt1327_channel_init cbsnd0 cbtone0)).map (fun r => (r.cbsnd_ready, r.cbsnd_size))
      = some (10241, 10240) := by
  simp [bridge_calls, bridge_call, channel.sound_rx, mpt1327_channel_bridge,
    mpt1327_channel_init]

/-! ## Theorems: silence -/

theorem sound_tx_silent {S : Type} (ops : SoundOps S) (ch : MPT1327Channel S) (buf : Int → S)
    (n : Int) (hm : ch.mutex = false) (ht : ch.cbtone_ready = 0) (hb : ch.cbsnd_ready = 0)
    (hn : 0 ≤ n) :
    ∃ r, channel.sound_tx ops ch buf n = some r ∧
      r.1.mutex = false ∧ r.1.cbtone_ready = 0 ∧ r.1.cbsnd_ready = 0 ∧
      ∀ i, 0 ≤ i → i < n → r.2 i = ops.zero := by
  refine ⟨_, sound_tx_empty_tones ops ch buf n hm ht, ?_⟩
  obtain ⟨m1, m2⟩ := sound_tx_bridge_mutex ops ch buf n
  refine ⟨m1.trans hm, m2.trans ht, ?_, ?_⟩
  · unfold channel.sound_tx_bridge
    simp only []
    split
    · rename_i h
      show ch.cbsnd_ready - _ = 0
      rw [hb] at h ⊢
      split <;> omega
    · exact hb
  · intro i h0 hi
    unfold channel.sound_tx_bridge
    simp only []
    split
    · rename_i h
      rw [hb] at h
      have hn0 : n = 0 := by
        rcases h with h | h
        · omega
        · exact absurd rfl h.1
      omega
    · simp only []
      rw [if_pos ⟨h0, hi⟩]

theorem tx_step_silent {S : Type} (txcv : Nat → Nat) (h0 : ∀ k, txcv k = 0)
    (st : MSKModemContext × MPT1327Channel S) (hc : st.1.current = 0) :
    (mskmodem.tx_step (channel.modem_tx txcv) st).1.current = 0 ∧
    ∃ k, (mskmodem.tx_step (channel.modem_tx txcv) st).2 = { st.2 with tx_calls := k } := by
  by_cases hp : st.1.phase + 1 ≤ 40
  · rw [tx_step_hold _ _ hp]
    exact ⟨hc, st.2.tx_calls, rfl⟩
  · by_cases hb : st.1.bitmask = 0
    · obtain ⟨_, _, h3, _, h5⟩ := tx_step_fetch (channel.modem_tx txcv) st (by omega) hb
      rw [h3, h5, modem_tx_fst, modem_tx_snd, if_pos (h0 _)]
      exact ⟨rfl, _, rfl⟩
    · obtain ⟨_, _, h3, _, h5⟩ := tx_step_next_bit (channel.modem_tx txcv) st (by omega) hb
      rw [h3, h5]
      exact ⟨hc, st.2.tx_calls, rfl⟩

theorem tx_loop_silent {S : Type} (ops : SoundOps S) (txcv : Nat → Nat) (h0 : ∀ k, txcv k = 0)
    (fuel : Nat) (i : Int) (st : MSKModemContext × MPT1327Channel S) (buf : Int → S)
    (hc : st.1.current = 0) :
    (mskmodem.tx_loop ops (channel.modem_tx txcv) fuel i (st, buf)).1.1.current = 0 ∧
    (∃ k, (mskmodem.tx_loop ops (channel.modem_tx txcv) fuel i (st, buf)).1.2
      = { st.2 with tx_calls := k }) ∧
    (mskmodem.tx_loop ops (channel.modem_tx txcv) fuel i (st, buf)).2 = buf := by
  induction fuel generalizing i st buf with
  | zero => exact ⟨hc, ⟨st.2.tx_calls, rfl⟩, rfl⟩
  | succ f ih =>
    obtain ⟨s1, k1, s2⟩ := tx_step_silent txcv h0 st hc
    have hout : mskmodem.tx_out ops (mskmodem.tx_step (channel.modem_tx txcv) st).1 (buf i)
        = buf i := by
      unfold mskmodem.tx_out
      rw [if_neg (by rw [s1]; simp)]
    have hstep : mskmodem.tx_loop ops (channel.modem_tx txcv) (f + 1) i (st, buf)
        = mskmodem.tx_loop ops (channel.modem_tx txcv) f (i + 1)
            (mskmodem.tx_step (channel.modem_tx txcv) st, buf) := by
      show mskmodem.tx_loop ops (channel.modem_tx txcv) f (i + 1)
        (mskmodem.tx_step (channel.modem_tx txcv) st,
          Function.update buf i (mskmodem.tx_out ops
            (mskmodem.tx_step (channel.modem_tx txcv) st).1 (buf i))) = _
      rw [hout, Function.update_eq_self]
    rw [hstep]
    obtain ⟨a, ⟨k2, b⟩, c⟩ := ih (i + 1) (mskmodem.tx_step (channel.modem_tx txcv) st) buf s1
    refine ⟨a, ⟨k2, ?_⟩, c⟩
    rw [b, s2]

theorem modem_tx_silent {S : Type} (ops : SoundOps S) (txcv : Nat → Nat) (h0 : ∀ k, txcv k = 0)
    (st : MSKModemContext × MPT1327Channel S) (buf : Int → S) (n : Int)
    (hc : st.1.current = 0) (hm : st.2.mutex = false) (ht : st.2.cbtone_ready = 0)
    (hb : st.2.cbsnd_ready = 0) (hn : 0 ≤ n) :
    ∃ r, mskmodem.modem_tx ops (channel.modem_tx txcv) (channel.sound_tx ops) st buf n = some r ∧
      r.1.1.current = 0 ∧ r.1.2.mutex = false ∧ r.1.2.cbtone_ready = 0 ∧
      r.1.2.cbsnd_ready = 0 ∧ ∀ i, 0 ≤ i → i < n → r.2 i = ops.zero := by
  obtain ⟨q, hq, q1, q2, q3, q4⟩ := sound_tx_silent ops st.2 buf n hm ht hb hn
  obtain ⟨a, ⟨k, b⟩, c⟩ := tx_loop_silent ops txcv h0 n.toNat 0 (st.1, q.1) q.2 hc
  refine ⟨_, by unfold mskmodem.modem_tx; simp only [hq], a, ?_, ?_, ?_, ?_⟩
  · rw [b]; exact q1
  · rw [b]; exact q2
  · rw [b]; exact q3
  · intro i hi0 hi
    rw [c]
    exact q4 i hi0 hi

theorem tx_blocks_silent {S : Type} (ops : SoundOps S) (txcv : Nat → Nat)
    (h0 : ∀ k, txcv k = 0) (blocks : List ((Int → S) × Int)) (hpos : ∀ b ∈ blocks, 0 ≤ b.2)
    (st : MSKModemContext × MPT1327Channel S)
    (hc : st.1.current = 0) (hm : st.2.mutex = false) (ht : st.2.cbtone_ready = 0)
    (hb : st.2.cbsnd_ready = 0) :
    ∃ r, tx_blocks ops txcv blocks st = some r ∧
      r.1.current = 0 ∧ r.2.mutex = false ∧ r.2.cbtone_ready = 0 ∧ r.2.cbsnd_ready = 0 := by
  induction blocks generalizing st with
  | nil => exact ⟨st, rfl, hc, hm, ht, hb⟩
  | cons b rest ih =>
    obtain ⟨q, hq, q1, q2, q3, q4, _⟩ := modem_tx_silent ops txcv h0 st b.1 b.2 hc hm ht hb
      (hpos b (List.mem_cons_self _ _))
    obtain ⟨r, hr, rest1⟩ := ih (fun x hx => hpos x (List.mem_cons_of_mem _ hx)) q.1 q1 q2 q3 q4
    refine ⟨r, ?_, rest1⟩
    unfold tx_blocks
    simp only [hq]
    exact hr

/-! ## Theorems: tone completions -/

theorem tone_loop_fcomp_log {S : Type} (ops : SoundOps S) (fuel : Nat) (i : Int)
    (x : MPT1327Channel S × (Int → S)) :
    (channel.tone_loop ops fuel i x).1.fcomp_log = x.1.fcomp_log := by
  induction fuel generalizing i x with
  | zero => rfl
  | succ k ih =>
    obtain ⟨ch, buf⟩ := x
    unfold channel.tone_loop
    simp only []
    split
    · rw [ih]
      split <;> rfl
    · rfl

/-- What `sound_tx` does with the completion of the head tone: it is called (and cleared)
before the mixing loop, in a state where every tone still has the duration it had when
the call started, and the loop calls no completion. -/
theorem sound_tx_fcomp_order {S : Type} (ops : SoundOps S) (ch : MPT1327Channel S)
    (buf : Int → S) (n : Int) (hm : ch.mutex = false) :
    ∃ r, channel.sound_tx ops ch buf n = some r ∧
      r.1.fcomp_log
        = ch.fcomp_log ++
          (if ch.cbtone_ready ≠ 0 then
            (match (ch.cbtone ch.cbtone_rd).fcomp with
              | some f => [(f, (ch.cbtone ch.cbtone_rd).userdata)]
              | none => [])
           else []) ∧
      (ch.cbtone_ready ≠ 0 →
        ∃ c b, r = (g_mutex_unlock (channel.tone_loop ops n.toNat 0 (c, b)).1,
                    (channel.tone_loop ops n.toNat 0 (c, b)).2) ∧
          c.fcomp_log = r.1.fcomp_log ∧
          c.cbtone_rd = ch.cbtone_rd ∧ c.cbtone_ready = ch.cbtone_ready ∧
          (c.cbtone ch.cbtone_rd).fcomp = none ∧
          ∀ s, (c.cbtone s).duration = (ch.cbtone s).duration ∧
            (c.cbtone s).freq = (ch.cbtone s).freq) := by
  obtain ⟨r0, q0, h⟩ := sound_tx_bridge_frame ops ch buf n
  unfold channel.sound_tx
  simp only []
  generalize channel.sound_tx_bridge ops ch buf n = x at h
  obtain ⟨c0, b0⟩ := x
  simp only at h
  subst h
  simp only [g_mutex_lock, hm, Bool.false_eq_true, if_false]
  refine ⟨_, rfl, ?_, ?_⟩
  · unfold channel.sound_tx_tones
    simp only []
    by_cases hq : ch.cbtone_ready ≠ 0
    · rw [if_pos hq, if_pos hq]
      simp only [g_mutex_unlock]
      rw [tone_loop_fcomp_log]
      cases hf : (ch.cbtone ch.cbtone_rd).fcomp <;> simp [hf]
    · rw [if_neg hq, if_neg hq]
      simp [g_mutex_unlock]
  · intro hq
    unfold channel.sound_tx_tones
    simp only []
    rw [if_pos hq]
    refine ⟨_, _, rfl, ?_, ?_, ?_, ?_, ?_⟩
    · simp only [g_mutex_unlock]
      rw [tone_loop_fcomp_log]
    · cases hf : (ch.cbtone ch.cbtone_rd).fcomp <;> rfl
    · cases hf : (ch.cbtone ch.cbtone_rd).fcomp <;> rfl
    · cases hf : (ch.cbtone ch.cbtone_rd).fcomp
      · simp [hf]
      · simp [Function.update]
    · intro s
      cases hf : (ch.cbtone ch.cbtone_rd).fcomp
      · exact ⟨rfl, rfl⟩
      · by_cases hs : s = ch.cbtone_rd
        · subst hs
          simp [Function.update]
        · simp [Function.update, hs]

set_option maxRecDepth 100000 in
set_option maxHeartbeats 1000000 in
/-- One tone of 100 samples with a completion, then a `sound_tx` call of 32 samples. -/
theorem early_completion_run {S : Type} (ops : SoundOps S) (cbsnd0 : Int → S)
    (cbtone0 : Int → MPT1327Tone) (buf : Int → S) :
    ((mpt1327_channel_queue_tone
        (mpt1327_channel_init cbsnd0 cbtone0) 800 100 (some 1) 11).bind
      (fun ch => (channel.sound_tx ops ch buf 32).map
        (fun r => (r.1.fcomp_log, (r.1.cbtone 0).duration, r.1.cbtone_rd, r.1.cbtone_ready))))
      = some ([(1, 11)], 68, 0, 1) := by
  simp [mpt1327_channel_queue_tone, mpt1327_channel_init, g_mutex_lock, g_mutex_unlock,
    channel.sound_tx, channel.sound_tx_bridge, channel.sound_tx_tones, channel.tone_loop,
    Function.update]

set_option maxRecDepth 100000 in
set_option maxHeartbeats 1000000 in
/-- One tone of 5 samples queued on a ring whose unused slots hold a duration of 5, then a
`sound_tx` call of 10 samples. -/
theorem stale_slot_run {S : Type} (ops : SoundOps S) (cbsnd0 : Int → S) (buf : Int → S) :
    ((mpt1327_channel_queue_tone
        (mpt1327_channel_init cbsnd0 (fun _ => ⟨0, 5, none, 0⟩)) 800 5 none 0).bind
      (fun ch => (channel.sound_tx ops ch buf 10).map
        (fun r => (r.1.cbtone_ready, r.1.cbtone_rd, r.1.cbtone_size))))
      = some (-1, 2, 512) := by
  simp [mpt1327_channel_queue_tone, mpt1327_channel_init, g_mutex_lock, g_mutex_unlock,
    channel.sound_tx, channel.sound_tx_bridge, channel.sound_tx_tones, channel.tone_loop,
    Function.update]

/-! ## Theorems: demodulator -/

theorem rx_zero_crossing_filterpos {S : Type} (ops : DemodOps S) (x : S)
    (u : MSKDemodContext S) :
    (mskmodem.rx_zero_crossing ops x u).filterpos = u.filterpos := by
  unfold mskmodem.rx_zero_crossing
  dsimp only
  split <;> rfl

theorem rx_discriminator_filterpos {S : Type} (u : MSKDemodContext S) :
    (mskmodem.rx_discriminator u).1.filterpos = u.filterpos := by
  unfold mskmodem.rx_discriminator
  dsimp only
  by_cases h : u.mst > 0
  · simp only [h, if_true]
    split <;> rfl
  · simp only [h, if_false]
    split <;> rfl

theorem rx_slicer_filterpos {S : Type} (ops : DemodOps S) (u : MSKDemodContext S) (b : Int) :
    (mskmodem.rx_slicer ops u b).1.filterpos = u.filterpos := by
  unfold mskmodem.rx_slicer
  dsimp only
  split_ifs <;> rfl

theorem rx_pll_filterpos {U S : Type} (rx_f : Nat → U → U) (b snrz : Int)
    (st : (MSKDemodContext S × U) × (Int × Int)) :
    (mskmodem.rx_pll rx_f b snrz st).1.1.filterpos = st.1.1.filterpos := by
  unfold mskmodem.rx_pll
  dsimp only
  split_ifs <;> rfl

theorem rx_step_filterpos {U S : Type} (ops : DemodOps S) (rx_f : Nat → U → U) (x : S)
    (st : (MSKDemodContext S × U) × (Int × Int)) :
    (mskmodem.rx_step ops rx_f x st).1.1.filterpos
      = if st.1.1.filterpos + 1 ≥ 50 then 0 else st.1.1.filterpos + 1 := by
  have h : (mskmodem.rx_pll rx_f
      (mskmodem.rx_slicer ops (mskmodem.rx_discriminator
        (mskmodem.rx_zero_crossing ops x st.1.1)).1
        (mskmodem.rx_discriminator (mskmodem.rx_zero_crossing ops x st.1.1)).2).2.1
      (mskmodem.rx_slicer ops (mskmodem.rx_discriminator
        (mskmodem.rx_zero_crossing ops x st.1.1)).1
        (mskmodem.rx_discriminator (mskmodem.rx_zero_crossing ops x st.1.1)).2).2.2
      (((mskmodem.rx_slicer ops (mskmodem.rx_discriminator
        (mskmodem.rx_zero_crossing ops x st.1.1)).1
        (mskmodem.rx_discriminator (mskmodem.rx_zero_crossing ops x st.1.1)).2).1,
        st.1.2), st.2)).1.1.filterpos = st.1.1.filterpos := by
    rw [rx_pll_filterpos, rx_slicer_filterpos, rx_discriminator_filterpos,
      rx_zero_crossing_filterpos]
  unfold mskmodem.rx_step
  dsimp only
  rw [h]
  split <;> rfl

theorem rx_step_filterpos_mod {U S : Type} (ops : DemodOps S) (rx_f : Nat → U → U) (x : S)
    (st : (MSKDemodContext S × U) × (Int × Int))
    (h : 0 ≤ st.1.1.filterpos ∧ st.1.1.filterpos < 50) :
    (mskmodem.rx_step ops rx_f x st).1.1.filterpos = (st.1.1.filterpos + 1) % 50 := by
  rw [rx_step_filterpos]
  split <;> omega

theorem rx_loop_filterpos {U S : Type} (ops : DemodOps S) (rx_f : Nat → U → U)
    (s : Int → S) (fuel : Nat) :
    ∀ (i : Int) (st : (MSKDemodContext S × U) × (Int × Int)),
      0 ≤ st.1.1.filterpos ∧ st.1.1.filterpos < 50 →
      (mskmodem.rx_loop ops rx_f s fuel i st).1.1.filterpos
        = (st.1.1.filterpos + fuel) % 50 := by
  induction fuel with
  | zero =>
    intro i st h
    show st.1.1.filterpos = (st.1.1.filterpos + ((0 : Nat) : Int)) % 50
    omega
  | succ k ih =>
    intro i st h
    show (mskmodem.rx_loop ops rx_f s k (i + 1) (mskmodem.rx_step ops rx_f (s i) st)).1.1.filterpos
      = (st.1.1.filterpos + ((k + 1 : Nat) : Int)) % 50
    have h1 := rx_step_filterpos_mod ops rx_f (s i) st h
    rw [ih (i + 1) _ (by rw [h1]; omega), h1]
    push_cast
    omega

theorem modem_rx_filterpos {U S : Type} (ops : DemodOps S) (rx_f : Nat → U → U)
    (rx_sound_f : U → (Int → S) → Int → U) (st : MSKDemodContext S × U) (s : Int → S)
    (n : Int) (hp : 0 ≤ st.1.filterpos ∧ st.1.filterpos < 50) (hn : 1 ≤ n) :
    (mskmodem.modem_rx ops rx_f rx_sound_f st s n).1.filterpos
      = (st.1.filterpos + (n - 1)) % 50 := by
  unfold mskmodem.modem_rx
  rw [rx_loop_filterpos ops rx_f s _ 0 _ hp]
  show (st.1.filterpos + (((n - 1).toNat : Nat) : Int)) % 50 = _
  rw [Int.toNat_of_nonneg (by omega)]

theorem modem_rx_one_sample {U S : Type} (ops : DemodOps S) (rx_f : Nat → U → U)
    (rx_sound_f : U → (Int → S) → Int → U) (st : MSKDemodContext S × U) (s : Int → S) :
    mskmodem.modem_rx ops rx_f rx_sound_f st s 1 = (st.1, rx_sound_f st.2 s 1) := rfl

/-! ## Theorems: claims on the tone queue, the bridge and the demodulator -/

/-- Counterexample to claim C11 as stated: a tone of 100 samples with completion 1 is queued
on a fresh channel and `sound_tx` is called once with 32 samples.  The completion has been
called although 68 of the 100 samples of the tone are still to be mixed (the tone is still
the head of the queue). -/
theorem completion_called_before_tone_end :
    ((mpt1327_channel_queue_tone
        (mpt1327_channel_init (fun _ => ()) (fun _ => ⟨0, 0, none, 0⟩)) 800 100 (some 1) 11).bind
      (fun ch =>
        (channel.sound_tx ⟨(), fun _ _ _ => (), fun _ _ _ => ()⟩ ch (fun _ => ()) 32).map
          (fun r => (r.1.fcomp_log, (r.1.cbtone 0).duration, r.1.cbtone_rd, r.1.cbtone_ready))))
      = some ([(1, 11)], 68, 0, 1) :=
  early_completion_run _ _ _ _

/-- Claim C11, amended: a `sound_tx` call (mutex free) calls no completion but that of the
tone at the head of the queue when the call starts, and this one only if the queue is not
empty and the completion is not `NULL`.  The call happens before the mixing loop: the loop
starts from a state `c` in which the completion is already logged and cleared, the head and
the count of the queue are as at the start of the call and every tone has the duration and
frequency it had at the start of the call, so none of the samples this call mixes precedes
the completion. -/
theorem completion_called_at_head_before_mixing {S : Type} (ops : SoundOps S)
    (ch : MPT1327Channel S) (buf : Int → S) (n : Int) (hm : ch.mutex = false) :
    ∃ r, channel.sound_tx ops ch buf n = some r ∧
      r.1.fcomp_log
        = ch.fcomp_log ++
          (if ch.cbtone_ready ≠ 0 then
            (match (ch.cbtone ch.cbtone_rd).fcomp with
              | some f => [(f, (ch.cbtone ch.cbtone_rd).userdata)]
              | none => [])
           else []) ∧
      (ch.cbtone_ready ≠ 0 →
        ∃ c b, r = (g_mutex_unlock (channel.tone_loop ops n.toNat 0 (c, b)).1,
                    (channel.tone_loop ops n.toNat 0 (c, b)).2) ∧
          c.fcomp_log = r.1.fcomp_log ∧
          c.cbtone_rd = ch.cbtone_rd ∧ c.cbtone_ready = ch.cbtone_ready ∧
          (c.cbtone ch.cbtone_rd).fcomp = none ∧
          ∀ s, (c.cbtone s).duration = (ch.cbtone s).duration ∧
            (c.cbtone s).freq = (ch.cbtone s).freq) :=
  sound_tx_fcomp_order ops ch buf n hm

/-- Witness for claim C11 (amended): a channel whose queue holds one tone of 100 samples with
completion 1 and userdata 11, and a `sound_tx` call of 32 samples. -/
theorem completion_called_at_head_before_mixing_witness :
    ({ mpt1327_channel_init (fun _ => ()) (fun _ => ⟨800, 100, some 1, 11⟩) with
        cbtone_ready := 1, cbtone_wr := 1 } : MPT1327Channel Unit).mutex = false ∧
    ∃ r, channel.sound_tx ⟨(), fun _ _ _ => (), fun _ _ _ => ()⟩
        { mpt1327_channel_init (fun _ => ()) (fun _ => ⟨800, 100, some 1, 11⟩) with
          cbtone_ready := 1, cbtone_wr := 1 } (fun _ => ()) 32 = some r ∧
      r.1.fcomp_log = [(1, 11)] :=
  ⟨rfl,
    (completion_called_at_head_before_mixing ⟨(), fun _ _ _ => (), fun _ _ _ => ()⟩
      { mpt1327_channel_init (fun _ => ()) (fun _ => ⟨800, 100, some 1, 11⟩) with
        cbtone_ready := 1, cbtone_wr := 1 } (fun _ => ()) 32 rfl).imp
      (fun _ h => ⟨h.1, h.2.1⟩)⟩

/-- Claim C12: on an empty tone ring (`cbtone_ready = 0`, read and write index equal) as many
`mpt1327_channel_queue_tone` calls as the ring has slots store all the tones, in call order
from the read index on, with `cbtone_ready` equal to the capacity; one more call then
returns with the ring contents, `cbtone_rd`, `cbtone_wr` and `cbtone_ready` unchanged. -/
theorem queue_tone_fills_ring_then_drops {S : Type} (ch : MPT1327Channel S)
    (tones : List MPT1327Tone) (hm : ch.mutex = false) (hempty : ch.cbtone_ready = 0)
    (hwr : 0 ≤ ch.cbtone_wr ∧ ch.cbtone_wr < ch.cbtone_size)
    (hrd : ch.cbtone_rd = ch.cbtone_wr)
    (hlen : (tones.length : Int) = ch.cbtone_size) :
    ∃ r, queue_tones tones ch = some r ∧
      r.cbtone_size = ch.cbtone_size ∧ r.cbtone_ready = ch.cbtone_size ∧
      r.cbtone_rd = ch.cbtone_rd ∧
      (∀ i (hi : i < tones.length),
        r.cbtone ((r.cbtone_rd + i) % r.cbtone_size) = tones.get ⟨i, hi⟩) ∧
      ∀ (freq duration : Int) (fcomp : Option Nat) (userdata : Nat),
        ∃ r2, mpt1327_channel_queue_tone r freq duration fcomp userdata = some r2 ∧
          r2.cbtone = r.cbtone ∧ r2.cbtone_rd = r.cbtone_rd ∧ r2.cbtone_wr = r.cbtone_wr ∧
          r2.cbtone_ready = r.cbtone_ready := by
  obtain ⟨r, h, r1, r2, r3, r4, _, r6, _⟩ :=
    queue_tones_stores tones ch hm hwr (by omega) (by omega)
  refine ⟨r, h, r2, by omega, r3, ?_, ?_⟩
  · intro i hi
    rw [r3, r2, hrd]
    exact r6 i hi
  · intro freq duration fcomp userdata
    exact ⟨_, queue_tone_full r freq duration fcomp userdata r1 (by omega), rfl, rfl, rfl, rfl⟩

/-- Witness for claim C12: 512 tones on the channel as `mpt1327_channel_init` leaves it. -/
theorem queue_tone_fills_ring_then_drops_witness :
    (mpt1327_channel_init (fun _ => ()) (fun _ => ⟨0, 0, none, 0⟩)).cbtone_size = 512 ∧
    ∃ r, queue_tones (List.replicate 512 ⟨800, 3200, some 7, 9⟩)
        (mpt1327_channel_init (fun _ => ()) (fun _ => ⟨0, 0, none, 0⟩)) = some r ∧
      r.cbtone_ready = 512 :=
  ⟨rfl,
    (queue_tone_fills_ring_then_drops
      (mpt1327_channel_init (fun _ => ()) (fun _ => ⟨0, 0, none, 0⟩))
      (List.replicate 512 ⟨800, 3200, some 7, 9⟩) rfl rfl ⟨by decide, by decide⟩ rfl
      (by simp only [List.length_replicate]; rfl)).imp
      (fun _ h => ⟨h.1, h.2.2.1⟩)⟩

theorem spec_morse_char_unknown (s : Char) (h : ∀ p ∈ morsetable, p.head? ≠ some s) :
    spec_morse_char s
      = ⟨0, 6400, none, 0⟩ :: (if s = ' ' then [⟨0, 12800, none, 0⟩] else []) := by
  have hf : morsetable.find? (fun p => p.head? = some s) = none := by
    rw [List.find?_eq_none]
    intro p hp
    simpa using h p hp
  unfold spec_morse_char spec_morse_symbols
  rw [hf]
  rfl

set_option maxRecDepth 100000 in
theorem morsetable_characters :
    morsetable.map List.head?
      = "ABCDEFGHIJKLMNOPQRSTUVWXYZ0123456789".toList.map some := by
  decide

set_option maxRecDepth 100000 in
theorem spec_morse_sos_duration :
    ((spec_morse ['S', 'O', 'S'] none 0).map (fun t => t.duration)).sum = 96000 := by
  decide

/-- Claim C13: when the tones the specification lists for the string and the completion
(`spec_morse`) fit in the free slots of the ring, `mpt1327_channel_queue_morse` returns
and has appended exactly these tones, in order, from the write index on; nothing else in
the ring and not the read index has changed.  The table holds the characters A-Z and 0-9; a
character that is not in the table yields no 800 Hz tone, only its gap of 6400 samples (and
the 12800 samples of a space).  For "SOS" without completion the tones are three dots, gap,
three dashes, gap, three dots, gap, 96000 samples in total. -/
theorem queue_morse_appends_spec_tones {S : Type} (ch : MPT1327Channel S) (str : List Char)
    (fcomp : Option Nat) (userdata : Nat)
    (hm : ch.mutex = false) (hwr : 0 ≤ ch.cbtone_wr ∧ ch.cbtone_wr < ch.cbtone_size)
    (hready : 0 ≤ ch.cbtone_ready)
    (hfree : ch.cbtone_ready + (spec_morse str fcomp userdata).length ≤ ch.cbtone_size) :
    (∃ r, mpt1327_channel_queue_morse ch str fcomp userdata = some r ∧
      r.cbtone_rd = ch.cbtone_rd ∧
      r.cbtone_ready = ch.cbtone_ready + (spec_morse str fcomp userdata).length ∧
      r.cbtone_wr
        = (ch.cbtone_wr + (spec_morse str fcomp userdata).length) % ch.cbtone_size ∧
      (∀ i (hi : i < (spec_morse str fcomp userdata).length),
        r.cbtone ((ch.cbtone_wr + i) % ch.cbtone_size)
          = (spec_morse str fcomp userdata).get ⟨i, hi⟩) ∧
      (∀ s, (∀ i : Nat, i < (spec_morse str fcomp userdata).length →
          s ≠ (ch.cbtone_wr + i) % ch.cbtone_size) → r.cbtone s = ch.cbtone s)) ∧
    morsetable.map List.head? = "ABCDEFGHIJKLMNOPQRSTUVWXYZ0123456789".toList.map some ∧
    (∀ s : Char, (∀ p ∈ morsetable, p.head? ≠ some s) →
      spec_morse_char s
        = ⟨0, 6400, none, 0⟩ :: (if s = ' ' then [⟨0, 12800, none, 0⟩] else [])) ∧
    spec_morse ['S', 'O', 'S'] none 0
      = [⟨800, 3200, none, 0⟩, ⟨0, 3200, none, 0⟩, ⟨800, 3200, none, 0⟩, ⟨0, 3200, none, 0⟩,
         ⟨800, 3200, none, 0⟩, ⟨0, 3200, none, 0⟩, ⟨0, 6400, none, 0⟩,
         ⟨800, 9600, none, 0⟩, ⟨0, 3200, none, 0⟩, ⟨800, 9600, none, 0⟩, ⟨0, 3200, none, 0⟩,
         ⟨800, 9600, none, 0⟩, ⟨0, 3200, none, 0⟩, ⟨0, 6400, none, 0⟩,
         ⟨800, 3200, none, 0⟩, ⟨0, 3200, none, 0⟩, ⟨800, 3200, none, 0⟩, ⟨0, 3200, none, 0⟩,
         ⟨800, 3200, none, 0⟩, ⟨0, 3200, none, 0⟩, ⟨0, 6400, none, 0⟩] ∧
    ((spec_morse ['S', 'O', 'S'] none 0).map (fun t => t.duration)).sum = 96000 :=
  ⟨queue_morse_stores ch str fcomp userdata hm hwr hready hfree, morsetable_characters,
    spec_morse_char_unknown, spec_morse_sos, spec_morse_sos_duration⟩

set_option maxRecDepth 100000 in
theorem spec_morse_sos_fits :
    (mpt1327_channel_init (fun _ => ()) (fun _ => ⟨0, 0, none, 0⟩)).cbtone_ready
        + (spec_morse ['S', 'O', 'S'] (some 1) 11).length
      ≤ (mpt1327_channel_init (fun _ => ()) (fun _ => ⟨0, 0, none, 0⟩)).cbtone_size := by
  decide

/-- Witness for claim C13: "SOS" with completion 1 on the channel as `mpt1327_channel_init`
leaves it; 22 tones are queued. -/
theorem queue_morse_appends_spec_tones_witness :
    ∃ r, mpt1327_channel_queue_morse
        (mpt1327_channel_init (fun _ => ()) (fun _ => ⟨0, 0, none, 0⟩))
        ['S', 'O', 'S'] (some 1) 11 = some r ∧
      r.cbtone_ready
        = (mpt1327_channel_init (fun _ => ()) (fun _ => ⟨0, 0, none, 0⟩)).cbtone_ready
          + (spec_morse ['S', 'O', 'S'] (some 1) 11).length :=
  (queue_morse_appends_spec_tones
    (mpt1327_channel_init (fun _ => ()) (fun _ => ⟨0, 0, none, 0⟩))
    ['S', 'O', 'S'] (some 1) 11 rfl ⟨by decide, by decide⟩ (by decide)
    spec_morse_sos_fits).1.imp (fun _ h => ⟨h.1, h.2.2.1⟩)

/-- Claim C14: a `sound_tx` call on `n` samples with `0 ≤ cbsnd_ready ≤ cbsnd_size`, a valid
read index, the mutex free and the tone queue empty returns; with `p = n` if
`cbsnd_ready ≥ n`, `p = cbsnd_ready` if `cbsnd_ready < n` and the bridge is disabled, and
`p = 0` otherwise, the output holds `cbsnd[(cbsnd_rd + i) % cbsnd_size]` for `0 ≤ i < p`
and 0 for `p ≤ i < n`, and afterwards `cbsnd_rd` is `(cbsnd_rd + p) % cbsnd_size` and
`cbsnd_ready` is `cbsnd_ready - p`. -/
theorem sound_tx_drain_policy {S : Type} (ops : SoundOps S) (ch : MPT1327Channel S)
    (buf : Int → S) (n : Int) (hm : ch.mutex = false) (ht : ch.cbtone_ready = 0)
    (hready : 0 ≤ ch.cbsnd_ready ∧ ch.cbsnd_ready ≤ ch.cbsnd_size)
    (hrd : 0 ≤ ch.cbsnd_rd ∧ ch.cbsnd_rd < ch.cbsnd_size) (hn : 0 ≤ n) :
    ∃ r, channel.sound_tx ops ch buf n = some r ∧
      (∀ i, 0 ≤ i →
        i < (if ch.cbsnd_ready ≥ n then n else if ch.enable_bridge = 0 then ch.cbsnd_ready else 0) →
        r.2 i = ch.cbsnd ((ch.cbsnd_rd + i) % ch.cbsnd_size)) ∧
      (∀ i,
        (if ch.cbsnd_ready ≥ n then n else if ch.enable_bridge = 0 then ch.cbsnd_ready else 0) ≤ i →
        i < n → r.2 i = ops.zero) ∧
      r.1.cbsnd_rd
        = (ch.cbsnd_rd +
            (if ch.cbsnd_ready ≥ n then n else if ch.enable_bridge = 0 then ch.cbsnd_ready else 0))
          % ch.cbsnd_size ∧
      r.1.cbsnd_ready
        = ch.cbsnd_ready -
            (if ch.cbsnd_ready ≥ n then n else if ch.enable_bridge = 0 then ch.cbsnd_ready else 0) := by
  obtain ⟨a, b, c⟩ := sound_tx_bridge_drain ops ch buf n hready hrd hn
  refine ⟨_, sound_tx_empty_tones ops ch buf n hm ht, a, b, ?_, ?_⟩
  · rw [c]
  · rw [c]

/-- Witness for claim C14: 100 samples ready at read index 10200 of the ring of 10240 with
the bridge disabled, and a call on 160 samples (`p = 100`, the read wraps around). -/
theorem sound_tx_drain_policy_witness :
    ∃ r, channel.sound_tx ⟨(), fun _ _ _ => (), fun _ _ _ => ()⟩
        { mpt1327_channel_init (fun _ => ()) (fun _ => ⟨0, 0, none, 0⟩) with
          cbsnd_ready := 100, cbsnd_rd := 10200, cbsnd_wr := 60 } (fun _ => ()) 160 = some r ∧
      r.1.cbsnd_rd = 60 ∧ r.1.cbsnd_ready = 0 :=
  (sound_tx_drain_policy ⟨(), fun _ _ _ => (), fun _ _ _ => ()⟩
    { mpt1327_channel_init (fun _ => ()) (fun _ => ⟨0, 0, none, 0⟩) with
      cbsnd_ready := 100, cbsnd_rd := 10200, cbsnd_wr := 60 } (fun _ => ()) 160 rfl rfl
    ⟨by decide, by decide⟩ ⟨by decide, by decide⟩ (by decide)).imp
    (fun _ h => ⟨h.1, h.2.2.2.1, h.2.2.2.2⟩)

/-- Claim C15 fails on the code: with the bridge enabled on a fresh channel, `sound_rx`
takes 10000 samples `b1`, `sound_tx` drains 10000, `sound_rx` takes 1000 samples `b2`
(write index 10000, so the block wraps around after 240 samples) and `sound_tx` drains
1000; `cbsnd_ready` is 10000, 0, 1000, 0.  The first tx block is `b1`, the second starts
with `b2[0..239]`, but its sample 240 is `b2[0]` again and its last sample is `b2[759]`:
the part of the rx block after the wrap was copied from the start of the block. -/
theorem bridge_wrap_repeats_block_start {S : Type} (ops : SoundOps S) (cbsnd0 : Int → S)
    (cbtone0 : Int → MPT1327Tone) (b1 b2 o1 o2 : Int → S) :
    ((channel.sound_tx ops
        (channel.sound_rx (mpt1327_channel_bridge (mpt1327_channel_init cbsnd0 cbtone0) 1)
          b1 10000) o1 10000).bind
      (fun r => (channel.sound_tx ops (channel.sound_rx r.1 b2 1000) o2 1000).map
        (fun q => (r.2 0, r.2 9999, r.1.cbsnd_ready, q.2 0, q.2 239, q.2 240, q.2 999,
          q.1.cbsnd_ready))))
      = some (b1 0, b1 9999, 0, b2 0, b2 239, b2 0, b2 759, 0) :=
  bridge_wrap_run ops cbsnd0 cbtone0 b1 b2 o1 o2

/-- Claim C16 fails on the code: `modem_rx` of the modem runs its loop for `i < samples-1`,
so a call on one sample only calls the sound callback and leaves the demodulator as it was,
and after a call on `n+1` samples and a call on `m+1` samples the filter position differs
from the one after a single call on the `n+m+2` samples of the two buffers joined (the
demodulator starts as `mskmodem_init` leaves it). -/
theorem demodulator_skips_last_sample {U S : Type} (ops : DemodOps S) (rx_f : Nat → U → U)
    (rx_sound_f : U → (Int → S) → Int → U) (ud : U) (s t : Int → S) (n m : Nat) :
    mskmodem.modem_rx ops rx_f rx_sound_f (mskmodem_demod_init ops, ud) s 1
      = (mskmodem_demod_init ops, rx_sound_f ud s 1) ∧
    (mskmodem.modem_rx ops rx_f rx_sound_f
        (mskmodem.modem_rx ops rx_f rx_sound_f (mskmodem_demod_init ops, ud) s (n + 1))
        t (m + 1)).1.filterpos
      ≠ (mskmodem.modem_rx ops rx_f rx_sound_f (mskmodem_demod_init ops, ud)
          (buf_append s (n + 1) t) ((n + 1) + (m + 1))).1.filterpos := by
  refine ⟨rfl, ?_⟩
  have h0 : 0 ≤ (mskmodem_demod_init ops, ud).1.filterpos ∧
      (mskmodem_demod_init ops, ud).1.filterpos < 50 := by
    norm_num [mskmodem_demod_init]
  have h1 := modem_rx_filterpos ops rx_f rx_sound_f (mskmodem_demod_init ops, ud) s (n + 1)
    h0 (by omega)
  have hp : 0 ≤ (mskmodem.modem_rx ops rx_f rx_sound_f (mskmodem_demod_init ops, ud) s
      (n + 1)).1.filterpos ∧
      (mskmodem.modem_rx ops rx_f rx_sound_f (mskmodem_demod_init ops, ud) s
      (n + 1)).1.filterpos < 50 := by
    rw [h1]; omega
  rw [modem_rx_filterpos ops rx_f rx_sound_f _ t (m + 1) hp (by omega), h1,
    modem_rx_filterpos ops rx_f rx_sound_f (mskmodem_demod_init ops, ud) _ _ h0 (by omega)]
  have e : (mskmodem_demod_init ops, ud).1.filterpos = 0 := rfl
  rw [e]
  omega

/-- Claim C17: on a channel with the mutex free, no tone queued and no sample in the bridge
ring, and a `txcv` that returns 0 on every call, the modem's `modem_tx`, started as
`mskmodem_init` leaves it, returns for any blocks (of non-negative sizes) and the block that
follows them (`n` samples) holds 0 in every sample. -/
theorem modem_tx_silent_when_idle {S : Type} (ops : SoundOps S) (txcv : Nat → Nat)
    (h0 : ∀ k, txcv k = 0) (ch : MPT1327Channel S) (hm : ch.mutex = false)
    (ht : ch.cbtone_ready = 0) (hb : ch.cbsnd_ready = 0)
    (blocks : List ((Int → S) × Int)) (hpos : ∀ b ∈ blocks, 0 ≤ b.2)
    (buf : Int → S) (n : Int) (hn : 0 ≤ n) :
    ∃ st, tx_blocks ops txcv blocks (mskmodem_init, ch) = some st ∧
      ∃ r, mskmodem.modem_tx ops (channel.modem_tx txcv) (channel.sound_tx ops) st buf n
          = some r ∧
        ∀ i, 0 ≤ i → i < n → r.2 i = ops.zero := by
  obtain ⟨st, hst, c1, c2, c3, c4⟩ :=
    tx_blocks_silent ops txcv h0 blocks hpos (mskmodem_init, ch) rfl hm ht hb
  obtain ⟨r, hr, _, _, _, _, hz⟩ := modem_tx_silent ops txcv h0 st buf n c1 c2 c3 c4 hn
  exact ⟨st, hst, r, hr, hz⟩

/-- Witness for claim C17: a fresh channel, two blocks of 32 and 64 samples, then a block of
48 samples. -/
theorem modem_tx_silent_when_idle_witness :
    (∀ k, (fun _ => 0 : Nat → Nat) k = 0) ∧
    ∃ st, tx_blocks ⟨(), fun _ _ _ => (), fun _ _ _ => ()⟩ (fun _ => 0)
        [(fun _ => (), 32), (fun _ => (), 64)]
        (mskmodem_init, mpt1327_channel_init (fun _ => ()) (fun _ => ⟨0, 0, none, 0⟩))
        = some st ∧
      ∃ r, mskmodem.modem_tx ⟨(), fun _ _ _ => (), fun _ _ _ => ()⟩
          (channel.modem_tx (fun _ => 0))
          (channel.sound_tx ⟨(), fun _ _ _ => (), fun _ _ _ => ()⟩) st (fun _ => ()) 48
          = some r ∧
        ∀ i, 0 ≤ i → i < 48 → r.2 i = () :=
  ⟨fun _ => rfl,
    modem_tx_silent_when_idle ⟨(), fun _ _ _ => (), fun _ _ _ => ()⟩ (fun _ => 0)
      (fun _ => rfl) (mpt1327_channel_init (fun _ => ()) (fun _ => ⟨0, 0, none, 0⟩))
      rfl rfl rfl [(fun _ => (), 32), (fun _ => (), 64)] (by decide) (fun _ => ()) 48
      (by decide)⟩

set_option maxRecDepth 100000 in
theorem fcs_zero_parts :
    mpt1327_channel_fcs 0 = 0x0003 ∧
    ((fcsLoop 0 48).1 ^^^ 0x0002) &&& 0xFFFE = 0x0002 ∧
    fcsParityLoop 0x0002 (fcsLoop 0 48).2 16 = 1 := by
  decide

/-- Claim C18: `mpt1327_channel_fcs(0)` is `0x0003`; the check bits (`ck` after the mask) are
`0x0002` and the parity bit (the result of the second loop) is 1. -/
theorem fcs_of_zero :
    mpt1327_channel_fcs 0 = 0x0003 ∧
    ((fcsLoop 0 48).1 ^^^ 0x0002) &&& 0xFFFE = 0x0002 ∧
    fcsParityLoop 0x0002 (fcsLoop 0 48).2 16 = 1 :=
  fcs_zero_parts

/-- Claim C19 fails on the code: the tone ring comes from `g_new` and is not cleared; when
slot 1 holds a positive duration (here 5) and one tone of 5 samples is queued on the fresh
channel, a `sound_tx` call of 10 samples plays the queued tone and goes on with slot 1, which
was never queued, until its duration is 0 too: afterwards `cbtone_ready` is -1. -/
theorem tone_ring_ready_negative {S : Type} (ops : SoundOps S) (cbsnd0 : Int → S)
    (buf : Int → S) :
    ((mpt1327_channel_queue_tone
        (mpt1327_channel_init cbsnd0 (fun _ => ⟨0, 5, none, 0⟩)) 800 5 none 0).bind
      (fun ch => (channel.sound_tx ops ch buf 10).map
        (fun r => (r.1.cbtone_ready, r.1.cbtone_rd, r.1.cbtone_size))))
      = some (-1, 2, 512) :=
  stale_slot_run ops cbsnd0 buf

/-- Counterexample to claim C20 as stated: with the bridge enabled on a fresh channel, a
`sound_rx` call on 10240 samples followed by one on 1 sample and no `sound_tx` in between
leaves `cbsnd_ready = 10241`, more than `cbsnd_size = 10240`. -/
theorem bridge_ring_overrun :
    (bridge_calls ⟨(), fun _ _ _ => (), fun _ _ _ => ()⟩
        [BridgeCall.bridge 1, BridgeCall.rx (fun _ => ()) 10240, BridgeCall.rx (fun _ => ()) 1]
        (mpt1327_channel_init (fun _ => ()) (fun _ => ⟨0, 0, none, 0⟩))).map
          (fun r => (r.cbsnd_ready, r.cbsnd_size))
      = some (10241, 10240) :=
  bridge_overrun_run _ _ _ _ _

/-- Claim C20, amended: every sequence of `mpt1327_channel_bridge`, `sound_rx` and `sound_tx`
calls on a fresh channel in which no sample count is negative and no `sound_rx` call made
with the bridge enabled passes more samples than the ring has free (`bridge_calls_fit`)
returns and leaves `0 ≤ cbsnd_ready ≤ cbsnd_size`, `0 ≤ cbsnd_rd < cbsnd_size` and
`0 ≤ cbsnd_wr < cbsnd_size`. -/
theorem bridge_ring_invariant_without_overrun {S : Type} (ops : SoundOps S)
    (cbsnd0 : Int → S) (cbtone0 : Int → MPT1327Tone) (calls : List (BridgeCall S))
    (hfit : bridge_calls_fit ops calls (mpt1327_channel_init cbsnd0 cbtone0)) :
    ∃ r, bridge_calls ops calls (mpt1327_channel_init cbsnd0 cbtone0) = some r ∧
      (0 ≤ r.cbsnd_ready ∧ r.cbsnd_ready ≤ r.cbsnd_size) ∧
      (0 ≤ r.cbsnd_rd ∧ r.cbsnd_rd < r.cbsnd_size) ∧
      (0 ≤ r.cbsnd_wr ∧ r.cbsnd_wr < r.cbsnd_size) := by
  obtain ⟨r, h, _, a, b, c⟩ := bridge_calls_invariant ops calls
    (mpt1327_channel_init cbsnd0 cbtone0) rfl rfl (by norm_num [mpt1327_channel_init])
    (by norm_num [mpt1327_channel_init]) (by norm_num [mpt1327_channel_init])
    (by norm_num [mpt1327_channel_init]) hfit
  exact ⟨r, h, a, b, c⟩

theorem bridge_calls_fit_example :
    bridge_calls_fit ⟨(), fun _ _ _ => (), fun _ _ _ => ()⟩
      [BridgeCall.bridge 1, BridgeCall.rx (fun _ => ()) 10240, BridgeCall.tx (fun _ => ()) 160,
        BridgeCall.rx (fun _ => ()) 160]
      (mpt1327_channel_init (fun _ => ()) (fun _ => ⟨0, 0, none, 0⟩)) := by
  simp [bridge_calls_fit, bridge_call, mpt1327_channel_bridge, channel.sound_rx,
    mpt1327_channel_init, memcpy, channel.sound_tx, channel.sound_tx_bridge,
    channel.sound_tx_tones, g_mutex_lock, g_mutex_unlock]

/-- Witness for claim C20 (amended): the bridge is enabled, `sound_rx` fills the ring with
10240 samples, `sound_tx` drains 160 and `sound_rx` adds 160 again. -/
theorem bridge_ring_invariant_without_overrun_witness :
    ∃ r, bridge_calls ⟨(), fun _ _ _ => (), fun _ _ _ => ()⟩
        [BridgeCall.bridge 1, BridgeCall.rx (fun _ => ()) 10240,
          BridgeCall.tx (fun _ => ()) 160, BridgeCall.rx (fun _ => ()) 160]
        (mpt1327_channel_init (fun _ => ()) (fun _ => ⟨0, 0, none, 0⟩)) = some r ∧
      (0 ≤ r.cbsnd_ready ∧ r.cbsnd_ready ≤ r.cbsnd_size) :=
  (bridge_ring_invariant_without_overrun ⟨(), fun _ _ _ => (), fun _ _ _ => ()⟩
    (fun _ => ()) (fun _ => ⟨0, 0, none, 0⟩)
    [BridgeCall.bridge 1, BridgeCall.rx (fun _ => ()) 10240, BridgeCall.tx (fun _ => ()) 160,
      BridgeCall.rx (fun _ => ()) 160]
    bridge_calls_fit_example).imp (fun _ h => ⟨h.1, h.2.1⟩)

/-! ## Theorems: error detection -/

theorem shiftRight_mod_two_testBit (x k : Nat) :
    (x >>> k) % 2 = if x.testBit k then 1 else 0 := by
  rw [Nat.testBit_to_div_mod, Nat.shiftRight_eq_div_pow]
  have := Nat.mod_two_eq_zero_or_one (x / 2 ^ k)
  split_ifs with h <;> simp at h <;> omega

theorem bitCount_xor (a b n : Nat) :
    bitCount (a ^^^ b) n % 2 = (bitCount a n + bitCount b n) % 2 := by
  induction n with
  | zero => rfl
  | succ k ih =>
    show (bitCount (a ^^^ b) k + ((a ^^^ b) >>> k) % 2) % 2
      = (bitCount a k + (a >>> k) % 2 + (bitCount b k + (b >>> k) % 2)) % 2
    rw [shiftRight_mod_two_testBit (a ^^^ b), shiftRight_mod_two_testBit a,
      shiftRight_mod_two_testBit b, Nat.testBit_xor]
    cases a.testBit k <;> cases b.testBit k <;> simp <;> omega

/-- The 64-bit word `mpt1327_channel_fcs_add p` of a 48-bit payload has an even number of
1 bits. -/
theorem fcs_add_bitCount_even (p : Nat) (hp : p < 2 ^ 48) :
    bitCount (mpt1327_channel_fcs_add p) 64 % 2 = 0 := by
  have key : mpt1327_channel_fcs p % 2
      = (bitCount p 48 + bitCount (mpt1327_channel_fcs p >>> 1) 15) % 2 := by
    unfold mpt1327_channel_fcs
    simp only []
    generalize hck : ((fcsLoop p 48).1 ^^^ 0x0002) &&& 0xFFFE = ck
    have hev : ck % 2 = 0 := hck ▸ and_fffe_even _
    have hlt : ck < 2 ^ 16 := hck ▸ and_fffe_lt _
    have h1 : (fcsLoop p 48).2 = bitCount p 48 % 2 := by
      simpa using fcsLoop_parity p 48 (le_refl _)
    have h1lt : (fcsLoop p 48).2 < 2 := by rw [h1]; omega
    have h2 := fcsParityLoop_eq ck _ 16 h1lt (le_refl _)
    simp only [Nat.sub_self, Nat.shiftRight_zero] at h2
    have h2lt : fcsParityLoop ck (fcsLoop p 48).2 16 < 2 := by rw [h2]; omega
    rw [or_bit_even _ _ hev h2lt]
    have hmod : (ck + fcsParityLoop ck (fcsLoop p 48).2 16) % 2 ^ 16
        = ck + fcsParityLoop ck (fcsLoop p 48).2 16 := by
      apply Nat.mod_eq_of_lt; omega
    rw [hmod]
    have hsh : (ck + fcsParityLoop ck (fcsLoop p 48).2 16) >>> 1 = ck >>> 1 := by
      simp only [Nat.shiftRight_eq_div_pow]; omega
    rw [hsh]
    have h3 : bitCount ck 16 = ck % 2 + bitCount (ck >>> 1) 15 := bitCount_peel ck 15
    rw [h2, h1]
    omega
  rw [fcs_add_eq p hp]
  have h := bitCount_low_add p (mpt1327_channel_fcs p) (fcs_lt p) 48
  have e : 16 + 48 = 64 := rfl
  rw [e] at h
  rw [h]
  have h3 : bitCount (mpt1327_channel_fcs p) 16
      = mpt1327_channel_fcs p % 2 + bitCount (mpt1327_channel_fcs p >>> 1) 15 :=
    bitCount_peel _ 15
  omega

/-- A 64-bit word that passes the receiver's check is the `fcs_add` of its upper 48 bits. -/
theorem check_passes_eq_fcs_add (w : Nat) (hw : w < 2 ^ 64)
    (h : mpt1327_channel_fcs (w >>> 16) = w &&& 0xFFFF) :
    mpt1327_channel_fcs_add (w >>> 16) = w := by
  have hq : w >>> 16 < 2 ^ 48 := by
    rw [Nat.shiftRight_eq_div_pow]; omega
  rw [fcs_add_eq _ hq, h]
  have e : w &&& 0xFFFF = w % 2 ^ 16 := Nat.and_pow_two_sub_one_eq_mod w 16
  rw [e, Nat.shiftRight_eq_div_pow]
  omega

/-- Claim C27: for every 48-bit payload `p` and every 64-bit error pattern `e` with an odd
number of 1 bits the word `fcs_add(p) XOR e` fails the check of `modem_rx`. -/
theorem odd_errors_detected (p e : Nat) (hp : p < 2 ^ 48) (he : e < 2 ^ 64)
    (hodd : bitCount e 64 % 2 = 1) :
    mpt1327_channel_fcs ((mpt1327_channel_fcs_add p ^^^ e) >>> 16)
      ≠ (mpt1327_channel_fcs_add p ^^^ e) &&& 0xFFFF := by
  intro h
  have hfa : mpt1327_channel_fcs_add p < 2 ^ 64 := by
    rw [fcs_add_eq p hp]
    have := fcs_lt p
    omega
  have hw : mpt1327_channel_fcs_add p ^^^ e < 2 ^ 64 := Nat.xor_lt_two_pow hfa he
  have hq : (mpt1327_channel_fcs_add p ^^^ e) >>> 16 < 2 ^ 48 := by
    rw [Nat.shiftRight_eq_div_pow]; omega
  have h1 := fcs_add_bitCount_even _ hq
  rw [check_passes_eq_fcs_add _ hw h, bitCount_xor] at h1
  have h2 := fcs_add_bitCount_even p hp
  omega

set_option maxRecDepth 100000 in
theorem odd_errors_example :
    bitCount 0x8000000000000000 64 % 2 = 1 := by
  decide

/-- Witness for claim C27: the payload `0x123456789ABC` with the first bit sent in error. -/
theorem odd_errors_detected_witness :
    mpt1327_channel_fcs ((mpt1327_channel_fcs_add 0x123456789ABC ^^^ 0x8000000000000000) >>> 16)
      ≠ (mpt1327_channel_fcs_add 0x123456789ABC ^^^ 0x8000000000000000) &&& 0xFFFF :=
  odd_errors_detected 0x123456789ABC 0x8000000000000000 (by decide) (by decide)
    odd_errors_example

/-! ## Theorems: a data codeword is not silence -/

theorem fcsStep_mod (cw : Nat) (st : Nat × Nat) (n : Nat) (hn : n < 48) :
    fcsStep (cw % 2 ^ 48) st n = fcsStep cw st n := by
  have h : ((cw % 2 ^ 48) >>> (47 - n)) &&& 1 = (cw >>> (47 - n)) &&& 1 := by
    rw [Nat.and_one_is_mod, Nat.and_one_is_mod]
    exact shiftRight_mod_two_pow cw 48 (47 - n) (by omega)
  unfold fcsStep
  rw [h]

theorem fcsLoop_mod (cw n : Nat) (hn : n ≤ 48) : fcsLoop (cw % 2 ^ 48) n = fcsLoop cw n := by
  induction n with
  | zero => rfl
  | succ k ih =>
    rw [fcsLoop_succ, fcsLoop_succ, ih (by omega), fcsStep_mod cw _ k (by omega)]

theorem fcs_mod (cw : Nat) : mpt1327_channel_fcs (cw % 2 ^ 48) = mpt1327_channel_fcs cw := by
  unfold mpt1327_channel_fcs
  rw [fcsLoop_mod cw 48 (le_refl _)]

set_option maxRecDepth 100000 in
theorem fcs_zero_value : mpt1327_channel_fcs 0 = 3 := by
  decide

theorem fcs_add_mod (v : Nat) :
    mpt1327_channel_fcs_add v = 2 ^ 16 * (v % 2 ^ 48) + mpt1327_channel_fcs (v % 2 ^ 48) := by
  have e : (v <<< 16) % 2 ^ 64 = (v % 2 ^ 48) <<< 16 := by
    rw [Nat.shiftLeft_eq, Nat.shiftLeft_eq]
    omega
  unfold mpt1327_channel_fcs_add
  rw [e, fcs_mod, ← fcs_mod v]
  exact or_low_eq_add _ _ (fcs_lt _)

theorem fcs_add_ne_zero (v : Nat) : mpt1327_channel_fcs_add v ≠ 0 := by
  rw [fcs_add_mod]
  by_cases h : v % 2 ^ 48 = 0
  · rw [h, fcs_zero_value]
    omega
  · omega

/-! ## Theorems: carrier of a data codeword -/

theorem tx_loop_out_before {U S : Type} (ops : SoundOps S) (tx_f : Nat → U → Nat × U)
    (n : Nat) :
    ∀ (i : Int) (st : MSKModemContext × U) (buf : Int → S) (j : Int), j < i →
      (mskmodem.tx_loop ops tx_f n i (st, buf)).2 j = buf j := by
  induction n with
  | zero => intro i st buf j _; rfl
  | succ k ih =>
    intro i st buf j hj
    show (mskmodem.tx_loop ops tx_f k (i + 1) (mskmodem.tx_step tx_f st,
      Function.update buf i (mskmodem.tx_out ops (mskmodem.tx_step tx_f st).1 (buf i)))).2 j = _
    rw [ih (i + 1) _ _ j (by omega), Function.update_noteq (by omega)]

/-- The sample that the loop of `modem_tx` leaves at index `i + m`: the store of pass
`m`, made in the state after `m + 1` passes. -/
theorem tx_loop_out {U S : Type} (ops : SoundOps S) (tx_f : Nat → U → Nat × U) (n : Nat) :
    ∀ (i : Int) (st : MSKModemContext × U) (buf : Int → S) (m : Nat), m < n →
      (mskmodem.tx_loop ops tx_f n i (st, buf)).2 (i + m)
        = mskmodem.tx_out ops (mskmodem.tx_run tx_f (m + 1) st).1 (buf (i + m)) := by
  induction n with
  | zero => intro i st buf m hm; omega
  | succ k ih =>
    intro i st buf m hm
    show (mskmodem.tx_loop ops tx_f k (i + 1) (mskmodem.tx_step tx_f st,
      Function.update buf i (mskmodem.tx_out ops (mskmodem.tx_step tx_f st).1 (buf i)))).2
        (i + m) = _
    cases m with
    | zero =>
      have e0 : i + ((0 : Nat) : Int) = i := by simp
      rw [e0, tx_loop_out_before ops tx_f k (i + 1) _ _ _ (by omega), Function.update_same]
      rfl
    | succ j =>
      have e : i + ((j + 1 : Nat) : Int) = i + 1 + (j : Int) := by push_cast; ring
      rw [e, ih (i + 1) _ _ j (by omega), Function.update_noteq (by omega)]
      rfl

theorem tx_blocks_returns_free {S : Type} (ops : SoundOps S) (txcv : Nat → Nat)
    (blocks : List ((Int → S) × Int)) (st : MSKModemContext × MPT1327Channel S)
    (hm : st.2.mutex = false) :
    ∃ r, tx_blocks ops txcv blocks st = some r ∧ r.2.mutex = false := by
  induction blocks generalizing st with
  | nil => exact ⟨st, rfl, hm⟩
  | cons b rest ih =>
    obtain ⟨q, hq, hqm⟩ := sound_tx_returns ops st.2 b.1 b.2 hm
    unfold tx_blocks mskmodem.modem_tx
    simp only [hq]
    apply ih
    rw [tx_loop_fst, tx_run_mutex]
    exact hqm

theorem tx_state_codeword {S : Type} (txcv : Nat → Nat) (ch : MPT1327Channel S)
    (k d : Nat) (hd : d < 2560) (hv : 1 < txcv (ch.tx_calls + k)) :
    (tx_state txcv ch (41 + 2560 * k + d)).1.current
      = mpt1327_channel_fcs_add (txcv (ch.tx_calls + k)) := by
  have h := (tx_state_closed txcv ch (2560 * k + d)).2.2.1
  have e1 : 41 + (2560 * k + d) = 41 + 2560 * k + d := by omega
  have e2 : (2560 * k + d) / 2560 = k := by omega
  rw [e1, e2, tx_codeword_eq, if_neg (by omega), if_neg (by omega)] at h
  exact h

/-- Claim C30: `mpt1327_channel_fcs_add(v)` is not 0 for any `v`.  When `txcv` returns a
value greater than 1 at codeword boundary `k`, then for every sample of the 64 bit periods
of that codeword (sample number `41 + 2560 k + d` from initialisation, `d < 2560`) the
modulator's `current` is that non-zero codeword, and `modem_tx`, called on the block that
holds the sample at index `i` after any earlier blocks, returns and has stored the carrier
`sin(2 pi (fs * (phase/40) + padj))` of that sample at `buf[i]`. -/
theorem data_codeword_not_silence {S : Type} (ops : SoundOps S) (txcv : Nat → Nat)
    (ch : MPT1327Channel S) (hm : ch.mutex = false) (blocks : List ((Int → S) × Int))
    (buf : Int → S) (n : Int) (i k d : Nat) (hi : (i : Int) < n) (hd : d < 2560)
    (hs : (blocks.map (fun b => b.2.toNat)).sum + i + 1 = 41 + 2560 * k + d)
    (hv : 1 < txcv (ch.tx_calls + k)) :
    (∀ v, mpt1327_channel_fcs_add v ≠ 0) ∧
    (tx_state txcv ch (41 + 2560 * k + d)).1.current
      = mpt1327_channel_fcs_add (txcv (ch.tx_calls + k)) ∧
    ∃ st, tx_blocks ops txcv blocks (mskmodem_init, ch) = some st ∧
      ∃ r, mskmodem.modem_tx ops (channel.modem_tx txcv) (channel.sound_tx ops) st buf n
          = some r ∧
        r.2 i = ops.carrier (tx_state txcv ch (41 + 2560 * k + d)).1.fs
          (tx_state txcv ch (41 + 2560 * k + d)).1.phase
          (tx_state txcv ch (41 + 2560 * k + d)).1.padj := by
  have hcur := tx_state_codeword txcv ch k d hd hv
  refine ⟨fcs_add_ne_zero, hcur, ?_⟩
  obtain ⟨st, hst, hstm⟩ := tx_blocks_returns_free ops txcv blocks (mskmodem_init, ch) hm
  obtain ⟨s1, s2⟩ := tx_blocks_state ops txcv blocks _ st hst
  obtain ⟨q, hq, _⟩ := sound_tx_returns ops st.2 buf n hstm
  refine ⟨st, hst,
    mskmodem.tx_loop ops (channel.modem_tx txcv) n.toNat 0 ((st.1, q.1), q.2), ?_, ?_⟩
  · unfold mskmodem.modem_tx
    rw [hq]
  · have hin : i < n.toNat := by omega
    have h := tx_loop_out ops (channel.modem_tx txcv) n.toNat 0 (st.1, q.1) q.2 i hin
    simp only [zero_add] at h
    rw [h]
    have hc := tx_run_congr txcv (i + 1) (st.1, q.1)
      (mskmodem.tx_run (channel.modem_tx txcv) (blocks.map (fun b => b.2.toNat)).sum
        (mskmodem_init, ch))
      s1 (by rw [sound_tx_tx_calls ops st.2 buf n q hq]; exact s2)
    rw [hc.1, ← tx_run_add]
    have e : mskmodem.tx_run (channel.modem_tx txcv)
        ((blocks.map (fun b => b.2.toNat)).sum + (i + 1)) (mskmodem_init, ch)
        = tx_state txcv ch (41 + 2560 * k + d) := by
      rw [← hs]
      rfl
    rw [e]
    unfold mskmodem.tx_out
    rw [if_pos (by rw [hcur]; exact fcs_add_ne_zero _)]

/-- Witness for claim C30: a fresh channel whose `txcv` always returns 5; the first sample
of the first codeword is sample 41, at index 40 of a first block of 64 samples. -/
theorem data_codeword_not_silence_witness :
    1 < (fun _ => 5 : Nat → Nat)
      ((mpt1327_channel_init (fun _ => ()) (fun _ => ⟨0, 0, none, 0⟩)).tx_calls + 0) ∧
    (tx_state (fun _ => 5) (mpt1327_channel_init (fun _ => ()) (fun _ => ⟨0, 0, none, 0⟩))
        (41 + 2560 * 0 + 0)).1.current
      = mpt1327_channel_fcs_add 5 :=
  ⟨by decide,
    (data_codeword_not_silence ⟨(), fun _ _ _ => (), fun _ _ _ => ()⟩ (fun _ => 5)
      (mpt1327_channel_init (fun _ => ()) (fun _ => ⟨0, 0, none, 0⟩)) rfl []
      (fun _ => ()) 64 40 0 0 (by decide) (by decide) rfl (by decide)).2.1⟩

/-! ## Theorems: phase continuity of the modulator -/

theorem tx_step_theta {U : Type} (tx_f : Nat → U → Nat × U) (st : MSKModemContext × U)
    (hph : st.1.phase ≤ 40) :
    ∃ k : Int, tx_theta (mskmodem.tx_step tx_f st).1
      = tx_theta st.1 + (mskmodem.tx_step tx_f st).1.fs / 40 - k := by
  by_cases hp : st.1.phase + 1 ≤ 40
  · rw [tx_step_hold _ _ hp]
    refine ⟨0, ?_⟩
    unfold tx_theta
    simp only []
    push_cast
    ring
  · have h40 : st.1.phase = 40 := by omega
    refine ⟨⌊st.1.padj + st.1.fs⌋, ?_⟩
    unfold mskmodem.tx_step tx_theta
    simp only []
    rw [if_pos (by omega)]
    simp only [h40]
    split <;> split <;> (simp only []; push_cast; ring)

theorem tx_step_padj {U : Type} (tx_f : Nat → U → Nat × U) (st : MSKModemContext × U)
    (h : 0 ≤ st.1.padj ∧ st.1.padj < 1) :
    0 ≤ (mskmodem.tx_step tx_f st).1.padj ∧ (mskmodem.tx_step tx_f st).1.padj < 1 := by
  have hfl := Int.floor_le (st.1.padj + st.1.fs)
  have hfu := Int.lt_floor_add_one (st.1.padj + st.1.fs)
  unfold mskmodem.tx_step
  simp only []
  split
  · split <;> split <;> (simp only []; constructor <;> linarith)
  · exact h

theorem tx_step_fs {U : Type} (tx_f : Nat → U → Nat × U) (st : MSKModemContext × U) :
    (mskmodem.tx_step tx_f st).1.fs = st.1.fs ∨ (mskmodem.tx_step tx_f st).1.fs = 1 ∨
      (mskmodem.tx_step tx_f st).1.fs = 3 / 2 := by
  unfold mskmodem.tx_step
  simp only []
  split
  · split <;> split <;> simp only [] <;> norm_num
  · exact Or.inl rfl

theorem tx_state_padj_fs {S : Type} (txcv : Nat → Nat) (ch : MPT1327Channel S) (n : Nat) :
    (0 ≤ (tx_state txcv ch n).1.padj ∧ (tx_state txcv ch n).1.padj < 1) ∧
    ((tx_state txcv ch n).1.fs = 0 ∨ (tx_state txcv ch n).1.fs = 1 ∨
      (tx_state txcv ch n).1.fs = 3 / 2) := by
  induction n with
  | zero =>
    refine ⟨⟨?_, ?_⟩, Or.inl ?_⟩
    · show (0 : Rat) ≤ 0
      norm_num
    · show (0 : Rat) < 1
      norm_num
    · rfl
  | succ k ih =>
    rw [tx_state_succ]
    refine ⟨tx_step_padj _ _ ih.1, ?_⟩
    rcases tx_step_fs (channel.modem_tx txcv) (tx_state txcv ch k) with h | h | h
    · rw [h]; exact ih.2
    · exact Or.inr (Or.inl h)
    · exact Or.inr (Or.inr h)

theorem tx_state_phase_le {S : Type} (txcv : Nat → Nat) (ch : MPT1327Channel S) (n : Nat) :
    (tx_state txcv ch n).1.phase ≤ 40 := by
  cases n with
  | zero =>
    show (0 : Int) ≤ 40
    norm_num
  | succ k => exact (tx_phase_bounds txcv ch k).2

/-- Claim C21: in exact rational arithmetic, with `tx_theta = fs * (phase/40) + padj` the
argument of the carrier in cycles, from every modulator state after `n` samples to the next
one (for every `txcv`, across bit and codeword boundaries too) `tx_theta` advances by
`fs/40` minus an integer, `fs` being the factor of the later sample; `fs` is 0 (before the
first bit), 1 or 3/2, so the step is at most `1.5/40 = 1800/48000` of a cycle; and `padj`
stays in `[0, 1)`. -/
theorem modulator_phase_continuity {S : Type} (txcv : Nat → Nat) (ch : MPT1327Channel S)
    (n : Nat) :
    (∃ k : Int, tx_theta (tx_state txcv ch (n + 1)).1
      = tx_theta (tx_state txcv ch n).1 + (tx_state txcv ch (n + 1)).1.fs / 40 - k) ∧
    ((tx_state txcv ch (n + 1)).1.fs = 0 ∨ (tx_state txcv ch (n + 1)).1.fs = 1 ∨
      (tx_state txcv ch (n + 1)).1.fs = 3 / 2) ∧
    (0 ≤ (tx_state txcv ch (n + 1)).1.fs / 40 ∧
      (tx_state txcv ch (n + 1)).1.fs / 40 ≤ 1800 / 48000) ∧
    (0 ≤ (tx_state txcv ch n).1.padj ∧ (tx_state txcv ch n).1.padj < 1) := by
  have hfs := (tx_state_padj_fs txcv ch (n + 1)).2
  refine ⟨?_, hfs, ?_, (tx_state_padj_fs txcv ch n).1⟩
  · rw [tx_state_succ]
    exact tx_step_theta _ _ (tx_state_phase_le txcv ch n)
  · rcases hfs with h | h | h <;> rw [h] <;> norm_num

/-! ## Theorems: stalled tone queue, Morse spacing, mutex -/

theorem tone_loop_stalled {S : Type} (ops : SoundOps S) (fuel : Nat) (i : Int)
    (c : MPT1327Channel S) (b : Int → S) (h : (c.cbtone c.cbtone_rd).duration ≤ 0) :
    channel.tone_loop ops fuel i (c, b) = (c, b) := by
  cases fuel with
  | zero => rfl
  | succ k =>
    unfold channel.tone_loop
    simp only []
    rw [if_neg (by omega)]

/-- A `sound_tx` call that finds a tone of duration 0 or less at the head of the queue
leaves the queue as it is. -/
theorem sound_tx_stalled {S : Type} (ops : SoundOps S) (ch : MPT1327Channel S)
    (buf : Int → S) (n : Int) (hm : ch.mutex = false) (hq : ch.cbtone_ready ≠ 0)
    (hd : (ch.cbtone ch.cbtone_rd).duration ≤ 0) :
    ∃ r, channel.sound_tx ops ch buf n = some r ∧ r.1.mutex = false ∧
      r.1.cbtone_rd = ch.cbtone_rd ∧ r.1.cbtone_ready = ch.cbtone_ready ∧
      ∀ s, (r.1.cbtone s).duration = (ch.cbtone s).duration := by
  obtain ⟨r, hr, _, h3⟩ := sound_tx_fcomp_order ops ch buf n hm
  obtain ⟨c, b, e, _, c2, c3, _, c5⟩ := h3 hq
  have hstall : (c.cbtone c.cbtone_rd).duration ≤ 0 := by
    rw [c2, (c5 _).1]
    exact hd
  rw [tone_loop_stalled ops _ _ c b hstall] at e
  refine ⟨r, hr, ?_, ?_, ?_, ?_⟩
  · rw [e]; rfl
  · rw [e]; exact c2
  · rw [e]; exact c3
  · intro s
    rw [e]
    exact (c5 s).1

theorem sound_tx_calls_stalled {S : Type} (ops : SoundOps S)
    (blocks : List ((Int → S) × Int)) (ch : MPT1327Channel S)
    (hm : ch.mutex = false) (hq : ch.cbtone_ready ≠ 0)
    (hd : (ch.cbtone ch.cbtone_rd).duration ≤ 0) :
    ∃ r, sound_tx_calls ops blocks ch = some r ∧ r.mutex = false ∧
      r.cbtone_rd = ch.cbtone_rd ∧ r.cbtone_ready = ch.cbtone_ready ∧
      ∀ s, (r.cbtone s).duration = (ch.cbtone s).duration := by
  induction blocks generalizing ch with
  | nil => exact ⟨ch, rfl, hm, rfl, rfl, fun _ => rfl⟩
  | cons b rest ih =>
    obtain ⟨q, hq1, q1, q2, q3, q4⟩ := sound_tx_stalled ops ch b.1 b.2 hm hq hd
    obtain ⟨r, hr, r1, r2, r3, r4⟩ := ih q.1 q1 (by rw [q3]; exact hq)
      (by rw [q2, q4]; exact hd)
    refine ⟨r, ?_, r1, by rw [r2, q2], by rw [r3, q3], fun s => by rw [r4, q4]⟩
    show (channel.sound_tx ops ch b.1 b.2).bind (fun r => sound_tx_calls ops rest r.1) = _
    rw [hq1]
    exact hr

/-- Claim C25 fails on the code: a tone of duration 0 and then a tone of 10 samples are
queued on a fresh channel; after any number of `sound_tx` calls, of any sizes, the queue
still holds both tones (`cbtone_ready = 2`), the head is still the first one
(`cbtone_rd = 0`) and the second tone still has all of its 10 samples to play. -/
theorem zero_duration_tone_blocks_queue {S : Type} (ops : SoundOps S) (cbsnd0 : Int → S)
    (cbtone0 : Int → MPT1327Tone) (blocks : List ((Int → S) × Int)) :
    ((mpt1327_channel_queue_tone (mpt1327_channel_init cbsnd0 cbtone0) 800 0 none 0).bind
      (fun ch => (mpt1327_channel_queue_tone ch 800 10 none 0).bind
        (fun ch => (sound_tx_calls ops blocks ch).map
          (fun r => (r.cbtone_ready, r.cbtone_rd, (r.cbtone 0).duration,
            (r.cbtone 1).duration)))))
      = some (2, 0, 0, 10) := by
  have key : ∀ c : MPT1327Channel S, c.mutex = false → c.cbtone_ready = 2 →
      c.cbtone_rd = 0 → (c.cbtone 0).duration = 0 → (c.cbtone 1).duration = 10 →
      (sound_tx_calls ops blocks c).map
          (fun r => (r.cbtone_ready, r.cbtone_rd, (r.cbtone 0).duration,
            (r.cbtone 1).duration))
        = some (2, 0, 0, 10) := by
    intro c h1 h2 h3 h4 h5
    obtain ⟨r, hr, _, r2, r3, r4⟩ := sound_tx_calls_stalled ops blocks c h1
      (by rw [h2]; decide) (by rw [h3, h4])
    rw [hr]
    simp only [Option.map, r2, r3, r4, h2, h3, h4, h5]
  rw [queue_tone_stores _ _ _ _ _ rfl (by norm_num [mpt1327_channel_init])]
  simp only [Option.bind]
  rw [queue_tone_stores _ _ _ _ _ rfl (by norm_num [mpt1327_channel_init])]
  simp only [Option.bind]
  apply key
  · rfl
  · norm_num [mpt1327_channel_init]
  · rfl
  · simp [Function.update, mpt1327_channel_init]
  · simp [Function.update, mpt1327_channel_init]

theorem queue_tone_blocked {S : Type} (ch : MPT1327Channel S) (freq duration : Int)
    (fcomp : Option Nat) (userdata : Nat) (hm : ch.mutex = true) :
    mpt1327_channel_queue_tone ch freq duration fcomp userdata = none := by
  unfold mpt1327_channel_queue_tone g_mutex_lock
  rw [hm]
  rfl

theorem sound_tx_blocked {S : Type} (ops : SoundOps S) (ch : MPT1327Channel S)
    (buf : Int → S) (n : Int) (hm : ch.mutex = true) :
    channel.sound_tx ops ch buf n = none := by
  have hb := (sound_tx_bridge_mutex ops ch buf n).1
  rw [hm] at hb
  unfold channel.sound_tx g_mutex_lock
  simp only []
  rw [hb]
  rfl

/-- Claim C28 fails on the code: 512 tones are queued on a fresh channel (every call
starts and ends with the mutex free); the next `mpt1327_channel_queue_tone` call finds the
ring full and returns with the mutex held (`cbtone_ready` is still 512), and after it
neither a further `mpt1327_channel_queue_tone` call nor a `sound_tx` call returns. -/
theorem queue_full_leaves_mutex_locked {S : Type} (ops : SoundOps S) (cbsnd0 : Int → S)
    (cbtone0 : Int → MPT1327Tone) (buf : Int → S) (n : Int) :
    (queue_tones (List.replicate 512 ⟨800, 3200, none, 0⟩)
        (mpt1327_channel_init cbsnd0 cbtone0)).bind
      (fun ch => (mpt1327_channel_queue_tone ch 800 3200 none 0).map
        (fun r => (ch.mutex, r.mutex, r.cbtone_ready,
          (mpt1327_channel_queue_tone r 800 3200 none 0).isSome,
          (channel.sound_tx ops r buf n).isSome)))
      = some (false, true, 512, false, false) := by
  obtain ⟨r, hr, r1, r2, _, r4, _⟩ := queue_tones_stores
    (List.replicate 512 ⟨800, 3200, none, 0⟩) (mpt1327_channel_init cbsnd0 cbtone0) rfl
    (by norm_num [mpt1327_channel_init]) (by norm_num [mpt1327_channel_init])
    (by simp only [List.length_replicate]; norm_num [mpt1327_channel_init])
  have h4 : r.cbtone_ready = 512 := by
    rw [r4]
    simp only [List.length_replicate]
    norm_num [mpt1327_channel_init]
  have h2 : r.cbtone_size = 512 := r2
  rw [hr]
  simp only [Option.bind]
  rw [queue_tone_full r _ _ _ _ r1 (by rw [h4, h2])]
  simp only [Option.map]
  rw [queue_tone_blocked _ _ _ _ _ rfl, sound_tx_blocked _ _ _ _ rfl, r1, h4]
  rfl

/-! ## Theorems: Morse spacing -/

set_option maxRecDepth 100000 in
theorem spec_morse_e_space_e :
    spec_morse ['E', ' ', 'E'] none 0
      = [⟨800, 3200, none, 0⟩, ⟨0, 3200, none, 0⟩, ⟨0, 6400, none, 0⟩,
         ⟨0, 6400, none, 0⟩, ⟨0, 12800, none, 0⟩,
         ⟨800, 3200, none, 0⟩, ⟨0, 3200, none, 0⟩, ⟨0, 6400, none, 0⟩] := by
  decide

set_option maxRecDepth 100000 in
theorem spec_morse_e_e :
    spec_morse ['E', 'E'] none 0
      = [⟨800, 3200, none, 0⟩, ⟨0, 3200, none, 0⟩, ⟨0, 6400, none, 0⟩,
         ⟨800, 3200, none, 0⟩, ⟨0, 3200, none, 0⟩, ⟨0, 6400, none, 0⟩] := by
  decide

set_option maxRecDepth 100000 in
theorem spec_morse_char_space :
    spec_morse_char ' ' = [⟨0, 6400, none, 0⟩, ⟨0, 12800, none, 0⟩] := by
  decide

/-- The slots `0 .. tones.length - 1` of a fresh ring after the tones of a list have been
queued. -/
theorem queue_tones_fresh_slots {S : Type} (cbsnd0 : Int → S) (cbtone0 : Int → MPT1327Tone)
    (tones : List MPT1327Tone) (hlen : tones.length ≤ 512) :
    (queue_tones tones (mpt1327_channel_init cbsnd0 cbtone0)).map
        (fun r => ((List.range tones.length).map (fun i => r.cbtone (i : Int)), r.cbtone_ready))
      = some (tones, (tones.length : Int)) := by
  obtain ⟨r, hr, _, _, _, r4, _, r6, _⟩ := queue_tones_stores tones
    (mpt1327_channel_init cbsnd0 cbtone0) rfl
    (by norm_num [mpt1327_channel_init]) (by norm_num [mpt1327_channel_init])
    (by
      show (0 : Int) + (tones.length : Int) ≤ 512
      omega)
  rw [hr]
  simp only [Option.map, Option.some.injEq, Prod.mk.injEq]
  refine ⟨?_, ?_⟩
  · apply List.ext_getElem
    · simp
    · intro i h1 h2
      have hi : i < tones.length := h2
      have h := r6 i hi
      have e : ((mpt1327_channel_init cbsnd0 cbtone0).cbtone_wr + (i : Int))
          % (mpt1327_channel_init cbsnd0 cbtone0).cbtone_size = (i : Int) := by
        show (0 + (i : Int)) % 512 = (i : Int)
        omega
      rw [e] at h
      simp only [List.getElem_map, List.getElem_range]
      rw [h]
      rfl
  · rw [r4]
    show (0 : Int) + _ = _
    omega

/-- Claim C26 fails on the code: for every pair of characters `a`, `b` the tones queued
for the string "a b" are those of `a` (which end with the 3200 and 6400 samples of silence
after its last symbol), then 6400 and 12800 samples of silence for the space, then those of
`b`.  So the silence between the words is 3200 + 6400 + 6400 + 12800 = 28800 samples, 9 dot
units and not 7.  For "E E" on a fresh channel the ring holds the eight tones listed, for
"EE" the six tones listed (3200 + 6400 = 9600 samples between the letters). -/
theorem morse_word_space_is_nine_dots {S : Type} (ch : MPT1327Channel S)
    (cbsnd0 : Int → S) (cbtone0 : Int → MPT1327Tone) (a b : Char) :
    mpt1327_channel_queue_morse ch [a, ' ', b] none 0
      = queue_tones (spec_morse_char a
          ++ [⟨0, 6400, none, 0⟩, ⟨0, 12800, none, 0⟩] ++ spec_morse_char b) ch ∧
    (mpt1327_channel_queue_morse (mpt1327_channel_init cbsnd0 cbtone0)
        ['E', ' ', 'E'] none 0).map
        (fun r => ((List.range 8).map (fun i => r.cbtone (i : Int)), r.cbtone_ready))
      = some ([⟨800, 3200, none, 0⟩, ⟨0, 3200, none, 0⟩, ⟨0, 6400, none, 0⟩,
         ⟨0, 6400, none, 0⟩, ⟨0, 12800, none, 0⟩,
         ⟨800, 3200, none, 0⟩, ⟨0, 3200, none, 0⟩, ⟨0, 6400, none, 0⟩], 8) ∧
    (mpt1327_channel_queue_morse (mpt1327_channel_init cbsnd0 cbtone0)
        ['E', 'E'] none 0).map
        (fun r => ((List.range 6).map (fun i => r.cbtone (i : Int)), r.cbtone_ready))
      = some ([⟨800, 3200, none, 0⟩, ⟨0, 3200, none, 0⟩, ⟨0, 6400, none, 0⟩,
         ⟨800, 3200, none, 0⟩, ⟨0, 3200, none, 0⟩, ⟨0, 6400, none, 0⟩], 6) := by
  refine ⟨?_, ?_, ?_⟩
  · rw [queue_morse_eq]
    unfold spec_morse
    simp only [List.flatMap_cons, List.flatMap_nil, List.append_nil, spec_morse_char_space,
      List.append_assoc]
  · rw [queue_morse_eq, spec_morse_e_space_e]
    exact queue_tones_fresh_slots cbsnd0 cbtone0
      [⟨800, 3200, none, 0⟩, ⟨0, 3200, none, 0⟩, ⟨0, 6400, none, 0⟩,
         ⟨0, 6400, none, 0⟩, ⟨0, 12800, none, 0⟩,
         ⟨800, 3200, none, 0⟩, ⟨0, 3200, none, 0⟩, ⟨0, 6400, none, 0⟩] (by decide)
  · rw [queue_morse_eq, spec_morse_e_e]
    exact queue_tones_fresh_slots cbsnd0 cbtone0
      [⟨800, 3200, none, 0⟩, ⟨0, 3200, none, 0⟩, ⟨0, 6400, none, 0⟩,
         ⟨800, 3200, none, 0⟩, ⟨0, 3200, none, 0⟩, ⟨0, 6400, none, 0⟩] (by decide)

/-! ## Theorems: the idle stream -/

set_option maxRecDepth 1000000 in
theorem idle_rotations_fail (r : Fin 64) :
    mpt1327_channel_fcs (rotl64 0xAAAAAAAAAAAA3B28 r >>> 16)
      ≠ rotl64 0xAAAAAAAAAAAA3B28 r &&& 0xFFFF := by
  revert r
  decide

set_option maxRecDepth 1000000 in
theorem idle_rotation_step (q : Fin 64) :
    ((rotl64 0xAAAAAAAAAAAA3B28 q <<< 1) % 2 ^ 64) ||| codeword_bit 0xAAAAAAAAAAAA3B28 q
      = rotl64 0xAAAAAAAAAAAA3B28 (((q : Nat) + 1) % 64) := by
  revert q
  decide

theorem idle_stream_register {S : Type} (ch : MPT1327Channel S) (r : Fin 64) (n : Nat) :
    (rx_bits ((List.range n).map (fun t => codeword_bit 0xAAAAAAAAAAAA3B28 (((r : Nat) + t) % 64)))
        { ch with rx_cw := rotl64 0xAAAAAAAAAAAA3B28 r }).rx_cw
      = rotl64 0xAAAAAAAAAAAA3B28 (((r : Nat) + n) % 64) ∧
    (rx_bits ((List.range n).map (fun t => codeword_bit 0xAAAAAAAAAAAA3B28 (((r : Nat) + t) % 64)))
        { ch with rx_cw := rotl64 0xAAAAAAAAAAAA3B28 r }).rx_log = ch.rx_log := by
  induction n with
  | zero =>
    refine ⟨?_, rfl⟩
    show rotl64 0xAAAAAAAAAAAA3B28 r = rotl64 0xAAAAAAAAAAAA3B28 (((r : Nat) + 0) % 64)
    rw [Nat.add_zero, Nat.mod_eq_of_lt r.isLt]
  | succ k ih =>
    obtain ⟨h1, h2⟩ := ih
    rw [List.range_succ, List.map_append, List.map_singleton, rx_bits_snoc]
    have hq : ((r : Nat) + k) % 64 < 64 := Nat.mod_lt _ (by norm_num)
    have hstep := idle_rotation_step ⟨((r : Nat) + k) % 64, hq⟩
    have hfail := idle_rotations_fail ⟨(((r : Nat) + k) % 64 + 1) % 64, Nat.mod_lt _ (by norm_num)⟩
    simp only [] at hstep hfail
    have e : (((r : Nat) + k) % 64 + 1) % 64 = ((r : Nat) + (k + 1)) % 64 := by omega
    rw [e] at hstep hfail
    rw [modem_rx_rx_cw, modem_rx_rx_log, h1, h2, hstep, if_neg hfail]
    exact ⟨rfl, List.append_nil _⟩

/-- Claim C29: each of the 64 left rotations of the idle word `0xAAAAAAAAAAAA3B28` fails the
check of `modem_rx`; and a receiver whose register holds the rotation by `r` and that is
handed the bits that follow in a continuous repetition of the idle word never calls `recv`,
for any number `n` of bits. -/
theorem idle_stream_never_delivered {S : Type} (ch : MPT1327Channel S) (r : Fin 64)
    (n : Nat) :
    mpt1327_channel_fcs (rotl64 0xAAAAAAAAAAAA3B28 r >>> 16)
      ≠ rotl64 0xAAAAAAAAAAAA3B28 r &&& 0xFFFF ∧
    (rx_bits ((List.range n).map (fun t => codeword_bit 0xAAAAAAAAAAAA3B28 (((r : Nat) + t) % 64)))
        { ch with rx_cw := rotl64 0xAAAAAAAAAAAA3B28 r }).rx_log = ch.rx_log :=
  ⟨idle_rotations_fail r, (idle_stream_register ch r n).2⟩

/-! ## Theorems: bit synchroniser -/

/-- A pass through the loop of `modem_rx` is the bit detector, the bit synchroniser on the
sliced bit and the advance of the filter position. -/
theorem rx_step_eq_bit_sync {U S : Type} (ops : DemodOps S) (rx_f : Nat → U → U) (x : S)
    (st : (MSKDemodContext S × U) × (Int × Int)) :
    mskmodem.rx_step ops rx_f x st
      = ((mskmodem.rx_advance
            (mskmodem.rx_bit_sync rx_f (mskmodem.rx_bit_detector ops x st.1.1).2
              (((mskmodem.rx_bit_detector ops x st.1.1).1, st.1.2), st.2)).1.1,
          (mskmodem.rx_bit_sync rx_f (mskmodem.rx_bit_detector ops x st.1.1).2
            (((mskmodem.rx_bit_detector ops x st.1.1).1, st.1.2), st.2)).1.2),
         (mskmodem.rx_bit_sync rx_f (mskmodem.rx_bit_detector ops x st.1.1).2
            (((mskmodem.rx_bit_detector ops x st.1.1).1, st.1.2), st.2)).2) := rfl

theorem rx_zero_crossing_pll {S : Type} (ops : DemodOps S) (x : S) (u : MSKDemodContext S) :
    (mskmodem.rx_zero_crossing ops x u).pll = u.pll ∧
    (mskmodem.rx_zero_crossing ops x u).pll_count = u.pll_count ∧
    (mskmodem.rx_zero_crossing ops x u).slast = u.slast := by
  unfold mskmodem.rx_zero_crossing
  dsimp only
  split_ifs <;> exact ⟨rfl, rfl, rfl⟩

theorem rx_discriminator_pll {S : Type} (u : MSKDemodContext S) :
    (mskmodem.rx_discriminator u).1.pll = u.pll ∧
    (mskmodem.rx_discriminator u).1.pll_count = u.pll_count ∧
    (mskmodem.rx_discriminator u).1.slast = u.slast := by
  unfold mskmodem.rx_discriminator
  dsimp only
  by_cases h : u.mst > 0
  · simp only [h, if_true]
    split <;> exact ⟨rfl, rfl, rfl⟩
  · simp only [h, if_false]
    split <;> exact ⟨rfl, rfl, rfl⟩

theorem rx_bit_detector_pll {S : Type} (ops : DemodOps S) (x : S) (u : MSKDemodContext S) :
    (mskmodem.rx_bit_detector ops x u).1.pll = u.pll ∧
    (mskmodem.rx_bit_detector ops x u).1.pll_count = u.pll_count ∧
    (mskmodem.rx_bit_detector ops x u).1.slast = u.slast := by
  obtain ⟨a1, a2, a3⟩ := rx_zero_crossing_pll ops x u
  obtain ⟨b1, b2, b3⟩ := rx_discriminator_pll (mskmodem.rx_zero_crossing ops x u)
  unfold mskmodem.rx_bit_detector
  dsimp only
  exact ⟨b1.trans a1, b2.trans a2, b3.trans a3⟩

theorem rx_bit_detector_bit {S : Type} (ops : DemodOps S) (x : S) (u : MSKDemodContext S) :
    (mskmodem.rx_bit_detector ops x u).2 = 0 ∨ (mskmodem.rx_bit_detector ops x u).2 = 1 := by
  unfold mskmodem.rx_bit_detector
  dsimp only
  split
  · exact Or.inr rfl
  · exact Or.inl rfl

theorem rx_advance_pll {S : Type} (u : MSKDemodContext S) :
    (mskmodem.rx_advance u).pll = u.pll ∧
    (mskmodem.rx_advance u).pll_count = u.pll_count ∧
    (mskmodem.rx_advance u).slast = u.slast := by
  unfold mskmodem.rx_advance
  split <;> exact ⟨rfl, rfl, rfl⟩

theorem rx_transition_pll {S : Type} (u : MSKDemodContext S) (b : Int) :
    (mskmodem.rx_transition u b).1.pll = u.pll ∧
    (mskmodem.rx_transition u b).1.pll_count = u.pll_count ∧
    (mskmodem.rx_transition u b).1.slast = b ∧
    (mskmodem.rx_transition u b).2 = (if b ≠ u.slast then 1 else 0) := by
  unfold mskmodem.rx_transition
  dsimp only
  by_cases h : b ≠ u.slast
  · rw [if_pos h]
    exact ⟨rfl, rfl, rfl, rfl⟩
  · rw [if_neg h]
    exact ⟨rfl, rfl, (not_not.mp h).symm, rfl⟩

theorem rx_pll_pll {U S : Type} (rx_f : Nat → U → U) (b snrz : Int)
    (st : (MSKDemodContext S × U) × (Int × Int)) :
    (mskmodem.rx_pll rx_f b snrz st).1.1.pll = (if st.1.1.pll_count > 20 then 0 else 1) ∧
    (mskmodem.rx_pll rx_f b snrz st).1.2
      = (if st.1.1.pll_count ≤ 20 ∧ st.1.1.pll = 0 then rx_f b.toNat st.1.2 else st.1.2) ∧
    (mskmodem.rx_pll rx_f b snrz st).1.1.slast = st.1.1.slast := by
  have e : (40 / 2 : Int) = 20 := by norm_num
  unfold mskmodem.rx_pll
  dsimp only
  simp only [e]
  by_cases hc : st.1.1.pll_count > 20
  · have hn : ¬ (st.1.1.pll_count ≤ 20 ∧ st.1.1.pll = 0) := fun h => by omega
    rw [if_neg hn]
    simp only [hc, if_true]
    split_ifs <;> refine ⟨?_, ?_, ?_⟩ <;> first | rfl | trivial
  · by_cases hp : st.1.1.pll = 0
    · have hy : st.1.1.pll_count ≤ 20 ∧ st.1.1.pll = 0 := ⟨by omega, hp⟩
      rw [if_pos hy]
      simp only [hc, if_false, hp, if_true]
      split_ifs <;> refine ⟨?_, ?_, ?_⟩ <;> first | rfl | trivial
    · have hn : ¬ (st.1.1.pll_count ≤ 20 ∧ st.1.1.pll = 0) := fun h => hp h.2
      rw [if_neg hn]
      simp only [hc, if_false, hp]
      split_ifs <;> refine ⟨?_, ?_, ?_⟩ <;> first | rfl | trivial

theorem rx_bit_sync_pll {U S : Type} (rx_f : Nat → U → U) (b : Int)
    (st : (MSKDemodContext S × U) × (Int × Int)) :
    (mskmodem.rx_bit_sync rx_f b st).1.1.pll = (if st.1.1.pll_count > 20 then 0 else 1) ∧
    (mskmodem.rx_bit_sync rx_f b st).1.2
      = (if st.1.1.pll_count ≤ 20 ∧ st.1.1.pll = 0 then rx_f b.toNat st.1.2 else st.1.2) ∧
    (mskmodem.rx_bit_sync rx_f b st).1.1.slast = b := by
  obtain ⟨t1, t2, t3, _⟩ := rx_transition_pll st.1.1 b
  obtain ⟨p1, p2, p3⟩ := rx_pll_pll rx_f b (mskmodem.rx_transition st.1.1 b).2
    (((mskmodem.rx_transition st.1.1 b).1, st.1.2), st.2)
  simp only [t1, t2, t3] at p1 p2 p3
  exact ⟨p1, p2, p3⟩

/-- The bit synchroniser acts on `pll_count`, `slast` and the two locals as `pll_core`
does. -/
theorem rx_bit_sync_core {U S : Type} (rx_f : Nat → U → U) (b : Int)
    (st : (MSKDemodContext S × U) × (Int × Int)) :
    ((mskmodem.rx_bit_sync rx_f b st).1.1.pll_count,
      (mskmodem.rx_bit_sync rx_f b st).1.1.slast,
      (mskmodem.rx_bit_sync rx_f b st).2.1, (mskmodem.rx_bit_sync rx_f b st).2.2)
      = pll_core b (st.1.1.pll_count, st.1.1.slast, st.2.1, st.2.2) := by
  have hs := (rx_bit_sync_pll rx_f b st).2.2
  obtain ⟨t1, t2, t3, t4⟩ := rx_transition_pll st.1.1 b
  rw [hs]
  unfold mskmodem.rx_bit_sync mskmodem.rx_pll pll_core
  dsimp only
  rw [t2, t4]
  generalize (if st.1.1.pll_count < 40 / 2 - 1 ∧ (if b ≠ st.1.1.slast then (1 : Int) else 0) ≠ 0
    then (1 : Int) else st.2.1) = e
  generalize (if st.1.1.pll_count < 40 / 2 - 1 ∧ (if b ≠ st.1.1.slast then (1 : Int) else 0) ≠ 0
    then st.2.2
    else if st.1.1.pll_count > 40 / 2 + 1 ∧ (if b ≠ st.1.1.slast then (1 : Int) else 0) ≠ 0
      then 1 else st.2.2) = l
  generalize (decide ((st.1.1.pll_count = 40 - 1 - 2 ∧ e ≠ 0 ∧ l = 0) ∨
    (st.1.1.pll_count = 40 - 1 ∧ e = 0 ∧ l = 0) ∨
    (st.1.1.pll_count = 40 - 1 ∧ e ≠ 0 ∧ l ≠ 0) ∨
    (st.1.1.pll_count = 40 + 1 + 2))) = r
  cases r
  · simp only [Bool.false_eq_true, if_false]
    split <;> rfl
  · simp only [if_true]

/-! ## Theorems: resets and bit emissions of the demodulator -/

/-- One step of the bit synchroniser either counts on (and `pll_count` was not 43) or
resets `pll_count` to 0, which only happens at 37, 39 or 43. -/
theorem pll_core_count (b : Int) (s : Int × Int × Int × Int) :
    ((pll_core b s).1 = s.1 + 1 ∧ s.1 ≠ 43) ∨
    ((pll_core b s).1 = 0 ∧ (s.1 = 37 ∨ s.1 = 39 ∨ s.1 = 43)) := by
  unfold pll_core
  dsimp only
  generalize (if s.1 < 40 / 2 - 1 ∧ (if b ≠ s.2.1 then (1 : Int) else 0) ≠ 0
    then (1 : Int) else s.2.2.1) = e
  generalize (if s.1 < 40 / 2 - 1 ∧ (if b ≠ s.2.1 then (1 : Int) else 0) ≠ 0
    then s.2.2.2
    else if s.1 > 40 / 2 + 1 ∧ (if b ≠ s.2.1 then (1 : Int) else 0) ≠ 0
      then 1 else s.2.2.2) = l
  by_cases h : (s.1 = 40 - 1 - 2 ∧ e ≠ 0 ∧ l = 0) ∨ (s.1 = 40 - 1 ∧ e = 0 ∧ l = 0) ∨
    (s.1 = 40 - 1 ∧ e ≠ 0 ∧ l ≠ 0) ∨ (s.1 = 40 + 1 + 2)
  · rw [if_pos (by simpa using h)]
    refine Or.inr ⟨rfl, ?_⟩
    rcases h with h | h | h | h <;> omega
  · rw [if_neg (by simpa using h)]
    refine Or.inl ⟨rfl, ?_⟩
    intro h43
    exact h (Or.inr (Or.inr (Or.inr (by omega))))

/-- The `pll_count`, `pll` and callback data after one pass through the loop of
`modem_rx`, whatever the sample and the locals. -/
theorem rx_step_pll {U S : Type} (ops : DemodOps S) (rx_f : Nat → U → U) (x : S)
    (st : (MSKDemodContext S × U) × (Int × Int)) :
    (((mskmodem.rx_step ops rx_f x st).1.1.pll_count = st.1.1.pll_count + 1 ∧
        st.1.1.pll_count ≠ 43) ∨
      ((mskmodem.rx_step ops rx_f x st).1.1.pll_count = 0 ∧
        (st.1.1.pll_count = 37 ∨ st.1.1.pll_count = 39 ∨ st.1.1.pll_count = 43))) ∧
    (mskmodem.rx_step ops rx_f x st).1.1.pll = (if st.1.1.pll_count > 20 then 0 else 1) ∧
    (mskmodem.rx_step ops rx_f x st).1.2
      = (if st.1.1.pll_count ≤ 20 ∧ st.1.1.pll = 0 then
          rx_f (mskmodem.rx_bit_detector ops x st.1.1).2.toNat st.1.2
         else st.1.2) := by
  obtain ⟨d1, d2, d3⟩ := rx_bit_detector_pll ops x st.1.1
  have hcore := rx_bit_sync_core rx_f (mskmodem.rx_bit_detector ops x st.1.1).2
    (((mskmodem.rx_bit_detector ops x st.1.1).1, st.1.2), st.2)
  have hc := congrArg Prod.fst hcore
  obtain ⟨p1, p2, _⟩ := rx_bit_sync_pll rx_f (mskmodem.rx_bit_detector ops x st.1.1).2
    (((mskmodem.rx_bit_detector ops x st.1.1).1, st.1.2), st.2)
  have hcnt := pll_core_count (mskmodem.rx_bit_detector ops x st.1.1).2
    ((mskmodem.rx_bit_detector ops x st.1.1).1.pll_count,
      (mskmodem.rx_bit_detector ops x st.1.1).1.slast, st.2.1, st.2.2)
  simp only [d1, d2, d3] at hc p1 p2 hcnt
  rw [rx_step_eq_bit_sync]
  obtain ⟨a1, a2, _⟩ := rx_advance_pll
    (mskmodem.rx_bit_sync rx_f (mskmodem.rx_bit_detector ops x st.1.1).2
      (((mskmodem.rx_bit_detector ops x st.1.1).1, st.1.2), st.2)).1.1
  simp only [a1, a2]
  rw [hc, p1, p2]
  exact ⟨hcnt, rfl, rfl⟩

theorem rx_stream_step {U S : Type} (ops : DemodOps S) (rx_f : Nat → U → U) (xs : Nat → S)
    (fresh : Nat → Bool) (st0 : MSKDemodContext S × U) (k : Nat) :
    (((rx_stream ops rx_f xs fresh st0 (k + 1)).1.1.pll_count
          = (rx_stream ops rx_f xs fresh st0 k).1.1.pll_count + 1 ∧
        (rx_stream ops rx_f xs fresh st0 k).1.1.pll_count ≠ 43) ∨
      ((rx_stream ops rx_f xs fresh st0 (k + 1)).1.1.pll_count = 0 ∧
        ((rx_stream ops rx_f xs fresh st0 k).1.1.pll_count = 37 ∨
          (rx_stream ops rx_f xs fresh st0 k).1.1.pll_count = 39 ∨
          (rx_stream ops rx_f xs fresh st0 k).1.1.pll_count = 43))) ∧
    (rx_stream ops rx_f xs fresh st0 (k + 1)).1.1.pll
      = (if (rx_stream ops rx_f xs fresh st0 k).1.1.pll_count > 20 then 0 else 1) ∧
    (rx_stream ops rx_f xs fresh st0 (k + 1)).1.2
      = (if (rx_stream ops rx_f xs fresh st0 k).1.1.pll_count ≤ 20 ∧
            (rx_stream ops rx_f xs fresh st0 k).1.1.pll = 0 then
          rx_f (mskmodem.rx_bit_detector ops (xs k)
            (rx_stream ops rx_f xs fresh st0 k).1.1).2.toNat
            (rx_stream ops rx_f xs fresh st0 k).1.2
         else (rx_stream ops rx_f xs fresh st0 k).1.2) :=
  rx_step_pll ops rx_f (xs k)
    ((rx_stream ops rx_f xs fresh st0 k).1,
      if fresh k then (0, 0) else (rx_stream ops rx_f xs fresh st0 k).2)

theorem rx_stream_bounds {U S : Type} (ops : DemodOps S) (rx_f : Nat → U → U) (xs : Nat → S)
    (fresh : Nat → Bool) (st0 : MSKDemodContext S × U)
    (h0 : 0 ≤ st0.1.pll_count ∧ st0.1.pll_count ≤ 43) (k : Nat) :
    0 ≤ (rx_stream ops rx_f xs fresh st0 k).1.1.pll_count ∧
    (rx_stream ops rx_f xs fresh st0 k).1.1.pll_count ≤ 43 := by
  induction k with
  | zero => exact h0
  | succ j ih =>
    rcases (rx_stream_step ops rx_f xs fresh st0 j).1 with h | h <;> omega

theorem rx_stream_gate {U S : Type} (ops : DemodOps S) (rx_f : Nat → U → U) (xs : Nat → S)
    (fresh : Nat → Bool) (st0 : MSKDemodContext S × U)
    (h0 : 0 ≤ st0.1.pll_count ∧ st0.1.pll_count ≤ 43) (k : Nat) :
    (rx_stream ops rx_f xs fresh st0 (k + 1)).1.1.pll
      = (if (rx_stream ops rx_f xs fresh st0 (k + 1)).1.1.pll_count = 0 ∨
            22 ≤ (rx_stream ops rx_f xs fresh st0 (k + 1)).1.1.pll_count then 0 else 1) := by
  obtain ⟨h1, h2, _⟩ := rx_stream_step ops rx_f xs fresh st0 k
  have hb := rx_stream_bounds ops rx_f xs fresh st0 h0 k
  rw [h2]
  rcases h1 with h | h
  · by_cases hc : (rx_stream ops rx_f xs fresh st0 k).1.1.pll_count > 20
    · rw [if_pos hc, if_pos (Or.inr (by omega))]
    · rw [if_neg hc, if_neg (by omega)]
  · rw [if_pos (by omega), if_pos (Or.inl h.1)]

/-- From `mskmodem_init` on, the bit callback is called in pass `k` exactly when `k ≥ 1` and
`pll_count` is 0 before the pass, and then once, with the sliced bit. -/
theorem rx_stream_emission {U S : Type} (ops : DemodOps S) (rx_f : Nat → U → U)
    (xs : Nat → S) (fresh : Nat → Bool) (ud : U) (k : Nat) :
    (rx_stream ops rx_f xs fresh (mskmodem_demod_init ops, ud) (k + 1)).1.2
      = (if 1 ≤ k ∧
            (rx_stream ops rx_f xs fresh (mskmodem_demod_init ops, ud) k).1.1.pll_count = 0 then
          rx_f (mskmodem.rx_bit_detector ops (xs k)
            (rx_stream ops rx_f xs fresh (mskmodem_demod_init ops, ud) k).1.1).2.toNat
            (rx_stream ops rx_f xs fresh (mskmodem_demod_init ops, ud) k).1.2
         else (rx_stream ops rx_f xs fresh (mskmodem_demod_init ops, ud) k).1.2) := by
  have h0 : 0 ≤ (mskmodem_demod_init ops, ud).1.pll_count ∧
      (mskmodem_demod_init ops, ud).1.pll_count ≤ 43 := by
    norm_num [mskmodem_demod_init]
  rw [(rx_stream_step ops rx_f xs fresh _ k).2.2]
  cases k with
  | zero =>
    have hp : (rx_stream ops rx_f xs fresh (mskmodem_demod_init ops, ud) 0).1.1.pll = 40 := rfl
    rw [if_neg (by rw [hp]; omega), if_neg (by omega)]
  | succ j =>
    have hg := rx_stream_gate ops rx_f xs fresh _ h0 j
    have hb := rx_stream_bounds ops rx_f xs fresh _ h0 (j + 1)
    by_cases hc : (rx_stream ops rx_f xs fresh (mskmodem_demod_init ops, ud) (j + 1)).1.1.pll_count
        = 0
    · rw [if_pos ⟨by omega, by rw [hg, if_pos (Or.inl hc)]⟩, if_pos ⟨by omega, hc⟩]
    · rw [if_neg, if_neg (fun h => hc h.2)]
      intro h
      rw [hg] at h
      by_cases h22 : 22 ≤ (rx_stream ops rx_f xs fresh (mskmodem_demod_init ops, ud)
          (j + 1)).1.1.pll_count
      · omega
      · rw [if_neg (by omega)] at h
        omega

/-- A counter that starts at 0, counts up by one and can only fall back to 0 from 37, 39
or 43, and must do so from 43, is 0 again after 38, 40 or 44 steps and not before. -/
theorem pll_cycle_length (f : Nat → Int) (h0 : f 0 = 0)
    (hstep : ∀ j, (f (j + 1) = f j + 1 ∧ f j ≠ 43) ∨
      (f (j + 1) = 0 ∧ (f j = 37 ∨ f j = 39 ∨ f j = 43))) :
    ∃ d, (d = 38 ∨ d = 40 ∨ d = 44) ∧ f d = 0 ∧ ∀ j, 1 ≤ j → j < d → f j ≠ 0 := by
  have hlow : ∀ j, j ≤ 37 → f j = j := by
    intro j
    induction j with
    | zero => intro _; simpa using h0
    | succ i ih =>
      intro hi
      have := ih (by omega)
      rcases hstep i with h | h
      · rw [h.1, this]; push_cast; ring
      · omega
  have h37 : f 37 = 37 := by simpa using hlow 37 (le_refl _)
  have s37 : (f 38 = f 37 + 1 ∧ f 37 ≠ 43) ∨ (f 38 = 0 ∧ (f 37 = 37 ∨ f 37 = 39 ∨ f 37 = 43)) :=
    hstep 37
  have s38 : (f 39 = f 38 + 1 ∧ f 38 ≠ 43) ∨ (f 39 = 0 ∧ (f 38 = 37 ∨ f 38 = 39 ∨ f 38 = 43)) :=
    hstep 38
  have s39 : (f 40 = f 39 + 1 ∧ f 39 ≠ 43) ∨ (f 40 = 0 ∧ (f 39 = 37 ∨ f 39 = 39 ∨ f 39 = 43)) :=
    hstep 39
  have s40 : (f 41 = f 40 + 1 ∧ f 40 ≠ 43) ∨ (f 41 = 0 ∧ (f 40 = 37 ∨ f 40 = 39 ∨ f 40 = 43)) :=
    hstep 40
  have s41 : (f 42 = f 41 + 1 ∧ f 41 ≠ 43) ∨ (f 42 = 0 ∧ (f 41 = 37 ∨ f 41 = 39 ∨ f 41 = 43)) :=
    hstep 41
  have s42 : (f 43 = f 42 + 1 ∧ f 42 ≠ 43) ∨ (f 43 = 0 ∧ (f 42 = 37 ∨ f 42 = 39 ∨ f 42 = 43)) :=
    hstep 42
  have s43 : (f 44 = f 43 + 1 ∧ f 43 ≠ 43) ∨ (f 44 = 0 ∧ (f 43 = 37 ∨ f 43 = 39 ∨ f 43 = 43)) :=
    hstep 43
  have hlow2 : ∀ j, 1 ≤ j → j ≤ 37 → f j ≠ 0 := by
    intro j h1 h2
    rw [hlow j h2]
    omega
  rcases s37 with a | a
  · rcases s38 with b | b
    · rcases s39 with c | c
      · refine ⟨44, Or.inr (Or.inr rfl), by omega, ?_⟩
        intro j h1 h2
        by_cases hj : j ≤ 37
        · exact hlow2 j h1 hj
        · have : j = 38 ∨ j = 39 ∨ j = 40 ∨ j = 41 ∨ j = 42 ∨ j = 43 := by omega
          rcases this with h | h | h | h | h | h <;> subst h <;> omega
      · refine ⟨40, Or.inr (Or.inl rfl), c.1, ?_⟩
        intro j h1 h2
        by_cases hj : j ≤ 37
        · exact hlow2 j h1 hj
        · have : j = 38 ∨ j = 39 := by omega
          rcases this with h | h <;> subst h <;> omega
    · omega
  · refine ⟨38, Or.inl rfl, a.1, ?_⟩
    intro j h1 h2
    exact hlow2 j h1 (by omega)

/-! ## Theorems: calls of `modem_rx` as one stream of processed samples -/

theorem rx_loop_snoc {U S : Type} (ops : DemodOps S) (rx_f : Nat → U → U) (s : Int → S)
    (fuel : Nat) :
    ∀ (i : Int) (st : (MSKDemodContext S × U) × (Int × Int)),
      mskmodem.rx_loop ops rx_f s (fuel + 1) i st
        = mskmodem.rx_step ops rx_f (s (i + fuel)) (mskmodem.rx_loop ops rx_f s fuel i st) := by
  induction fuel with
  | zero =>
    intro i st
    show mskmodem.rx_step ops rx_f (s i) st = mskmodem.rx_step ops rx_f (s (i + ((0 : Nat) : Int))) st
    simp
  | succ k ih =>
    intro i st
    show mskmodem.rx_loop ops rx_f s (k + 1) (i + 1) (mskmodem.rx_step ops rx_f (s i) st) = _
    rw [ih (i + 1)]
    have e : i + 1 + (k : Int) = i + ((k + 1 : Nat) : Int) := by push_cast; ring
    rw [e]
    rfl

theorem rx_loop_stream {U S : Type} (ops : DemodOps S) (rx_f : Nat → U → U) (s : Int → S)
    (st : MSKDemodContext S × U) (n : Nat) :
    mskmodem.rx_loop ops rx_f s n 0 (st, (0, 0))
      = rx_stream ops rx_f (fun j => s j) (fun _ => false) st n := by
  induction n with
  | zero => rfl
  | succ k ih =>
    rw [rx_loop_snoc, ih]
    simp only [zero_add]
    rfl

/-- A call of `modem_rx` on `n` samples is the stream of its first `n - 1` samples. -/
theorem modem_rx_stream {U S : Type} (ops : DemodOps S) (rx_f : Nat → U → U)
    (rx_sound_f : U → (Int → S) → Int → U) (st : MSKDemodContext S × U) (s : Int → S)
    (n : Int) :
    mskmodem.modem_rx ops rx_f rx_sound_f st s n
      = (rx_stream ops rx_f (fun j => s j) (fun _ => false) (st.1, rx_sound_f st.2 s n)
          (n - 1).toNat).1 := by
  unfold mskmodem.modem_rx
  rw [rx_loop_stream]

theorem rx_stream_congr {U S : Type} (ops : DemodOps S) (rx_f : Nat → U → U)
    (xs ys : Nat → S) (fresh fresh2 : Nat → Bool) (st : MSKDemodContext S × U) (k : Nat)
    (h : ∀ j, j < k → xs j = ys j ∧ fresh j = fresh2 j) :
    rx_stream ops rx_f xs fresh st k = rx_stream ops rx_f ys fresh2 st k := by
  induction k with
  | zero => rfl
  | succ i ih =>
    show mskmodem.rx_step ops rx_f (xs i) _ = mskmodem.rx_step ops rx_f (ys i) _
    rw [ih (fun j hj => h j (by omega)), (h i (by omega)).1, (h i (by omega)).2]

theorem rx_stream_append {U S : Type} (ops : DemodOps S) (rx_f : Nat → U → U)
    (xs ys : Nat → S) (fresh fresh2 : Nat → Bool) (st : MSKDemodContext S × U) (n : Nat)
    (hx : ∀ j, xs (n + j) = ys j) (hf0 : fresh n = true)
    (hf : ∀ j, 1 ≤ j → fresh (n + j) = fresh2 j) (j : Nat) :
    (rx_stream ops rx_f xs fresh st (n + j)).1
        = (rx_stream ops rx_f ys fresh2 (rx_stream ops rx_f xs fresh st n).1 j).1 ∧
    (1 ≤ j → (rx_stream ops rx_f xs fresh st (n + j)).2
        = (rx_stream ops rx_f ys fresh2 (rx_stream ops rx_f xs fresh st n).1 j).2) := by
  induction j with
  | zero => exact ⟨rfl, fun h => absurd h (by omega)⟩
  | succ i ih =>
    have key : rx_stream ops rx_f xs fresh st (n + (i + 1))
        = rx_stream ops rx_f ys fresh2 (rx_stream ops rx_f xs fresh st n).1 (i + 1) := by
      show mskmodem.rx_step ops rx_f (xs (n + i))
          ((rx_stream ops rx_f xs fresh st (n + i)).1,
            if fresh (n + i) then (0, 0) else (rx_stream ops rx_f xs fresh st (n + i)).2)
        = mskmodem.rx_step ops rx_f (ys i)
          ((rx_stream ops rx_f ys fresh2 (rx_stream ops rx_f xs fresh st n).1 i).1,
            if fresh2 i then (0, 0)
            else (rx_stream ops rx_f ys fresh2 (rx_stream ops rx_f xs fresh st n).1 i).2)
      rw [hx i, ih.1]
      congr 2
      cases i with
      | zero =>
        rw [Nat.add_zero, hf0, if_pos rfl]
        show _ = if fresh2 0 = true then ((0 : Int), (0 : Int)) else (0, 0)
        split <;> rfl
      | succ m =>
        rw [hf (m + 1) (by omega), ih.2 (by omega)]
    exact ⟨congrArg Prod.fst key, fun _ => congrArg Prod.snd key⟩

/-- Successive calls of `modem_rx` (with a sound callback that leaves the callback data
alone) process one stream of samples: every call adds all but its last sample, the first
of them marked as fresh. -/
theorem rx_calls_stream {U S : Type} (ops : DemodOps S) (rx_f : Nat → U → U)
    (calls : List ((Int → S) × Int)) :
    ∀ st : MSKDemodContext S × U, ∃ (xs : Nat → S) (fresh : Nat → Bool) (k : Nat),
      rx_calls ops rx_f (fun ud _ _ => ud) calls st = (rx_stream ops rx_f xs fresh st k).1 := by
  induction calls with
  | nil => intro st; exact ⟨fun _ => ops.zero, fun _ => false, 0, rfl⟩
  | cons c rest ih =>
    intro st
    obtain ⟨ys, fresh2, k2, h2⟩ := ih (mskmodem.modem_rx ops rx_f (fun ud _ _ => ud) st c.1 c.2)
    have hm := modem_rx_stream ops rx_f (fun ud _ _ => ud) st c.1 c.2
    have hst : ((st.1, st.2) : MSKDemodContext S × U) = st := rfl
    simp only [hst] at hm
    refine ⟨fun j => if j < (c.2 - 1).toNat then c.1 j else ys (j - (c.2 - 1).toNat),
      fun j => if j < (c.2 - 1).toNat then false
        else if j = (c.2 - 1).toNat then true else fresh2 (j - (c.2 - 1).toNat),
      (c.2 - 1).toNat + k2, ?_⟩
    show rx_calls ops rx_f (fun ud _ _ => ud) rest
      (mskmodem.modem_rx ops rx_f (fun ud _ _ => ud) st c.1 c.2) = _
    rw [h2]
    have hpre := rx_stream_congr ops rx_f
      (fun j => if j < (c.2 - 1).toNat then c.1 j else ys (j - (c.2 - 1).toNat))
      (fun j => c.1 j)
      (fun j => if j < (c.2 - 1).toNat then false
        else if j = (c.2 - 1).toNat then true else fresh2 (j - (c.2 - 1).toNat))
      (fun _ => false) st (c.2 - 1).toNat
      (fun j hj => by simp only [if_pos hj]; exact ⟨trivial, trivial⟩)
    have happ := (rx_stream_append ops rx_f
      (fun j => if j < (c.2 - 1).toNat then c.1 j else ys (j - (c.2 - 1).toNat)) ys
      (fun j => if j < (c.2 - 1).toNat then false
        else if j = (c.2 - 1).toNat then true else fresh2 (j - (c.2 - 1).toNat))
      fresh2 st (c.2 - 1).toNat
      (fun j => by simp)
      (by simp)
      (fun j hj => by
        have h1 : ¬ ((c.2 - 1).toNat + j < (c.2 - 1).toNat) := by omega
        have h2 : ¬ ((c.2 - 1).toNat + j = (c.2 - 1).toNat) := by omega
        simp only [if_neg h1, if_neg h2, Nat.add_sub_cancel_left]) k2).1
    rw [happ, hpre, ← hm]

/-- Claim C22: from `mskmodem_init` on, for every stream of processed samples `xs`, cut into
`modem_rx` calls in any way (`fresh`), and every bit callback `rx_f`: the pass on sample `k`
calls `rx_f`, once and with the sliced bit, exactly when it is not the very first pass and
`pll_count` is 0 before it, that is when the pass before made a reset; `pll_count` is only
reset from 37, 39 or 43 and counts up by one otherwise; and when `pll_count` is 0 before
pass `k`, it is 0 again before pass `k + d` for `d` one of 38, 40, 44 and not in between, so
two consecutive calls of `rx_f` are 38, 40 or 44 processed samples apart.  The last part
says that the states after successive `modem_rx` calls are states of such a stream. -/
theorem pll_gate_one_bit_per_reset {U S : Type} (ops : DemodOps S) (rx_f : Nat → U → U)
    (xs : Nat → S) (fresh : Nat → Bool) (ud : U) (k : Nat)
    (calls : List ((Int → S) × Int)) :
    (rx_stream ops rx_f xs fresh (mskmodem_demod_init ops, ud) (k + 1)).1.2
      = (if 1 ≤ k ∧
            (rx_stream ops rx_f xs fresh (mskmodem_demod_init ops, ud) k).1.1.pll_count = 0 then
          rx_f (mskmodem.rx_bit_detector ops (xs k)
            (rx_stream ops rx_f xs fresh (mskmodem_demod_init ops, ud) k).1.1).2.toNat
            (rx_stream ops rx_f xs fresh (mskmodem_demod_init ops, ud) k).1.2
         else (rx_stream ops rx_f xs fresh (mskmodem_demod_init ops, ud) k).1.2) ∧
    (((rx_stream ops rx_f xs fresh (mskmodem_demod_init ops, ud) (k + 1)).1.1.pll_count
          = (rx_stream ops rx_f xs fresh (mskmodem_demod_init ops, ud) k).1.1.pll_count + 1 ∧
        (rx_stream ops rx_f xs fresh (mskmodem_demod_init ops, ud) k).1.1.pll_count ≠ 43) ∨
      ((rx_stream ops rx_f xs fresh (mskmodem_demod_init ops, ud) (k + 1)).1.1.pll_count = 0 ∧
        ((rx_stream ops rx_f xs fresh (mskmodem_demod_init ops, ud) k).1.1.pll_count = 37 ∨
          (rx_stream ops rx_f xs fresh (mskmodem_demod_init ops, ud) k).1.1.pll_count = 39 ∨
          (rx_stream ops rx_f xs fresh (mskmodem_demod_init ops, ud) k).1.1.pll_count = 43))) ∧
    ((rx_stream ops rx_f xs fresh (mskmodem_demod_init ops, ud) k).1.1.pll_count = 0 →
      ∃ d, (d = 38 ∨ d = 40 ∨ d = 44) ∧
        (rx_stream ops rx_f xs fresh (mskmodem_demod_init ops, ud) (k + d)).1.1.pll_count = 0 ∧
        ∀ j, 1 ≤ j → j < d →
          (rx_stream ops rx_f xs fresh (mskmodem_demod_init ops, ud) (k + j)).1.1.pll_count
            ≠ 0) ∧
    (∃ (ys : Nat → S) (fresh2 : Nat → Bool) (n : Nat),
      rx_calls ops rx_f (fun u _ _ => u) calls (mskmodem_demod_init ops, ud)
        = (rx_stream ops rx_f ys fresh2 (mskmodem_demod_init ops, ud) n).1) := by
  refine ⟨rx_stream_emission ops rx_f xs fresh ud k,
    (rx_stream_step ops rx_f xs fresh _ k).1, ?_, rx_calls_stream ops rx_f calls _⟩
  intro h0
  exact pll_cycle_length
    (fun j => (rx_stream ops rx_f xs fresh (mskmodem_demod_init ops, ud) (k + j)).1.1.pll_count)
    h0 (fun j => (rx_stream_step ops rx_f xs fresh _ (k + j)).1)

theorem modem_rx_bounds {U S : Type} (ops : DemodOps S) (rx_f : Nat → U → U)
    (rx_sound_f : U → (Int → S) → Int → U) (st : MSKDemodContext S × U) (s : Int → S)
    (n : Int) (h : 0 ≤ st.1.pll_count ∧ st.1.pll_count ≤ 43) :
    0 ≤ (mskmodem.modem_rx ops rx_f rx_sound_f st s n).1.pll_count ∧
    (mskmodem.modem_rx ops rx_f rx_sound_f st s n).1.pll_count ≤ 43 := by
  rw [modem_rx_stream]
  exact rx_stream_bounds ops rx_f _ _ (st.1, rx_sound_f st.2 s n) h _

theorem rx_calls_bounds {U S : Type} (ops : DemodOps S) (rx_f : Nat → U → U)
    (rx_sound_f : U → (Int → S) → Int → U) (calls : List ((Int → S) × Int)) :
    ∀ st : MSKDemodContext S × U, 0 ≤ st.1.pll_count ∧ st.1.pll_count ≤ 43 →
      0 ≤ (rx_calls ops rx_f rx_sound_f calls st).1.pll_count ∧
      (rx_calls ops rx_f rx_sound_f calls st).1.pll_count ≤ 43 := by
  induction calls with
  | nil => intro st h; exact h
  | cons c rest ih =>
    intro st h
    exact ih _ (modem_rx_bounds ops rx_f rx_sound_f st c.1 c.2 h)

/-- Claim C23, amended: in every demodulator state reached from `mskmodem_init`, after any
`modem_rx` calls and after any number `k` of passes of the loop of a further call (on
samples `xs`), `0 ≤ pll_count ≤ 43`. -/
theorem pll_count_range {U S : Type} (ops : DemodOps S) (rx_f : Nat → U → U)
    (rx_sound_f : U → (Int → S) → Int → U) (ud ud2 : U) (calls : List ((Int → S) × Int))
    (xs : Nat → S) (fresh : Nat → Bool) (k : Nat) :
    0 ≤ (rx_stream ops rx_f xs fresh
        ((rx_calls ops rx_f rx_sound_f calls (mskmodem_demod_init ops, ud)).1, ud2)
        k).1.1.pll_count ∧
    (rx_stream ops rx_f xs fresh
        ((rx_calls ops rx_f rx_sound_f calls (mskmodem_demod_init ops, ud)).1, ud2)
        k).1.1.pll_count ≤ 43 := by
  apply rx_stream_bounds
  exact rx_calls_bounds ops rx_f rx_sound_f calls _ (by norm_num [mskmodem_demod_init])

/-! ## Theorems: the demodulator on silence -/

theorem convolvesum_zero (coeff : Int → Int) (len : Int) (p : Int) :
    mskmodem.convolvesum exact_ops (fun _ => 0) coeff len p = 0 := by
  unfold mskmodem.convolvesum
  have h : ∀ (l : List Int) (q : Int),
      (l.foldl (fun (st : Int × Int) (n : Int) =>
        (exact_ops.add st.1 (exact_ops.mul ((fun _ => (0 : Int)) st.2) (coeff n)),
          if st.2 = 0 then len - 1 else st.2 - 1)) (0, q)).1 = 0 := by
    intro l
    induction l with
    | nil => intro q; rfl
    | cons a t ih =>
      intro q
      simp only [List.foldl_cons]
      have e : exact_ops.add (0 : Int) (exact_ops.mul 0 (coeff a)) = 0 := by
        show (0 : Int) + 0 * coeff a = 0
        ring
      rw [e]
      exact ih _
  exact h _ p

set_option maxRecDepth 1000000 in
theorem silence_lowpass (k : Fin 49) :
    exact_ops.gtHalf (mskmodem.convolvesum exact_ops
        (fun i => if 0 ≤ i ∧ i < (((k : Nat) + 1 : Nat) : Int) then 1 else 0)
        exact_ops.fir600 50 ((k : Nat) : Int))
      = decide (25 ≤ (k : Nat)) := by
  revert k
  decide

theorem update_const_zero (a : Int) :
    Function.update (fun _ : Int => (0 : Int)) a 0 = fun _ => 0 :=
  Function.update_eq_self a (fun _ : Int => (0 : Int))

theorem rx_discriminator_quiet {S : Type} (u : MSKDemodContext S) (hm : u.mst = 0)
    (hq : u.discqueue = fun _ => 0) :
    mskmodem.rx_discriminator u
      = ({ u with discpos := if u.discpos + 1 ≥ 15 then 0 else u.discpos + 1 }, 1) := by
  have h00 : ¬ ((0 : Int) > 0) := by decide
  obtain ⟨pll, filterpos, initfilter, last, discpos, discqueue, discfilter, mst, slast,
    pll_count⟩ := u
  simp only at hm hq
  subst hm hq
  unfold mskmodem.rx_discriminator
  simp only [if_neg h00, update_const_zero]
  have e : (1 : Int) - Int.land (Int.land 0 0) 0 = 1 := by decide
  rw [e]
  split <;> rfl

theorem silence_zero_crossing (k : Nat) (p c s : Int) :
    mskmodem.rx_zero_crossing exact_ops 0 (silence_state k p c s) = silence_state k p c s := by
  unfold mskmodem.rx_zero_crossing silence_state
  dsimp only
  rw [update_const_zero, convolvesum_zero]
  rfl

theorem silence_indicator (k : Nat) :
    Function.update (fun i : Int => if 0 ≤ i ∧ i < (k : Int) then (1 : Int) else 0) (k : Int) 1
      = fun i => if 0 ≤ i ∧ i < ((k + 1 : Nat) : Int) then 1 else 0 := by
  funext i
  by_cases h : i = (k : Int)
  · subst h
    rw [Function.update_same, if_pos (by push_cast; omega)]
  · rw [Function.update_noteq h]
    by_cases h2 : 0 ≤ i ∧ i < (k : Int)
    · rw [if_pos h2, if_pos (by push_cast; omega)]
    · rw [if_neg h2, if_neg (by push_cast; omega)]

theorem silence_detector (k : Nat) (hk : k < 49) (p c s : Int) :
    mskmodem.rx_bit_detector exact_ops 0 (silence_state k p c s)
      = ({ silence_state k p c s with
            discpos := ((k + 1) % 15 : Nat),
            discfilter := fun i => if 0 ≤ i ∧ i < ((k + 1 : Nat) : Int) then 1 else 0 },
          silence_bits k) := by
  have hlp := silence_lowpass ⟨k, hk⟩
  simp only [] at hlp
  have hpos : (if (silence_state k p c s).discpos + 1 ≥ 15 then (0 : Int)
      else (silence_state k p c s).discpos + 1) = (((k + 1) % 15 : Nat) : Int) := by
    show (if ((k % 15 : Nat) : Int) + 1 ≥ 15 then (0 : Int) else ((k % 15 : Nat) : Int) + 1) = _
    split <;> omega
  unfold mskmodem.rx_bit_detector
  rw [silence_zero_crossing, rx_discriminator_quiet _ rfl rfl, hpos]
  dsimp only
  have e1 : exact_ops.ofInt 1 = 1 := rfl
  have e2 : Function.update (silence_state k p c s).discfilter (silence_state k p c s).filterpos 1
      = fun i => if 0 ≤ i ∧ i < ((k + 1 : Nat) : Int) then 1 else 0 := silence_indicator k
  have e3 : (silence_state k p c s).filterpos = (k : Int) := rfl
  rw [e1, e2, e3, hlp]
  unfold silence_bits
  by_cases h : 25 ≤ k
  · simp [h]
  · simp [h]

theorem rx_bit_sync_frame {U S : Type} (rx_f : Nat → U → U) (b : Int)
    (st : (MSKDemodContext S × U) × (Int × Int)) :
    (mskmodem.rx_bit_sync rx_f b st).1.1
      = { st.1.1 with
          pll := (mskmodem.rx_bit_sync rx_f b st).1.1.pll,
          slast := (mskmodem.rx_bit_sync rx_f b st).1.1.slast,
          pll_count := (mskmodem.rx_bit_sync rx_f b st).1.1.pll_count } := by
  unfold mskmodem.rx_bit_sync mskmodem.rx_pll mskmodem.rx_transition
  dsimp only
  split_ifs <;> rfl

theorem silence_state_zero : mskmodem_demod_init exact_ops = silence_state 0 40 0 0 := by
  have e : (fun _ : Int => (0 : Int))
      = fun i : Int => if 0 ≤ i ∧ i < ((0 : Nat) : Int) then (1 : Int) else 0 := by
    funext i
    rw [if_neg (by push_cast; omega)]
  unfold silence_state
  rw [← e]
  rfl

theorem silence_step {U : Type} (rx_f : Nat → U → U) (k : Nat) (hk : k < 49) (p c s : Int)
    (ud : U) (fl : Int × Int) :
    ∃ p2, (mskmodem.rx_step exact_ops rx_f 0 ((silence_state k p c s, ud), fl)).1.1
        = silence_state (k + 1) p2 (pll_core (silence_bits k) (c, s, fl.1, fl.2)).1
            (pll_core (silence_bits k) (c, s, fl.1, fl.2)).2.1 ∧
      (mskmodem.rx_step exact_ops rx_f 0 ((silence_state k p c s, ud), fl)).2
        = ((pll_core (silence_bits k) (c, s, fl.1, fl.2)).2.2.1,
            (pll_core (silence_bits k) (c, s, fl.1, fl.2)).2.2.2) := by
  have hdet := silence_detector k hk p c s
  rw [rx_step_eq_bit_sync]
  dsimp only
  rw [hdet]
  dsimp only
  have hcore := rx_bit_sync_core rx_f (silence_bits k)
    (({ silence_state k p c s with
          discpos := ((k + 1) % 15 : Nat),
          discfilter := fun i => if 0 ≤ i ∧ i < ((k + 1 : Nat) : Int) then 1 else 0 }, ud), fl)
  have hfr := rx_bit_sync_frame rx_f (silence_bits k)
    (({ silence_state k p c s with
          discpos := ((k + 1) % 15 : Nat),
          discfilter := fun i => if 0 ≤ i ∧ i < ((k + 1 : Nat) : Int) then 1 else 0 }, ud), fl)
  have hcs : pll_core (silence_bits k)
      (({ silence_state k p c s with
          discpos := ((k + 1) % 15 : Nat),
          discfilter := fun i => if 0 ≤ i ∧ i < ((k + 1 : Nat) : Int) then 1 else 0 }
          : MSKDemodContext Int).pll_count,
       ({ silence_state k p c s with
          discpos := ((k + 1) % 15 : Nat),
          discfilter := fun i => if 0 ≤ i ∧ i < ((k + 1 : Nat) : Int) then 1 else 0 }
          : MSKDemodContext Int).slast, fl.1, fl.2)
      = pll_core (silence_bits k) (c, s, fl.1, fl.2) := rfl
  simp only [] at hcore
  rw [hcs] at hcore
  generalize mskmodem.rx_bit_sync rx_f (silence_bits k)
    (({ silence_state k p c s with
          discpos := ((k + 1) % 15 : Nat),
          discfilter := fun i => if 0 ≤ i ∧ i < ((k + 1 : Nat) : Int) then 1 else 0 }, ud), fl)
    = B at hcore hfr
  rw [← hcore]
  refine ⟨B.1.1.pll, ?_, rfl⟩
  rw [hfr]
  unfold mskmodem.rx_advance silence_state
  dsimp only
  rw [if_neg (by omega)]
  push_cast
  rfl

/-- The demodulator after `k` samples of silence in one `modem_rx` call, up to 49 samples:
the filters hold what `silence_state` says and the bit synchroniser has run on
`silence_bits`. -/
theorem silence_stream {U : Type} (rx_f : Nat → U → U) (ud : U) (k : Nat) (hk : k ≤ 49) :
    ∃ p, (rx_stream exact_ops rx_f (fun _ => 0) (fun _ => false)
          (mskmodem_demod_init exact_ops, ud) k).1.1
        = silence_state k p (pll_core_stream silence_bits (0, 0, 0, 0) k).1
            (pll_core_stream silence_bits (0, 0, 0, 0) k).2.1 ∧
      (rx_stream exact_ops rx_f (fun _ => 0) (fun _ => false)
          (mskmodem_demod_init exact_ops, ud) k).2
        = ((pll_core_stream silence_bits (0, 0, 0, 0) k).2.2.1,
            (pll_core_stream silence_bits (0, 0, 0, 0) k).2.2.2) := by
  induction k with
  | zero => exact ⟨40, silence_state_zero, rfl⟩
  | succ j ih =>
    obtain ⟨p, h1, h2⟩ := ih (by omega)
    have hD : rx_stream exact_ops rx_f (fun _ => 0) (fun _ => false)
        (mskmodem_demod_init exact_ops, ud) (j + 1)
        = mskmodem.rx_step exact_ops rx_f 0
            ((silence_state j p (pll_core_stream silence_bits (0, 0, 0, 0) j).1
                (pll_core_stream silence_bits (0, 0, 0, 0) j).2.1,
              (rx_stream exact_ops rx_f (fun _ => 0) (fun _ => false)
                (mskmodem_demod_init exact_ops, ud) j).1.2),
             ((pll_core_stream silence_bits (0, 0, 0, 0) j).2.2.1,
               (pll_core_stream silence_bits (0, 0, 0, 0) j).2.2.2)) := by
      rw [← h1, ← h2]
      rfl
    rw [hD]
    exact silence_step rx_f j (by omega) p _ _ _ _

set_option maxRecDepth 100000 in
theorem silence_core_count : (pll_core_stream silence_bits (0, 0, 0, 0) 43).1 = 43 := by
  decide

theorem modem_rx_silence {U : Type} (rx_f : Nat → U → U) (ud : U) (n : Nat) (hn : n ≤ 49) :
    (mskmodem.modem_rx exact_ops rx_f (fun u _ _ => u)
        (mskmodem_demod_init exact_ops, ud) (fun _ => 0) ((n : Int) + 1)).1.pll_count
      = (pll_core_stream silence_bits (0, 0, 0, 0) n).1 := by
  obtain ⟨p, h1, _⟩ := silence_stream rx_f ud n hn
  have e2 : ((n : Int) + 1 - 1).toNat = n := by omega
  rw [modem_rx_stream, e2]
  dsimp only
  rw [h1]
  rfl

/-- Counterexample to claim C23 as stated: from `mskmodem_init`, one `modem_rx` call on 44
samples of silence (all 0), with the filters in exact arithmetic, leaves `pll_count = 43`:
the low pass output passes one half at the 26th sample, when `pll_count` is 25, so only
`pll_late` is set and no reset happens at 37 or 39. -/
theorem pll_count_reaches_43 :
    (mskmodem.modem_rx exact_ops (fun _ u => u) (fun u _ _ => u)
        (mskmodem_demod_init exact_ops, ()) (fun _ => 0) 44).1.pll_count = 43 := by
  have e44 : (44 : Int) = ((43 : Nat) : Int) + 1 := by norm_num
  rw [e44]
  exact (modem_rx_silence (fun _ (u : Unit) => u) () 43 (by decide)).trans silence_core_count

/-! ## Theorems: pull-in of the bit synchroniser -/

/-- The bit synchroniser of the source and `pll_core` agree on the count, `slast` and the
flags along every bit stream. -/
theorem pll_stream_core {U S : Type} (rx_f : Nat → U → U) (bits : Nat → Int)
    (st0 : (MSKDemodContext S × U) × (Int × Int)) (k : Nat) :
    ((pll_stream rx_f bits st0 k).1.1.pll_count, (pll_stream rx_f bits st0 k).1.1.slast,
      (pll_stream rx_f bits st0 k).2.1, (pll_stream rx_f bits st0 k).2.2)
      = pll_core_stream bits (st0.1.1.pll_count, st0.1.1.slast, st0.2.1, st0.2.2) k := by
  induction k with
  | zero => rfl
  | succ k ih =>
    show _ = pll_core (bits k) (pll_core_stream bits _ k)
    rw [← ih]
    exact rx_bit_sync_core rx_f (bits k) (pll_stream rx_f bits st0 k)

theorem pll_stream_count {U S : Type} (rx_f : Nat → U → U) (bits : Nat → Int)
    (st0 : (MSKDemodContext S × U) × (Int × Int)) (k : Nat) :
    (pll_stream rx_f bits st0 k).1.1.pll_count
      = (pll_core_stream bits (st0.1.1.pll_count, st0.1.1.slast, st0.2.1, st0.2.2) k).1 :=
  congrArg Prod.fst (pll_stream_core rx_f bits st0 k)

theorem pll_core_stream_add (bits : Nat → Int) (s0 : Int × Int × Int × Int) (n m : Nat) :
    pll_core_stream bits s0 (n + m)
      = pll_core_stream (fun t => bits (t + n)) (pll_core_stream bits s0 n) m := by
  induction m with
  | zero => rfl
  | succ m ih =>
    show pll_core (bits (n + m)) (pll_core_stream bits s0 (n + m)) =
      pll_core (bits (m + n)) (pll_core_stream (fun t => bits (t + n)) _ m)
    rw [ih, Nat.add_comm n m]

/-- Without a toggle and without flags the synchroniser counts on, but at 39 and 43. -/
theorem pll_core_idle (c sl : Int) (h39 : c ≠ 39) (h43 : c ≠ 43) :
    pll_core sl (c, sl, 0, 0) = (c + 1, sl, 0, 0) := by
  unfold pll_core
  simp
  omega

/-- From a reset, the synchroniser counts up to `j ≤ 39` while the bits stay at `slast`. -/
theorem pll_core_free_run (bits : Nat → Int) (sl : Int) (j : Nat) (hj : j ≤ 39)
    (hb : ∀ t, t < j → bits t = sl) :
    pll_core_stream bits (0, sl, 0, 0) j = ((j : Int), sl, 0, 0) := by
  induction j with
  | zero => rfl
  | succ j ih =>
    show pll_core (bits j) (pll_core_stream bits (0, sl, 0, 0) j) = _
    rw [ih (by omega) (fun t ht => hb t (by omega)), hb j (by omega),
      pll_core_idle _ _ (by omega) (by omega)]
    simp

theorem square_wave_shift_before (a pol n t : Nat) (hn : n ≤ a) :
    square_wave a pol (t + n) = square_wave (a - n) pol t := by
  unfold square_wave
  have e : t + n - a = t - (a - n) := by omega
  by_cases h : t + n < a
  · rw [if_pos h, if_pos (by omega)]
  · rw [if_neg h, if_neg (by omega), e]

theorem square_wave_shift_after (a pol n t : Nat) (hpol : pol ≤ 1) (h1 : a < n)
    (h2 : n ≤ a + 40) :
    square_wave a pol (t + n) = square_wave (a + 40 - n) (1 - pol) t := by
  unfold square_wave
  rw [if_neg (by omega)]
  by_cases h : t < a + 40 - n
  · rw [if_pos h]
    congr 1
    omega
  · rw [if_neg h]
    congr 1
    omega

/-- A synchroniser at count `c0 ≤ 39` with clear flags is in the state that a reset `c0`
samples earlier would have led to. -/
theorem pll_core_virtual_start (c0 a pol m : Nat) (hc : c0 ≤ 39) :
    pll_core_stream (square_wave a pol) ((c0 : Int), (pol : Int), 0, 0) m
      = pll_core_stream (square_wave (a + c0) pol) (0, (pol : Int), 0, 0) (c0 + m) := by
  rw [pll_core_stream_add, pll_core_free_run _ _ c0 hc]
  · congr 1
    funext t
    rw [square_wave_shift_before _ _ _ _ (by omega)]
    congr 1
    omega
  · intro t ht
    unfold square_wave
    rw [if_pos (by omega)]

set_option maxRecDepth 1000000 in
theorem pll_cycle_early (d : Fin 19) (pol : Fin 2) :
    pll_core_stream (square_wave d pol) (0, ((pol : Nat) : Int), 0, 0) 38
      = (0, ((1 - (pol : Nat) : Nat) : Int), 0, 0) := by
  revert d pol
  decide

set_option maxRecDepth 1000000 in
theorem pll_cycle_late (d : Fin 18) (pol : Fin 2) :
    pll_core_stream (square_wave ((d : Nat) + 22) pol) (0, ((pol : Nat) : Int), 0, 0) 44
      = (0, ((1 - (pol : Nat) : Nat) : Int), 0, 0) := by
  revert d pol
  decide

set_option maxRecDepth 1000000 in
theorem pll_cycle_lock (d : Fin 3) (pol : Fin 2) :
    (pll_core_stream (square_wave ((d : Nat) + 19) pol) (0, ((pol : Nat) : Int), 0, 0) 39).1 = 39 ∧
    (pll_core_stream (square_wave ((d : Nat) + 19) pol) (0, ((pol : Nat) : Int), 0, 0) 40).1
      = 0 := by
  revert d pol
  decide

/-- When the next toggle is 40 or more samples ahead, the reset comes at count 39. -/
theorem pll_cycle_lock_far (d pol : Nat) (hd : 40 ≤ d) :
    (pll_core_stream (square_wave d pol) (0, (pol : Int), 0, 0) 39).1 = 39 ∧
    (pll_core_stream (square_wave d pol) (0, (pol : Int), 0, 0) 40).1 = 0 := by
  have hb : ∀ t, t < 40 → square_wave d pol t = (pol : Int) := by
    intro t ht
    unfold square_wave
    rw [if_pos (by omega)]
  have h39 := pll_core_free_run (square_wave d pol) (pol : Int) 39 (by decide)
    (fun t ht => hb t (by omega))
  refine ⟨by rw [h39]; rfl, ?_⟩
  show (pll_core (square_wave d pol 39) (pll_core_stream (square_wave d pol) _ 39)).1 = 0
  rw [h39, hb 39 (by decide)]
  unfold pll_core
  simp

/-- The time that `pull_in_time` gives is the time of the reset at count 39. -/
theorem pull_in_time_spec (fuel : Nat) : ∀ (d pol k : Nat), d < 79 → pol ≤ 1 →
    pull_in_time fuel d = some k →
    39 ≤ k ∧ (pll_core_stream (square_wave d pol) (0, (pol : Int), 0, 0) k).1 = 39 ∧
      (pll_core_stream (square_wave d pol) (0, (pol : Int), 0, 0) (k + 1)).1 = 0 := by
  induction fuel with
  | zero =>
    intro d pol k _ _ h
    simp [pull_in_time] at h
  | succ fuel ih =>
    intro d pol k hd hpol h
    unfold pull_in_time at h
    by_cases h19 : d < 19
    · rw [if_pos h19] at h
      obtain ⟨k1, hk1, rfl⟩ := Option.map_eq_some'.mp h
      obtain ⟨i1, i2, i3⟩ := ih (d + 2) (1 - pol) k1 (by omega) (by omega) hk1
      have hc := pll_cycle_early ⟨d, h19⟩ ⟨pol, by omega⟩
      have hs : (fun t => square_wave d pol (t + 38)) = square_wave (d + 2) (1 - pol) := by
        funext t
        rw [square_wave_shift_after d pol 38 t hpol (by omega) (by omega)]
        congr 1
      refine ⟨by omega, ?_, ?_⟩
      · rw [pll_core_stream_add, hs, hc]
        exact i2
      · rw [Nat.add_assoc, pll_core_stream_add, hs, hc]
        exact i3
    · rw [if_neg h19] at h
      by_cases hl : d ≤ 21 ∨ 40 ≤ d
      · rw [if_pos hl] at h
        obtain rfl : 39 = k := Option.some.inj h
        refine ⟨le_refl _, ?_⟩
        rcases hl with hl | hl
        · have hc := pll_cycle_lock ⟨d - 19, by omega⟩ ⟨pol, by omega⟩
          have e : d - 19 + 19 = d := by omega
          simp only [e] at hc
          exact hc
        · exact pll_cycle_lock_far d pol hl
      · rw [if_neg hl] at h
        obtain ⟨k1, hk1, rfl⟩ := Option.map_eq_some'.mp h
        obtain ⟨i1, i2, i3⟩ := ih (d - 4) (1 - pol) k1 (by omega) (by omega) hk1
        have hc := pll_cycle_late ⟨d - 22, by omega⟩ ⟨pol, by omega⟩
        have e : d - 22 + 22 = d := by omega
        simp only [e] at hc
        have hs : (fun t => square_wave d pol (t + 44)) = square_wave (d - 4) (1 - pol) := by
          funext t
          rw [square_wave_shift_after d pol 44 t hpol (by omega) (by omega)]
          congr 1
        refine ⟨by omega, ?_, ?_⟩
        · rw [pll_core_stream_add, hs, hc]
          exact i2
        · rw [Nat.add_assoc, pll_core_stream_add, hs, hc]
          exact i3

theorem pull_in_time_bound (d : Fin 79) :
    (pull_in_time 12 d).map (fun k => decide (k ≤ 419)) = some true := by
  revert d
  decide

theorem pull_in_time_le (d : Nat) (hd : d < 79) : ∃ k, pull_in_time 12 d = some k ∧ k ≤ 419 := by
  have h := pull_in_time_bound ⟨d, hd⟩
  obtain ⟨k, hk, hle⟩ := Option.map_eq_some'.mp h
  exact ⟨k, hk, by simpa using hle⟩

set_option maxRecDepth 1000000 in
/-- From a count of 40, 41 or 42 with clear flags the counter runs to the reset at 43. -/
theorem pll_core_overrun (c : Fin 3) (a : Fin 40) (pol : Fin 2) :
    pll_core_stream (square_wave a pol) ((((c : Nat) + 40 : Nat) : Int), ((pol : Nat) : Int), 0, 0)
        (4 - (c : Nat))
      = (0, square_wave a pol (3 - (c : Nat)), 0, 0) := by
  revert c a pol
  decide

/-- Pull-in of `pll_core`: from every count in [0,42] with clear flags, on a bit stream
that toggles every 40 samples, a reset at count 39 comes within 424 samples. -/
theorem pll_core_pull_in (c0 a pol : Nat) (hc : c0 ≤ 42) (ha : a < 40) (hpol : pol ≤ 1) :
    ∃ k, k < 424 ∧
      (pll_core_stream (square_wave a pol) ((c0 : Int), (pol : Int), 0, 0) k).1 = 39 ∧
      (pll_core_stream (square_wave a pol) ((c0 : Int), (pol : Int), 0, 0) (k + 1)).1 = 0 := by
  by_cases h39 : c0 ≤ 39
  · obtain ⟨k, hk, hle⟩ := pull_in_time_le (a + c0) (by omega)
    obtain ⟨i1, i2, i3⟩ := pull_in_time_spec 12 (a + c0) pol k (by omega) hpol hk
    refine ⟨k - c0, by omega, ?_, ?_⟩
    · rw [pll_core_virtual_start c0 a pol _ h39]
      have e : c0 + (k - c0) = k := by omega
      rw [e]
      exact i2
    · rw [pll_core_virtual_start c0 a pol _ h39]
      have e : c0 + (k - c0 + 1) = k + 1 := by omega
      rw [e]
      exact i3
  · have ho := pll_core_overrun ⟨c0 - 40, by omega⟩ ⟨a, ha⟩ ⟨pol, by omega⟩
    have e : c0 - 40 + 40 = c0 := by omega
    simp only [e] at ho
    have e4 : 4 - (c0 - 40) = 44 - c0 := by omega
    have e3 : 3 - (c0 - 40) = 43 - c0 := by omega
    rw [e4, e3] at ho
    by_cases hn : 44 - c0 ≤ a
    · have hs : (fun t => square_wave a pol (t + (44 - c0))) = square_wave (a - (44 - c0)) pol := by
        funext t
        exact square_wave_shift_before a pol (44 - c0) t hn
      have hb : square_wave a pol (43 - c0) = (pol : Int) := by
        unfold square_wave
        rw [if_pos (by omega)]
      obtain ⟨k, hk, hle⟩ := pull_in_time_le (a - (44 - c0)) (by omega)
      obtain ⟨i1, i2, i3⟩ := pull_in_time_spec 12 (a - (44 - c0)) pol k (by omega) hpol hk
      refine ⟨44 - c0 + k, by omega, ?_, ?_⟩
      · rw [pll_core_stream_add, hs, ho, hb]
        exact i2
      · rw [Nat.add_assoc, pll_core_stream_add, hs, ho, hb]
        exact i3
    · have hs : (fun t => square_wave a pol (t + (44 - c0)))
          = square_wave (a + 40 - (44 - c0)) (1 - pol) := by
        funext t
        exact square_wave_shift_after a pol (44 - c0) t hpol (by omega) (by omega)
      have hb : square_wave a pol (43 - c0) = ((1 - pol : Nat) : Int) := by
        unfold square_wave
        rw [if_neg (by omega)]
        congr 1
        omega
      obtain ⟨k, hk, hle⟩ := pull_in_time_le (a + 40 - (44 - c0)) (by omega)
      obtain ⟨i1, i2, i3⟩ :=
        pull_in_time_spec 12 (a + 40 - (44 - c0)) (1 - pol) k (by omega) (by omega) hk
      refine ⟨44 - c0 + k, by omega, ?_, ?_⟩
      · rw [pll_core_stream_add, hs, ho, hb]
        exact i2
      · rw [Nat.add_assoc, pll_core_stream_add, hs, ho, hb]
        exact i3

set_option maxRecDepth 1000000 in
/-- On bits that toggle at samples 0, 40 and 80, the synchroniser started at count 0 makes
three resets in its first 120 samples, each at count 37. -/
theorem pll_core_slow_resets :
    ((List.range 120).filter
        (fun k => decide ((pll_core_stream (square_wave 0 0) (0, 0, 0, 0) (k + 1)).1 = 0))).map
      (fun k => (pll_core_stream (square_wave 0 0) (0, 0, 0, 0) k).1) = [37, 37, 37] := by
  decide

/-- Counterexample to claim C24 as stated: the bit synchroniser in the state of
`mskmodem_init` (`pll_count = 0`, `slast = 0`, flags clear), fed with sliced bits that
toggle at samples 0, 40, 80, ..., makes three resets in its first 120 samples and every one
of them at `pll_count = 37`, none at 39: each toggle comes early and the synchroniser gains
only 2 samples a bit. -/
theorem pll_pull_in_not_within_120 :
    ((List.range 120).filter
        (fun k => decide ((pll_stream (fun _ (u : Unit) => u) (square_wave 0 0)
          ((mskmodem_demod_init exact_ops, ()), (0, 0)) (k + 1)).1.1.pll_count = 0))).map
      (fun k => (pll_stream (fun _ (u : Unit) => u) (square_wave 0 0)
          ((mskmodem_demod_init exact_ops, ()), (0, 0)) k).1.1.pll_count) = [37, 37, 37] := by
  simp only [pll_stream_count]
  exact pll_core_slow_resets

/-- Claim C24, amended: for every state of the bit synchroniser with `pll_count` in [0,42]
and the early/late flags clear, and every alignment `a < 40` and polarity of a sliced bit
stream that toggles exactly every 40 samples (at `a`, `a + 40`, ...), the synchroniser
performs a reset at `pll_count = 39` within 424 samples, that is within 11 bit periods. -/
theorem pll_pull_in_within_424 {U S : Type} (rx_f : Nat → U → U)
    (st0 : (MSKDemodContext S × U) × (Int × Int)) (a pol : Nat)
    (hc0 : 0 ≤ st0.1.1.pll_count) (hc1 : st0.1.1.pll_count ≤ 42)
    (hfl : st0.2 = (0, 0)) (ha : a < 40) (hpol : pol ≤ 1)
    (hsl : st0.1.1.slast = (pol : Int)) :
    ∃ k, k < 424 ∧ (pll_stream rx_f (square_wave a pol) st0 k).1.1.pll_count = 39 ∧
      (pll_stream rx_f (square_wave a pol) st0 (k + 1)).1.1.pll_count = 0 := by
  obtain ⟨k, hk, h1, h2⟩ :=
    pll_core_pull_in st0.1.1.pll_count.toNat a pol (by omega) ha hpol
  have e : ((st0.1.1.pll_count.toNat : Nat) : Int) = st0.1.1.pll_count := Int.toNat_of_nonneg hc0
  have e1 : st0.2.1 = 0 := by rw [hfl]
  have e2 : st0.2.2 = 0 := by rw [hfl]
  rw [e] at h1 h2
  refine ⟨k, hk, ?_, ?_⟩
  · rw [pll_stream_count, hsl, e1, e2]
    exact h1
  · rw [pll_stream_count, hsl, e1, e2]
    exact h2

/-- Witness for `pll_pull_in_within_424`: the state of `mskmodem_init` with bits that toggle
at samples 0, 40, 80, ... -/
theorem pll_pull_in_within_424_witness :
    ∃ k, k < 424 ∧
      (pll_stream (fun _ (u : Unit) => u) (square_wave 0 0)
        ((mskmodem_demod_init exact_ops, ()), (0, 0)) k).1.1.pll_count = 39 ∧
      (pll_stream (fun _ (u : Unit) => u) (square_wave 0 0)
        ((mskmodem_demod_init exact_ops, ()), (0, 0)) (k + 1)).1.1.pll_count = 0 :=
  pll_pull_in_within_424 (fun _ (u : Unit) => u) ((mskmodem_demod_init exact_ops, ()), (0, 0))
    0 0 (by decide) (by decide) rfl (by decide) (by decide) rfl
